import Mathlib

/-!
# pdf-worker: text linearizer, recognizer feature extractor and worker

A shallow embedding of `src/index.js`.  The document engine (pdf.js) is a
collaborator: what it answers for a document is data of the model
(`PdfDocument`), what `index.js` does with the answers is translated function
by function.

Conventions of the embedding.

* A JavaScript array is a `List`; `push x` is `xs ++ [x]`, `pop()` is
  `List.dropLast` (on the empty array `pop()` changes nothing).
* The output buffer `text` of `getFulltext` is an array of strings, joined with
  the empty separator at the end (`text.join("")` is `String.join`).
* `line !== paragraph.lines.at(-1)` compares object identity; the engine builds
  a fresh object for every line and paragraph, so the test is positional: it is
  true exactly when further elements follow in the array.
* A finite number is written as the rational it denotes; `NaN` and the
  infinities are separate values.  The coordinates the engine delivers are
  finite, and the arithmetic of `getRecognizerData` on them is that of IEEE 754
  binary64: every operation yields the double nearest to the exact result, ties
  going to the even significand (`toDouble`); the two zeros are one value.
  The counter `promiseID` is an exact natural number.
* An `await` on the engine either yields a value or rejects: `Except Fault`.
  What a pipeline throws is an error object or any other value the engine
  rejects with (`Fault.thrown`).  The own properties of an error object
  (`message`, `stack`, `name`, ...) depend on the host and on the engine; they
  are a parameter (`OwnProperties`).
* The worker is single-threaded: its state changes in steps (`query`, an
  inbound message, a fetch through a provider run to its end), and a fetch is
  sequential when it ends before the next one starts.  The handler of a
  request is run to its end in one step; the fetches the engine makes through
  the two providers while the pipeline runs are part of that step.  When the
  handler rejects, the state it leaves is the one after these fetches.
-/

namespace PdfWorker

/-! ## Data model -/

/-- Data as a failure carries it and as `JSON` holds it: a primitive value, or a
plain object (prototype `Object.prototype`) whose own properties, listed in the
order of `Object.getOwnPropertyNames`, hold such data. -/
inductive PlainValue where
  | undefined
  | null
  | boolean (b : Bool)
  | number (q : ℚ)
  | nan
  | infinity (negative : Bool)
  | string (s : String)
  | object (props : List (String × PlainValue))

/-- Failure of a pipeline or of the handler: a rejected engine call, a
`TypeError` raised by the host, the engine's `XRefParseException`, a
`SyntaxError` raised by `JSON.parse` (all four error objects with a message), or
any other value thrown. -/
inductive Fault where
  | engine (message : String)
  | typeError (message : String)
  | xRefParse (message : String)
  | syntaxError (message : String)
  | thrown (value : PlainValue)

/-- JavaScript values, as far as `index.js` inspects them; `builtin name` is the
function or object the host provides under that name on `Object.prototype`. -/
inductive JSValue where
  | undefined
  | null
  | boolean (b : Bool)
  | number (q : ℚ)
  | nan
  | infinity (negative : Bool)
  | string (s : String)
  | object (props : List (String × JSValue))
  | builtin (name : String)

/-- An object is the list of its own enumerable properties in `for ... in`
order. -/
abbrev JSObject := List (String × JSValue)

/-- One character of the structured text (`char`). -/
structure Chr where
  c : String
  u : String
  fontName : String
  fontSize : ℚ
  baseline : ℚ
  rotation : ℚ
  bold : Bool
  italic : Bool
  deriving DecidableEq

/-- The array `word.rect`, components 0 to 3. -/
structure Rect where
  xMin : ℚ
  yMin : ℚ
  xMax : ℚ
  yMax : ℚ
  deriving DecidableEq

/-- One word of a line (`word`). -/
structure Word where
  chars : List Chr
  rect : Rect
  spaceAfter : Bool
  deriving DecidableEq

/-- One line of a paragraph (`line`). -/
structure Line where
  words : List Word
  hyphenated : Bool
  deriving DecidableEq

/-- One paragraph of a page (`paragraph`). -/
structure Paragraph where
  lines : List Line
  deriving DecidableEq

/-- What the engine holds for one page: the view box `page.view` and the
paragraphs of `structuredText`. -/
structure Page where
  view : ℚ × ℚ × ℚ × ℚ
  paragraphs : List Paragraph
  deriving DecidableEq

/-- The opened document `pdfManager.pdfDocument`: its info dictionary and, for
every page, what the engine answers when the page is requested. -/
structure PdfDocument where
  documentInfo : JSObject
  pages : List (Except Fault Page)

/-- The property `pdfDocument.numPages`. -/
def PdfDocument.numPages (pdfDocument : PdfDocument) : Nat :=
  pdfDocument.pages.length

/-- The call `getPageData(pdfDocument, ..., { pageIndex })` (lines 4-21): the
engine's answer for that page. -/
def getPageData (pdfDocument : PdfDocument) (pageIndex : Nat) : Except Fault Page :=
  match pdfDocument.pages.get? pageIndex with
  | some answer => answer
  | none => .error (.engine "Invalid page index")

/-! ## `getFulltext` (lines 51-106) -/

/-- Lines 76-78: every character of a word pushes its glyph text `char.c`. -/
def pushChars : List Chr → List String → List String
  | [], text => text
  | char :: rest, text => pushChars rest (text ++ [char.c])

/-- Lines 75-82: the loop over the words of a line. -/
def pushWords : List Word → List String → List String
  | [], text => text
  | word :: rest, text =>
    let text := pushChars word.chars text
    let text := if word.spaceAfter then text ++ [" "] else text
    pushWords rest text

/-- Lines 83-89: the join after the words of a line, `rest` being the lines
that follow it in the paragraph.  When the line is not the last one, a
hyphenated line pops the buffer and any other line pushes a space. -/
def joinLine (line : Line) (rest : List Line) (text : List String) : List String :=
  if rest ≠ [] then
    if line.hyphenated then text.dropLast else text ++ [" "]
  else text

/-- Lines 74-90: the loop over the lines of a paragraph. -/
def pushLines : List Line → List String → List String
  | [], text => text
  | line :: rest, text =>
    pushLines rest (joinLine line rest (pushWords line.words text))

/-- Lines 73-94: the loop over the paragraphs of a page; a newline is pushed
after every paragraph but the last. -/
def pushParagraphs : List Paragraph → List String → List String
  | [], text => text
  | paragraph :: rest, text =>
    let text := pushLines paragraph.lines text
    let text := if rest ≠ [] then text ++ ["\n"] else text
    pushParagraphs rest text

/-- Lines 66-98: the body of the page loop once the page data has arrived. -/
def pushPage (pagesNum : Int) (pageIndex : Nat) (page : Page) (text : List String) :
    List String :=
  let text := pushParagraphs page.paragraphs text
  let text := text ++ ["\n\n"]
  if (pageIndex : Int) ≠ pagesNum - 1 then text ++ ["\x0c"] else text

/-- Lines 65-99: `for (; pageIndex < pagesNum; pageIndex++)`.  The first
argument bounds the number of iterations; with the bound that `getFulltext`
passes, the loop always leaves through its own test (`pageLoop_spec`). -/
def pageLoop (pdfDocument : PdfDocument) (pagesNum : Int) :
    Nat → Nat → List String → Except Fault (List String × Nat)
  | 0, pageIndex, text => .ok (text, pageIndex)
  | steps + 1, pageIndex, text =>
    if (pageIndex : Int) < pagesNum then
      match getPageData pdfDocument pageIndex with
      | .error e => .error e
      | .ok page => pageLoop pdfDocument pagesNum steps (pageIndex + 1)
          (pushPage pagesNum pageIndex page text)
    else .ok (text, pageIndex)

/-- The test `Number.isInteger(v)`. -/
def JSValue.isInteger : JSValue → Bool
  | .number q => q.isInt
  | _ => false

/-- The test `v > n` for a page count `n`, where `v` is an integer number (the
only case in which line 60 evaluates it). -/
def JSValue.greaterThan : JSValue → Nat → Bool
  | .number q, n => decide ((n : ℚ) < q)
  | _, _ => false

/-- The integer an integer-valued number stands for. -/
def JSValue.toInt : JSValue → Int
  | .number q => q.num
  | _ => 0

/-- Lines 60-62: the page limit after the clamp. -/
def clampPagesNum (pagesNum : JSValue) (actualCount : Nat) : Int :=
  if !pagesNum.isInteger || pagesNum.greaterThan actualCount then (actualCount : Int)
  else pagesNum.toInt

/-- The object returned by `getFulltext`. -/
structure FulltextResult where
  text : String
  extractedPages : Nat
  totalPages : Nat
  deriving DecidableEq

/-- The function `getFulltext` on an opened document (lines 59-105), the
document being `pdfManager.pdfDocument` of line 58. -/
def getFulltext (pdfDocument : PdfDocument) (pagesNum : JSValue) :
    Except Fault FulltextResult :=
  let actualCount := pdfDocument.numPages
  let pagesNum := clampPagesNum pagesNum actualCount
  match pageLoop pdfDocument pagesNum pagesNum.toNat 0 [] with
  | .error e => .error e
  | .ok (text, pageIndex) =>
    .ok { text := String.join text, extractedPages := pageIndex, totalPages := actualCount }

/-! ## `getRecognizerData` (lines 108-220) -/

/-- The result of an arithmetic operation on finite doubles: a finite double,
written as the rational it denotes, or an infinity. -/
inductive JSNumber where
  | finite (value : ℚ)
  | infinity (negative : Bool)
  deriving DecidableEq

/-- The integer nearest to `x`, the even one of the two when `x` lies half way
between them. -/
def roundHalfEven (x : ℚ) : Int :=
  if x - ⌊x⌋ < 1 / 2 then ⌊x⌋
  else if 1 / 2 < x - ⌊x⌋ then ⌊x⌋ + 1
  else if ⌊x⌋ % 2 = 0 then ⌊x⌋ else ⌊x⌋ + 1

/-- The exponent of the binary64 interval that holds `x`: the `e` with
`2 ^ e ≤ |x| < 2 ^ (e + 1)`, and -1022 for the subnormal range. -/
def binade (x : ℚ) : Int :=
  max (Int.log 2 |x|) (-1022)

/-- The distance of neighbouring doubles around `x`: significands have 53
bits. -/
def ulp (x : ℚ) : ℚ :=
  (2 : ℚ) ^ (binade x - 52)

/-- The multiple of `ulp x` nearest to `x`, ties to the even multiple. -/
def nearest (x : ℚ) : ℚ :=
  (roundHalfEven (x / ulp x) : ℚ) * ulp x

/-- The double an operation returns when its exact result is `x`: the nearest
one, or an infinity when that reaches `2 ^ 1024`. -/
def toDouble (x : ℚ) : JSNumber :=
  if (2 : ℚ) ^ (1024 : Nat) ≤ |nearest x| then .infinity (decide (x < 0))
  else .finite (nearest x)

/-- The order of numbers, the infinities at the two ends. -/
def JSNumber.le : JSNumber → JSNumber → Prop
  | .infinity true, _ => True
  | _, .infinity false => True
  | .finite a, .finite b => a ≤ b
  | _, _ => False

/-- The difference `a - b` of two finite doubles. -/
def JSNumber.sub (a b : ℚ) : JSNumber :=
  toDouble (a - b)

/-- The product `n * 10000`. -/
def JSNumber.times10000 : JSNumber → JSNumber
  | .finite v => toDouble (v * 10000)
  | .infinity negative => .infinity negative

/-- The quotient `n / 10000`. -/
def JSNumber.over10000 : JSNumber → JSNumber
  | .finite v => toDouble (v / 10000)
  | .infinity negative => .infinity negative

/-- The function `Math.round`: the nearest integer, a half going upwards.  Every
double of magnitude `2 ^ 52` or more is an integer, so the result is exact. -/
def mathRound : JSNumber → JSNumber
  | .finite v => .finite ((⌊v + 1 / 2⌋ : Int) : ℚ)
  | .infinity negative => .infinity negative

/-- Line 114: `Math.round(n * 10000) / 10000`. -/
def round (n : JSNumber) : JSNumber :=
  (mathRound n.times10000).over10000

/-- The read `obj[key]` of an own property. -/
def getProperty : JSObject → String → Option JSValue
  | [], _ => none
  | (key0, value0) :: rest, key => if key0 = key then some value0 else getProperty rest key

/-- Assignment to an existing or new own property: the value is replaced in
place or the property is appended.  JavaScript enumerates keys that are array
indices before all others, in ascending order; the list keeps the order of
creation for them too. -/
def upsert : JSObject → String → JSValue → JSObject
  | [], key, value => [(key, value)]
  | (key0, value0) :: rest, key, value =>
    if key0 = key then (key, value) :: rest else (key0, value0) :: upsert rest key value

/-- The assignment `metadata[key] = value` on an object created by the literal
`{}`.  Under the key `__proto__` the assignment runs the inherited setter, which
creates no own property. -/
def setProperty (obj : JSObject) (key : String) (value : JSValue) : JSObject :=
  if key = "__proto__" then obj else upsert obj key value

/-- Lines 134-139: the loop over the properties of the `Custom` value. -/
def customLoop : List (String × JSValue) → JSObject → JSObject
  | [], metadata => metadata
  | (key2, value2) :: rest, metadata =>
    match value2 with
    | .string _ => customLoop rest (setProperty metadata key2 value2)
    | _ => customLoop rest metadata

/-- Lines 126-141: the loop over the properties of `documentInfo`.  For `null`
the test `typeof value === "object"` holds and the inner loop has nothing to
enumerate. -/
def infoLoop : List (String × JSValue) → JSObject → JSObject
  | [], metadata => metadata
  | (key, value) :: rest, metadata =>
    if key = "PDFFormatVersion" then infoLoop rest metadata
    else
      match value with
      | .string _ => infoLoop rest (setProperty metadata key value)
      | .object props =>
        if key = "Custom" then infoLoop rest (customLoop props metadata)
        else infoLoop rest metadata
      | _ => infoLoop rest metadata

/-- Lines 125-141: the exported metadata. -/
def exportMetadata (documentInfo : JSObject) : JSObject :=
  infoLoop documentInfo []

/-- The call `fonts.indexOf(fontName)`: the first position of the name, or -1. -/
def indexOf : List String → String → Int
  | [], _ => -1
  | font :: rest, fontName =>
    if font = fontName then 0
    else if indexOf rest fontName = -1 then -1 else indexOf rest fontName + 1

/-- The 14 fields pushed for one word (lines 194-209), in their order. -/
structure WordRecord where
  xMin : JSNumber
  yMin : JSNumber
  xMax : JSNumber
  yMax : JSNumber
  fontSize : JSNumber
  spaceAfter : Nat
  baseline : JSNumber
  rotation : Nat
  underlined : Nat
  bold : Nat
  italic : Nat
  colorIndex : Nat
  fontIndex : Int
  text : String
  deriving DecidableEq

/-- Lines 166-209: the record of one word and the font list after it.  The
representative character is `word.chars[0]`; when the word has no character it
is `undefined` and reading `char.fontName` throws. -/
def wordRecord (pageHeight : ℚ) (fonts : List String) (word : Word) :
    Except Fault (List String × WordRecord) :=
  match word.chars.head? with
  | none => .error (.typeError "Cannot read properties of undefined (reading fontName)")
  | some char =>
    let found := indexOf fonts char.fontName
    let fonts := if found = -1 then fonts ++ [char.fontName] else fonts
    let fontIndex := if found = -1 then (fonts.length : Int) - 1 else found
    .ok (fonts,
      { xMin := round (.finite word.rect.xMin)
        yMin := round (JSNumber.sub pageHeight word.rect.yMax)
        xMax := round (.finite word.rect.xMax)
        yMax := round (JSNumber.sub pageHeight word.rect.yMin)
        fontSize := round (.finite char.fontSize)
        spaceAfter := if word.spaceAfter then 1 else 0
        baseline := round (if char.rotation = 0 then
          round (JSNumber.sub pageHeight char.baseline) else .finite char.baseline)
        rotation := 0
        underlined := 0
        bold := if char.bold then 1 else 0
        italic := if char.italic then 1 else 0
        colorIndex := 0
        fontIndex := fontIndex
        text := String.join (word.chars.map (fun x => x.u)) })

/-- Lines 165-210: the loop over the words of a line, pushing to `newLine`. -/
def wordLoop (pageHeight : ℚ) :
    List Word → List String → List WordRecord → Except Fault (List String × List WordRecord)
  | [], fonts, newLine => .ok (fonts, newLine)
  | word :: rest, fonts, newLine =>
    match wordRecord pageHeight fonts word with
    | .error e => .error e
    | .ok (fonts, record) => wordLoop pageHeight rest fonts (newLine ++ [record])

/-- A line record `[newLine]`: an array holding the array of word records. -/
abbrev LineRecord := List (List WordRecord)

/-- Lines 163-214: the loop over the lines of a paragraph; `[newLine]` is pushed
when `newLine.length` is not zero. -/
def lineLoop (pageHeight : ℚ) :
    List Line → List String → List LineRecord → Except Fault (List String × List LineRecord)
  | [], fonts, newLines => .ok (fonts, newLines)
  | line :: rest, fonts, newLines =>
    match wordLoop pageHeight line.words fonts [] with
    | .error e => .error e
    | .ok (fonts, newLine) =>
      lineLoop pageHeight rest fonts
        (if newLine.length ≠ 0 then newLines ++ [[newLine]] else newLines)

/-- Lines 162-215: the loop over the paragraphs of a page. -/
def paragraphLoop (pageHeight : ℚ) :
    List Paragraph → List String → List LineRecord →
      Except Fault (List String × List LineRecord)
  | [], fonts, newLines => .ok (fonts, newLines)
  | paragraph :: rest, fonts, newLines =>
    match lineLoop pageHeight paragraph.lines fonts newLines with
    | .error e => .error e
    | .ok (fonts, newLines) => paragraphLoop pageHeight rest fonts newLines

/-- The array `[0, 0, 0, 0, newLines]` of line 217. -/
structure Block where
  c0 : Nat
  c1 : Nat
  c2 : Nat
  c3 : Nat
  newLines : List LineRecord
  deriving DecidableEq

/-- One element of `data.pages`: `[pageWidth, pageHeight, [[[block]]]]`. -/
structure PageRecord where
  pageWidth : ℚ
  pageHeight : ℚ
  wrapper : List (List (List Block))
  deriving DecidableEq

/-- Lines 146-217: the body of the page loop once the page has arrived, with a
fresh font list. -/
def recognizePage (page : Page) : Except Fault PageRecord :=
  let pageWidth := page.view.2.2.1
  let pageHeight := page.view.2.2.2
  match paragraphLoop pageHeight page.paragraphs [] [] with
  | .error e => .error e
  | .ok (_, newLines) =>
    .ok { pageWidth := pageWidth, pageHeight := pageHeight,
          wrapper := [[[{ c0 := 0, c1 := 0, c2 := 0, c3 := 0, newLines := newLines }]]] }

/-- Lines 145-218: `for (; pageIndex < maxPages; pageIndex++)`, the first
argument bounding the number of iterations. -/
def recognizerLoop (pdfDocument : PdfDocument) (maxPages : Int) :
    Nat → Nat → List PageRecord → Except Fault (List PageRecord)
  | 0, _, pages => .ok pages
  | steps + 1, pageIndex, pages =>
    if (pageIndex : Int) < maxPages then
      match getPageData pdfDocument pageIndex with
      | .error e => .error e
      | .ok page =>
        match recognizePage page with
        | .error e => .error e
        | .ok record =>
          recognizerLoop pdfDocument maxPages steps (pageIndex + 1) (pages ++ [record])
    else .ok pages

/-- The object returned by `getRecognizerData`. -/
structure RecognizerData where
  metadata : JSObject
  totalPages : Nat
  pages : List PageRecord

/-- The function `getRecognizerData` on an opened document (lines 118-219).
Lines 120-123 clamp the constant 5 by the test of lines 60-62. -/
def getRecognizerData (pdfDocument : PdfDocument) : Except Fault RecognizerData :=
  let totalPages := pdfDocument.numPages
  let maxPages := clampPagesNum (.number 5) totalPages
  let metadata := exportMetadata pdfDocument.documentInfo
  match recognizerLoop pdfDocument maxPages maxPages.toNat 0 [] with
  | .error e => .error e
  | .ok pages => .ok { metadata := metadata, totalPages := totalPages, pages := pages }

/-! ## Statements about `getFulltext`, in the words of the specification -/

/-- The glyph texts of a word followed by one space when its space-after flag is
set (specification, section 4.5). -/
def wordTextSpec (word : Word) : String :=
  String.join (word.chars.map (fun char => char.c)) ++ (if word.spaceAfter then " " else "")

/-- A line is the concatenation of its words in order. -/
def lineTextSpec (line : Line) : String :=
  String.join (line.words.map wordTextSpec)

/-- A paragraph is its lines joined by exactly one space. -/
def paragraphTextSpec (paragraph : Paragraph) : String :=
  " ".intercalate (paragraph.lines.map lineTextSpec)

/-- A page is its paragraphs joined by exactly one newline. -/
def pageTextSpec (page : Page) : String :=
  "\n".intercalate (page.paragraphs.map paragraphTextSpec)

/-- The text emitted for the paragraphs of one page alone, that is, starting
from an empty buffer. -/
def pageBody (page : Page) : String :=
  String.join (pushParagraphs page.paragraphs [])

/-- The form `body_1 ++ "\n\n" ++ "\f" ++ ... ++ body_n ++ "\n\n"`: two newlines
after every page and a form-feed after every page but the last. -/
def fulltextForm : List Page → String
  | [] => ""
  | [page] => pageBody page ++ "\n\n"
  | page :: next :: rest => pageBody page ++ "\n\n" ++ "\x0c" ++ fulltextForm (next :: rest)

/-- The words of the line push at least one element: some word has a character
or has its space-after flag set. -/
def lineEmits (line : Line) : Bool :=
  line.words.any (fun word => !word.chars.isEmpty || word.spaceAfter)

/-- Every hyphenated line that is not the last of the list pushes at least one
element, so that the pop after it removes an element of that same line. -/
def popsOwnLine : List Line → Bool
  | [] => true
  | line :: rest => (rest.isEmpty || !line.hyphenated || lineEmits line) && popsOwnLine rest

/-- The condition `popsOwnLine` for every paragraph of a page. -/
def pagePopsOwnLine (page : Page) : Bool :=
  page.paragraphs.all (fun paragraph => popsOwnLine paragraph.lines)

/-- No line of the page is marked hyphenated. -/
def noHyphenation (page : Page) : Bool :=
  page.paragraphs.all (fun paragraph => paragraph.lines.all (fun line => !line.hyphenated))

/-- The page loop on pages that have already arrived: the buffer after the
pages `pages`, the first of which has index `pageIndex`. -/
def pushPages (pagesNum : Int) : Nat → List Page → List String → List String
  | _, [], text => text
  | pageIndex, page :: rest, text =>
    pushPages pagesNum (pageIndex + 1) rest (pushPage pagesNum pageIndex page text)

/-! ## Statements about `getRecognizerData`, in the words of the specification -/

/-- The lines of a page: paragraphs in order, lines in order. -/
def pageLines (page : Page) : List Line :=
  page.paragraphs.flatMap (fun paragraph => paragraph.lines)

/-- The words of a page in reading order. -/
def pageWords (page : Page) : List Word :=
  (pageLines page).flatMap (fun line => line.words)

/-- The line records of a page record. -/
def PageRecord.newLines (record : PageRecord) : List LineRecord :=
  record.wrapper.flatten.flatten.flatMap (fun block => block.newLines)

/-- The word records of a page record in output order. -/
def pageRecords (record : PageRecord) : List WordRecord :=
  record.newLines.flatten.flatten

/-- The font name of the representative (first) character of a word. -/
def representativeFont (word : Word) : Option String :=
  word.chars.head?.map (fun char => char.fontName)

/-- Rounding to 4 decimal places over exact rationals:
`floor (n * 10000 + 1/2) / 10000`. -/
def roundSpec (n : ℚ) : ℚ :=
  ((⌊n * 10000 + 1 / 2⌋ : Int) : ℚ) / 10000

/-- The record `record` is the one the word loop builds for `word` on a page of
height `pageHeight`, for some state of the font list. -/
def isRecordOf (pageHeight : ℚ) (record : WordRecord) (word : Word) : Prop :=
  ∃ fonts after, wordRecord pageHeight fonts word = .ok (after, record)

/-- The line record `[newLine]` holds one record per word of `line`, in word
order, and is not empty. -/
def isLineRecordOf (pageHeight : ℚ) (lineRecord : LineRecord) (line : Line) : Prop :=
  ∃ newLine, lineRecord = [newLine] ∧ newLine ≠ [] ∧
    List.Forall₂ (isRecordOf pageHeight) newLine line.words

/-- All values of the object are strings. -/
def allStrings (obj : JSObject) : Prop :=
  ∀ kv ∈ obj, ∃ s, kv.2 = JSValue.string s

/-! ## Sample inputs -/

/-- A character with glyph text `glyph` in font `fontName`. -/
def sampleChar (glyph fontName : String) : Chr :=
  { c := glyph, u := glyph, fontName := fontName, fontSize := 10, baseline := 100,
    rotation := 0, bold := false, italic := false }

/-- A word in font Times with one character per element of `glyphs`. -/
def sampleWord (glyphs : List String) (spaceAfter : Bool) : Word :=
  { chars := glyphs.map (fun glyph => sampleChar glyph "Times"),
    rect := { xMin := 72, yMin := 700, xMax := 90, yMax := 712 },
    spaceAfter := spaceAfter }

/-- A page of 612 by 792 points, one list of lines per paragraph. -/
def samplePage (paragraphs : List (List Line)) : Page :=
  { view := (0, 0, 612, 792), paragraphs := paragraphs.map (fun lines => { lines := lines }) }

/-- A hyphenated line whose only word is the single ligature glyph "ffi". -/
def ligatureLine : Line := { words := [sampleWord ["ffi"] false], hyphenated := true }

/-- A hyphenated line without words. -/
def emptyHyphenLine : Line := { words := [], hyphenated := true }

/-- A line with the one word "x". -/
def closingLine : Line := { words := [sampleWord ["x"] false], hyphenated := false }

/-- A page with the text "ab" in one line. -/
def plainPage : Page :=
  samplePage [[{ words := [sampleWord ["a", "b"] false], hyphenated := false }]]

/-- A page whose first line has no words and is marked hyphenated. -/
def emptyHyphenPage : Page := samplePage [[emptyHyphenLine, closingLine]]

/-- A page with two paragraphs, of two lines and of one line, nothing
hyphenated. -/
def twoParagraphPage : Page :=
  samplePage [[{ words := [sampleWord ["a"] true, sampleWord ["b"] false], hyphenated := false },
      closingLine], [closingLine]]

/-- A page whose first line ends in a hyphen and is marked hyphenated. -/
def hyphenPage : Page :=
  samplePage [[{ words := [sampleWord ["c", "o", "-"] false], hyphenated := true },
      { words := [sampleWord ["o", "p"] false], hyphenated := false }]]

/-- A document of two pages, the second starting with an empty hyphenated
line. -/
def emptyHyphenDocument : PdfDocument :=
  { documentInfo := [], pages := [.ok plainPage, .ok emptyHyphenPage] }

/-- A document of one page: the hyphenated line "ffi" and the line "x". -/
def ligatureDocument : PdfDocument :=
  { documentInfo := [], pages := [.ok (samplePage [[ligatureLine, closingLine]])] }

/-- A document of two pages whose hyphenated line carries text. -/
def hyphenDocument : PdfDocument :=
  { documentInfo := [], pages := [.ok hyphenPage, .ok plainPage] }

/-- A document-info mapping whose `Custom` sub-map has a string entry under the
key `PDFFormatVersion`. -/
def customVersionInfo : JSObject :=
  [("PDFFormatVersion", .string "1.7"),
   ("Custom", .object [("PDFFormatVersion", .string "2.0"), ("Pages", .number 3)]),
   ("Title", .string "Report")]

/-- A document-info mapping whose `Custom` sub-map shares the key `Title` with
a top-level entry enumerated after it. -/
def shadowedTitleInfo : JSObject :=
  [("Custom", .object [("Title", .string "a")]), ("Title", .string "b")]

/-- A document-info mapping of the usual shape. -/
def plainInfo : JSObject :=
  [("PDFFormatVersion", .string "1.7"), ("IsLinearized", .boolean false),
   ("Title", .string "Report"),
   ("Custom", .object [("Company", .string "ACME"), ("Pages", .number 3)])]

/-- A word whose characters are all set in the font `fontName`. -/
def fontWord (glyphs : List String) (fontName : String) : Word :=
  { chars := glyphs.map (fun glyph => sampleChar glyph fontName),
    rect := { xMin := 72, yMin := 700, xMax := 90, yMax := 712 },
    spaceAfter := true }

/-- A page with the fonts Times, Arial, Times, Symbol on two lines of words,
and a line without words between them. -/
def fontsPage : Page :=
  samplePage [[{ words := [fontWord ["a"] "Times", fontWord ["b"] "Arial"],
                 hyphenated := false },
               { words := [], hyphenated := false }],
              [{ words := [fontWord ["c"] "Times", fontWord ["d"] "Symbol"],
                 hyphenated := false }]]

/-- A document whose only page is `fontsPage`. -/
def fontsDocument : PdfDocument :=
  { documentInfo := plainInfo, pages := [.ok fontsPage] }

/-- The record of a word of `fontsPage`: text `glyph`, font index `fontIndex`. -/
def fontsRecord (glyph : String) (fontIndex : Int) : WordRecord :=
  { xMin := round (.finite 72), yMin := round (JSNumber.sub 792 712),
    xMax := round (.finite 90), yMax := round (JSNumber.sub 792 700),
    fontSize := round (.finite 10), spaceAfter := 1,
    baseline := round (round (JSNumber.sub 792 100)),
    rotation := 0, underlined := 0, bold := 0, italic := 0, colorIndex := 0,
    fontIndex := fontIndex, text := glyph }

/-- The page record of `fontsPage`. -/
def fontsPageRecord : PageRecord :=
  { pageWidth := 612, pageHeight := 792,
    wrapper := [[[{ c0 := 0, c1 := 0, c2 := 0, c3 := 0,
                    newLines := [[[fontsRecord "a" 0, fontsRecord "b" 1]],
                                 [[fontsRecord "c" 0, fontsRecord "d" 2]]] }]]] }

/-- The result of `getRecognizerData` on `fontsDocument`. -/
def fontsData : RecognizerData :=
  { metadata := [("Title", .string "Report"), ("Company", .string "ACME")],
    totalPages := 1, pages := [fontsPageRecord] }

/-- The double nearest to 8.00005. -/
def nearEight : ℚ := 4503627774868167 / 562949953421312

/-- A document of one page whose only word has its left edge at `nearEight`. -/
def decimalDocument : PdfDocument :=
  { documentInfo := [],
    pages := [.ok (samplePage [[{ words := [{ chars := [sampleChar "a" "Times"],
                                               rect := { xMin := nearEight, yMin := 700,
                                                         xMax := 90, yMax := 712 },
                                               spaceAfter := false }],
                                  hyphenated := false }]])] }

/-- The record of the word of `decimalDocument`. -/
def decimalRecord : WordRecord :=
  { xMin := round (.finite nearEight), yMin := round (JSNumber.sub 792 712),
    xMax := round (.finite 90), yMax := round (JSNumber.sub 792 700),
    fontSize := round (.finite 10), spaceAfter := 0,
    baseline := round (round (JSNumber.sub 792 100)),
    rotation := 0, underlined := 0, bold := 0, italic := 0, colorIndex := 0,
    fontIndex := 0, text := "a" }

/-- The result of `getRecognizerData` on `decimalDocument`. -/
def decimalData : RecognizerData :=
  { metadata := [], totalPages := 1,
    pages := [{ pageWidth := 612, pageHeight := 792,
                wrapper := [[[{ c0 := 0, c1 := 0, c2 := 0, c3 := 0,
                                newLines := [[[decimalRecord]]] }]]] }] }

/-- The double 295039176940.91796875. -/
def farBaseline : ℚ := 75530029296875 / 256

/-- A document of one page of height 0 whose only word has an unrotated first
character with the baseline `-farBaseline`. -/
def farBaselineDocument : PdfDocument :=
  { documentInfo := [],
    pages := [.ok { view := (0, 0, 612, 0),
                    paragraphs := [{ lines := [{ words := [{ chars := [{ sampleChar "a" "Times" with
                                                                         baseline := -farBaseline }],
                                                             rect := { xMin := 72, yMin := 700,
                                                                       xMax := 90, yMax := 712 },
                                                             spaceAfter := false }],
                                                 hyphenated := false }] }] }] }

/-- The record of the word of `farBaselineDocument`. -/
def farBaselineRecord : WordRecord :=
  { xMin := round (.finite 72), yMin := round (JSNumber.sub 0 712),
    xMax := round (.finite 90), yMax := round (JSNumber.sub 0 700),
    fontSize := round (.finite 10), spaceAfter := 0,
    baseline := round (round (JSNumber.sub 0 (-farBaseline))),
    rotation := 0, underlined := 0, bold := 0, italic := 0, colorIndex := 0,
    fontIndex := 0, text := "a" }

/-- The result of `getRecognizerData` on `farBaselineDocument`. -/
def farBaselineData : RecognizerData :=
  { metadata := [], totalPages := 1,
    pages := [{ pageWidth := 612, pageHeight := 0,
                wrapper := [[[{ c0 := 0, c1 := 0, c2 := 0, c3 := 0,
                                newLines := [[[farBaselineRecord]]] }]]] }] }

/-- A page whose only word has no character. -/
def emptyWordPage : Page :=
  samplePage [[{ words := [sampleWord [] true], hyphenated := false }]]

/-- A document of two pages, the second holding a word without characters. -/
def emptyWordDocument : PdfDocument :=
  { documentInfo := [], pages := [plainPage, emptyWordPage].map .ok }

/-- A document of six pages, the last of which the engine fails to deliver. -/
def sixPageDocument : PdfDocument :=
  { documentInfo := [],
    pages := List.replicate 5 (.ok plainPage) ++ [.error (.engine "page 6 is damaged")] }

/-- Every line of the page has at least one word and every word at least one
character. -/
def everyLineHasText (page : Page) : Bool :=
  page.paragraphs.all (fun paragraph =>
    paragraph.lines.all (fun line =>
      !line.words.isEmpty && line.words.all (fun word => !word.chars.isEmpty)))

/-! ## Opening the document: `getPdfManager` (lines 23-49) -/

/-- The bytes of a document. -/
abbrev Buffer := List Nat

/-- The object `pdfManagerArgs` of lines 24-32. -/
structure PdfManagerArgs where
  source : Buffer
  cMapUrl : JSValue
  standardFontDataUrl : JSValue
  ignoreErrors : Bool
  password : String

/-- A call of the engine to `handler.sendWithPromise` (lines 12-18) while it
produces page data: the operation `FetchBuiltInCMap` with `data.name` or
`FetchStandardFontData` with `data.filename`, and what the remote side answers
if the provider asks it. -/
inductive ResourceFetch where
  | cmap (name : String) (answer : JSValue)
  | standardFont (filename : String) (answer : JSValue)

/-- What a manager built by `new LocalPdfManager(args)` answers to the calls
`ensureDoc(...)`, the document it holds, and the calls to
`handler.sendWithPromise` it makes while a pipeline reads pages from the
document. -/
structure PdfManager where
  checkHeader : Except Fault Unit
  parseStartXRef : Except Fault Unit
  parse : Bool → Except Fault Unit
  numPages : Except Fault Unit
  fingerprint : Except Fault Unit
  pdfDocument : PdfDocument
  fetches : List ResourceFetch

/-- The engine: the constructor `LocalPdfManager`. -/
abbrev Engine := PdfManagerArgs → PdfManager

/-- Lines 24-32: the arguments handed to the engine for the bytes
`arrayBuffer`. -/
def pdfManagerArgs (arrayBuffer : Buffer) : PdfManagerArgs :=
  { source := arrayBuffer, cMapUrl := .null, standardFontDataUrl := .null,
    ignoreErrors := true, password := "" }

/-- The test `e instanceof XRefParseException`. -/
def Fault.isXRefParse : Fault → Bool
  | .xRefParse _ => true
  | _ => false

/-- The function `getPdfManager` (lines 23-49). -/
def getPdfManager (LocalPdfManager : Engine) (arrayBuffer : Buffer) (recoveryMode : Bool) :
    Except Fault PdfManager :=
  let pdfManager := LocalPdfManager (pdfManagerArgs arrayBuffer)
  match pdfManager.checkHeader with
  | .error e => .error e
  | .ok _ =>
    match pdfManager.parseStartXRef with
    | .error e => .error e
    | .ok _ =>
      let parsed : Except Fault Unit :=
        match pdfManager.parse recoveryMode with
        | .ok _ => .ok ()
        | .error e =>
          if !e.isXRefParse && !recoveryMode then .error e
          else pdfManager.parse true
      match parsed with
      | .error e => .error e
      | .ok _ =>
        match pdfManager.numPages with
        | .error e => .error e
        | .ok _ =>
          match pdfManager.fingerprint with
          | .error e => .error e
          | .ok _ => .ok pdfManager

/-- The value of the call `getFulltext(buf, password, pagesNum, ...)` from
line 58 on; line 58 calls `getPdfManager(buf)`, with `recoveryMode` left
`undefined`. -/
def getFulltextCall (LocalPdfManager : Engine) (buf : Buffer) (_password : String)
    (pagesNum : JSValue) : Except Fault FulltextResult :=
  match getPdfManager LocalPdfManager buf false with
  | .error e => .error e
  | .ok pdfManager => getFulltext pdfManager.pdfDocument pagesNum

/-- The value of the call `getRecognizerData(buf, password, ...)` from line 116
on. -/
def getRecognizerDataCall (LocalPdfManager : Engine) (buf : Buffer) (_password : String) :
    Except Fault RecognizerData :=
  match getPdfManager LocalPdfManager buf false with
  | .error e => .error e
  | .ok pdfManager => getRecognizerData pdfManager.pdfDocument

/-! ## The worker: caches, bridge and dispatcher (lines 222-308) -/

/-- The own properties the host and the engine give to the error object of a
failure (`message`, `stack`, `name`, `code`, ...), in the order of
`Object.getOwnPropertyNames`. -/
abbrev OwnProperties := Fault → List (String × PlainValue)

/-- The value bound to `e` in `catch (e)`. -/
def Fault.value (ownProperties : OwnProperties) : Fault → PlainValue
  | .thrown value => value
  | e => .object (ownProperties e)

/-- The call `Object.getOwnPropertyNames(err)` as far as `JSON.stringify` uses
its result: the names matter for objects only. -/
def getOwnPropertyNames : PlainValue → List String
  | .object props => props.map (fun kv => kv.1)
  | _ => []

/-- The read of an own property among the serialized properties of an object. -/
def getOwn : List (String × Option PlainValue) → String → Option (Option PlainValue)
  | [], _ => none
  | (key0, value0) :: rest, key => if key0 = key then some value0 else getOwn rest key

/-- The properties `JSON.stringify` writes for an object under the allowlist
`names`, in the order of the allowlist: a property whose value serializes to
`undefined` is left out; a name that is no own property is read from
`Object.prototype`, where all values are functions and are left out, except
`__proto__`, which reads `Object.prototype` itself, an object whose only
serialized property is again `__proto__`, with the value `null`. -/
def pick (own : List (String × Option PlainValue)) : List String → List (String × PlainValue)
  | [] => []
  | name :: rest =>
    match getOwn own name with
    | some (some value) => (name, value) :: pick own rest
    | some none => pick own rest
    | none =>
      if name = "__proto__" then (name, .object [("__proto__", .null)]) :: pick own rest
      else pick own rest

mutual
/-- The value `JSON.parse(JSON.stringify(value, names))` for a value that
`JSON.stringify` serializes, `none` when it gives `undefined`.  The allowlist
`names` applies to the object and to every object nested in it; `NaN` and the
infinities become `null`. -/
def roundTrip (names : List String) : PlainValue → Option PlainValue
  | .undefined => none
  | .null => some .null
  | .boolean b => some (.boolean b)
  | .number q => some (.number q)
  | .nan => some .null
  | .infinity _ => some .null
  | .string s => some (.string s)
  | .object props => some (.object (pick (roundTripProps names props) names))
/-- The own properties of an object, each value serialized. -/
def roundTripProps (names : List String) :
    List (String × PlainValue) → List (String × Option PlainValue)
  | [] => []
  | (key, value) :: rest => (key, roundTrip names value) :: roundTripProps names rest
end

/-- The function `errObject` (lines 222-224).  `Object.getOwnPropertyNames`
throws a `TypeError` on `undefined` and on `null`; `JSON.parse` throws a
`SyntaxError` when `JSON.stringify` has returned `undefined`. -/
def errObject (ownProperties : OwnProperties) (err : Fault) : Except Fault PlainValue :=
  match err.value ownProperties with
  | .undefined => .error (.typeError "Cannot convert undefined or null to object")
  | .null => .error (.typeError "Cannot convert undefined or null to object")
  | value =>
    match roundTrip (getOwnPropertyNames value) value with
    | some object => .ok object
    | none => .error (.syntaxError "\"undefined\" is not valid JSON")

/-- The conversion of a value to a boolean in a condition. -/
def JSValue.truthy : JSValue → Bool
  | .undefined => false
  | .null => false
  | .boolean b => b
  | .number q => decide (q ≠ 0)
  | .nan => false
  | .infinity _ => true
  | .string s => decide (s ≠ "")
  | .object _ => true
  | .builtin _ => true

/-- The names of the properties of `Object.prototype`, which every object
created by `{}` inherits. -/
def objectPrototypeKeys : List String :=
  ["constructor", "__defineGetter__", "__defineSetter__", "hasOwnProperty",
   "__lookupGetter__", "__lookupSetter__", "isPrototypeOf", "propertyIsEnumerable",
   "toString", "valueOf", "__proto__", "toLocaleString"]

/-- The read `cache[name]` on an object created by `{}`: the own property, or
the inherited one, or `undefined`. -/
def readProperty (obj : JSObject) (key : String) : JSValue :=
  match getProperty obj key with
  | some value => value
  | none => if key ∈ objectPrototypeKeys then .builtin key else .undefined

/-- The payload of a response of the dispatcher. -/
inductive Payload where
  | fulltext (result : FulltextResult)
  | recognizer (result : RecognizerData)

/-- A response object `{ responseID, data }` or `{ responseID, error }`: the
members `data` and `error` are present or absent. -/
structure ResponseMessage where
  responseID : JSValue
  data : Option Payload
  error : Option PlainValue

/-- A message handed to `self.postMessage`: a request of the bridge (line 254)
or a response of the dispatcher (lines 278-304). -/
inductive Posted where
  | request (id : Nat) (action : String) (data : JSValue)
  | response (message : ResponseMessage)

/-- An inbound message `e.data`.  `responseID` is a number when present; `data`
is the payload of a response; `buf`, `password` and `maxPages` are the members of
`message.data` of a request. -/
structure Message where
  responseID : Option Nat
  id : JSValue
  action : String
  data : JSValue
  buf : Buffer
  password : String
  maxPages : JSValue

/-- The state of the worker: the counter `promiseID`, the table
`waitingPromises` (correlation ID to the resolver of a promise, promises being
numbered in the order of their creation), the number of promises created, the
calls `resolve(data)` made so far, the messages posted so far, and the two
caches. -/
structure Worker where
  promiseID : Nat
  waitingPromises : List (Nat × Nat)
  promises : Nat
  resolved : List (Nat × JSValue)
  posted : List Posted
  cmapCache : JSObject
  fontCache : JSObject

/-- The state when the script has been loaded (lines 226, 236, 247, 248). -/
def Worker.init : Worker :=
  { promiseID := 0, waitingPromises := [], promises := 0, resolved := [], posted := [],
    cmapCache := [], fontCache := [] }

/-- The read `waitingPromises[id]`. -/
def getEntry : List (Nat × Nat) → Nat → Option Nat
  | [], _ => none
  | (id0, resolve) :: rest, id => if id0 = id then some resolve else getEntry rest id

/-- The assignment `waitingPromises[id] = resolve`. -/
def setEntry : List (Nat × Nat) → Nat → Nat → List (Nat × Nat)
  | [], id, resolve => [(id, resolve)]
  | (id0, resolve0) :: rest, id, resolve =>
    if id0 = id then (id, resolve) :: rest else (id0, resolve0) :: setEntry rest id resolve

/-- The function `self.query` (lines 250-256): the new promise and the state
after the executor has run. -/
def query (action : String) (data : JSValue) (worker : Worker) : Nat × Worker :=
  let promise := worker.promises
  let promiseID := worker.promiseID + 1
  (promise,
    { worker with
      promises := worker.promises + 1
      promiseID := promiseID
      waitingPromises := setEntry worker.waitingPromises promiseID promise
      posted := worker.posted ++ [.request promiseID action data] })

/-- Lines 262-266: the handling of a message whose `responseID` is `id`. -/
def onResponse (id : Nat) (data : JSValue) (worker : Worker) : Worker :=
  match getEntry worker.waitingPromises id with
  | some resolve => { worker with resolved := worker.resolved ++ [(resolve, data)] }
  | none => worker

/-- The function `cmapProvider` (lines 226-234) run to its end, the remote side
answering the request with `answer`. -/
def cmapProvider (name : String) (answer : JSValue) (worker : Worker) : JSValue × Worker :=
  if (readProperty worker.cmapCache name).truthy then
    (readProperty worker.cmapCache name, worker)
  else
    let asked := (query "FetchBuiltInCMap" (.string name) worker).2
    let answered := onResponse asked.promiseID answer asked
    let data := answer
    (data, { answered with cmapCache := setProperty answered.cmapCache name data })

/-- The function `standardFontProvider` (lines 236-244) run to its end, the
remote side answering the request with `answer`. -/
def standardFontProvider (filename : String) (answer : JSValue) (worker : Worker) :
    JSValue × Worker :=
  if (readProperty worker.fontCache filename).truthy then
    (readProperty worker.fontCache filename, worker)
  else
    let asked := (query "FetchStandardFontData" (.string filename) worker).2
    let answered := onResponse asked.promiseID answer asked
    let data := answer
    (data, { answered with fontCache := setProperty answered.fontCache filename data })

/-- The calls of the engine to `handler.sendWithPromise` (lines 12-18), one
after the other: each runs the provider of its operation. -/
def runFetches : List ResourceFetch → Worker → Worker
  | [], worker => worker
  | .cmap name answer :: rest, worker =>
    runFetches rest (cmapProvider name answer worker).2
  | .standardFont filename answer :: rest, worker =>
    runFetches rest (standardFontProvider filename answer worker).2

/-- The state of the worker when a pipeline called with `buf` has returned or
thrown: the engine makes its fetches once `getPdfManager` has returned the
manager. -/
def pipelineState (LocalPdfManager : Engine) (buf : Buffer) (worker : Worker) : Worker :=
  match getPdfManager LocalPdfManager buf false with
  | .error _ => worker
  | .ok pdfManager => runFetches pdfManager.fetches worker

/-- The statements of `try` and `catch` after the pipeline (lines 278-304):
`try` posts the result; `catch` calls `errObject` and posts the serialized
failure, and what `errObject` throws leaves the handler. -/
def respond (ownProperties : OwnProperties) (id : JSValue) (outcome : Except Fault Payload)
    (worker : Worker) : Except Fault Worker :=
  match outcome with
  | .ok data =>
    .ok { worker with posted := worker.posted ++
            [.response { responseID := id, data := some data, error := none }] }
  | .error e =>
    match errObject ownProperties e with
    | .error thrown => .error thrown
    | .ok object =>
      .ok { worker with posted := worker.posted ++
              [.response { responseID := id, data := none, error := some object }] }

/-- The handler `self.onmessage` (lines 258-307).  The result is the state after
the handler, or the failure that leaves it. -/
def onmessage (ownProperties : OwnProperties) (LocalPdfManager : Engine) (message : Message)
    (worker : Worker) : Except Fault Worker :=
  match message.responseID with
  | some (id + 1) => .ok (onResponse (id + 1) message.data worker)
  | _ =>
    if message.action = "getFulltext" then
      respond ownProperties message.id
        ((getFulltextCall LocalPdfManager message.buf message.password message.maxPages).map
          Payload.fulltext) (pipelineState LocalPdfManager message.buf worker)
    else if message.action = "getRecognizerData" then
      respond ownProperties message.id
        ((getRecognizerDataCall LocalPdfManager message.buf message.password).map
          Payload.recognizer) (pipelineState LocalPdfManager message.buf worker)
    else .ok worker

/-- The correlation IDs of the requests among the posted messages, in the order
of posting. -/
def requestIds : List Posted → List Nat
  | [] => []
  | .request id _ _ :: rest => id :: requestIds rest
  | .response _ :: rest => requestIds rest

/-- The message is a request of the bridge. -/
def Posted.isRequest : Posted → Bool
  | .request _ _ _ => true
  | .response _ => false

/-- The states the worker reaches from the initial one by calls of `query`, by
inbound messages and by fetches through the two providers.  The state a
rejecting handler leaves is reached by the fetches of its pipeline. -/
inductive Reachable (ownProperties : OwnProperties) (LocalPdfManager : Engine) :
    Worker → Prop where
  | init : Reachable ownProperties LocalPdfManager Worker.init
  | query (action : String) (data : JSValue) {worker : Worker} :
      Reachable ownProperties LocalPdfManager worker →
      Reachable ownProperties LocalPdfManager (query action data worker).2
  | onmessage (message : Message) {worker after : Worker} :
      Reachable ownProperties LocalPdfManager worker →
      onmessage ownProperties LocalPdfManager message worker = .ok after →
      Reachable ownProperties LocalPdfManager after
  | cmapProvider (name : String) (answer : JSValue) {worker : Worker} :
      Reachable ownProperties LocalPdfManager worker →
      Reachable ownProperties LocalPdfManager (cmapProvider name answer worker).2
  | standardFontProvider (filename : String) (answer : JSValue) {worker : Worker} :
      Reachable ownProperties LocalPdfManager worker →
      Reachable ownProperties LocalPdfManager (standardFontProvider filename answer worker).2

/-- The own properties of error objects on a host that gives every error object
the properties `stack` and `message`, the engine adding `name` and, to the
failure of a parse, `code`. -/
def sampleProperties : OwnProperties
  | .engine message =>
    [("message", .string message), ("name", .string "PasswordException"), ("code", .number 1)]
  | .typeError message =>
    [("stack", .string ("TypeError: " ++ message)), ("message", .string message)]
  | .xRefParse message => [("message", .string message), ("name", .string "XRefParseException")]
  | .syntaxError message =>
    [("stack", .string ("SyntaxError: " ++ message)), ("message", .string message)]
  | .thrown _ => []

/-- An engine that opens the document `hyphenDocument` when it is handed the
password "secret" and fails to parse it otherwise. -/
def lockedEngine : Engine := fun args =>
  { checkHeader := .ok (), parseStartXRef := .ok (),
    parse := fun _ =>
      if args.password = "secret" then .ok () else .error (.engine "No password given"),
    numPages := .ok (), fingerprint := .ok (), pdfDocument := hyphenDocument, fetches := [] }

/-- An engine that opens every document as `hyphenDocument`. -/
def openEngine : Engine := fun _ =>
  { checkHeader := .ok (), parseStartXRef := .ok (), parse := fun _ => .ok (),
    numPages := .ok (), fingerprint := .ok (), pdfDocument := hyphenDocument, fetches := [] }

/-- An engine that opens every document as `hyphenDocument` and asks for the
character map "H" twice and for the font "FoxitSerif.pfb" once while the pages
are read. -/
def fetchingEngine : Engine := fun _ =>
  { checkHeader := .ok (), parseStartXRef := .ok (), parse := fun _ => .ok (),
    numPages := .ok (), fingerprint := .ok (), pdfDocument := hyphenDocument,
    fetches := [.cmap "H" (.string "cmap data"), .cmap "H" (.string "cmap data"),
                .standardFont "FoxitSerif.pfb" (.string "font data")] }

/-- An engine whose call `ensureDoc("checkHeader", [])` rejects with
`undefined`. -/
def rejectingEngine : Engine := fun _ =>
  { checkHeader := .error (.thrown .undefined), parseStartXRef := .ok (),
    parse := fun _ => .ok (), numPages := .ok (), fingerprint := .ok (),
    pdfDocument := hyphenDocument, fetches := [] }

/-- A request for the full text of a document protected by the password
"secret", with correlation id 7. -/
def secretRequest : Message :=
  { responseID := none, id := .number 7, action := "getFulltext", data := .undefined,
    buf := [37, 80, 68, 70], password := "secret", maxPages := .undefined }

/-- The response of the remote side to the request with correlation ID 1. -/
def firstResponse : Message :=
  { responseID := some 1, id := .undefined, action := "", data := .string "payload",
    buf := [], password := "", maxPages := .undefined }

/-- The invariant of the bridge: the correlation IDs allocated so far are
1, 2, ..., `promiseID` in this order, and every key of the pending table is at
most `promiseID`. -/
def bridgeInvariant (worker : Worker) : Prop :=
  requestIds worker.posted = List.range' 1 worker.promiseID ∧
  ∀ entry ∈ worker.waitingPromises, entry.1 ≤ worker.promiseID

/-- Neither cache has an own property `__proto__`. -/
def cachesInvariant (worker : Worker) : Prop :=
  getProperty worker.cmapCache "__proto__" = none ∧
  getProperty worker.fontCache "__proto__" = none

/-! ## Lemmas on strings and the output buffer -/

theorem join_append (xs ys : List String) :
    String.join (xs ++ ys) = String.join xs ++ String.join ys := by
  simp [String.join_eq, String.ext_iff]

theorem join_singleton (s : String) : String.join [s] = s := by
  simp [String.join_eq, String.ext_iff]

theorem join_nil : String.join [] = "" := rfl

theorem join_cons (s : String) (xs : List String) :
    String.join (s :: xs) = s ++ String.join xs := by
  simp [String.join_eq, String.ext_iff]

theorem intercalate_go (sep : String) (xs : List String) (acc : String) :
    String.intercalate.go acc sep xs = acc ++ String.intercalate.go "" sep xs := by
  induction xs generalizing acc with
  | nil => simp [String.intercalate.go]
  | cons x xs ih =>
    simp only [String.intercalate.go]
    rw [ih (acc ++ sep ++ x), ih ("" ++ sep ++ x)]
    simp [String.append_assoc]

theorem intercalate_cons_cons (sep a b : String) (xs : List String) :
    sep.intercalate (a :: b :: xs) = a ++ sep ++ sep.intercalate (b :: xs) := by
  simp only [String.intercalate, String.intercalate.go]
  rw [intercalate_go sep xs (a ++ sep ++ b), intercalate_go sep xs b]
  simp [String.append_assoc]

theorem intercalate_singleton (sep a : String) : sep.intercalate [a] = a := rfl

theorem pushChars_eq (chars : List Chr) (text : List String) :
    pushChars chars text = text ++ chars.map (fun char => char.c) := by
  induction chars generalizing text with
  | nil => simp [pushChars]
  | cons char rest ih => simp [pushChars, ih]

theorem pushWords_eq (words : List Word) (text : List String) :
    pushWords words text = text ++ pushWords words [] := by
  induction words generalizing text with
  | nil => simp [pushWords]
  | cons word rest ih =>
    simp only [pushWords]
    rw [ih, ih (if word.spaceAfter = true then _ else _)]
    cases word.spaceAfter <;> simp [pushChars_eq]

theorem join_pushWords (words : List Word) :
    String.join (pushWords words []) = String.join (words.map wordTextSpec) := by
  induction words with
  | nil => simp [pushWords]
  | cons word rest ih =>
    simp only [pushWords, List.map_cons, join_cons]
    rw [pushWords_eq, join_append, ih, wordTextSpec]
    cases word.spaceAfter <;> simp [pushChars_eq, join_append, join_singleton]

theorem lineEmits_ne_nil (line : Line) (h : lineEmits line = true) :
    pushWords line.words [] ≠ [] := by
  unfold lineEmits at h
  generalize line.words = words at h
  induction words with
  | nil => simp at h
  | cons word rest ih =>
    simp only [pushWords]
    rw [pushWords_eq]
    simp only [List.any_cons, Bool.or_eq_true] at h
    intro hnil
    have h1 := (List.append_eq_nil.mp hnil).1
    rcases h with (hc | hs) | h
    · cases hch : word.chars with
      | nil => simp [hch] at hc
      | cons c cs =>
        rw [hch] at h1
        cases hsp : word.spaceAfter <;> simp [hsp, pushChars_eq] at h1
    · rw [hs] at h1
      simp at h1
    · exact ih h (List.append_eq_nil.mp hnil).2

theorem dropLast_append_of_ne_nil (xs ys : List String) (h : ys ≠ []) :
    (xs ++ ys).dropLast = xs ++ ys.dropLast := by
  induction xs with
  | nil => simp
  | cons x xs ih =>
    cases hxy : xs ++ ys with
    | nil => simp [h] at hxy
    | cons z zs => simp [List.dropLast, hxy, ← ih]

theorem pushLines_eq (lines : List Line) (h : popsOwnLine lines = true) (text : List String) :
    pushLines lines text = text ++ pushLines lines [] := by
  induction lines generalizing text with
  | nil => simp [pushLines]
  | cons line rest ih =>
    simp only [popsOwnLine, Bool.and_eq_true, Bool.or_eq_true] at h
    simp only [pushLines]
    rw [ih h.2, ih h.2 (joinLine line rest (pushWords line.words []))]
    rw [pushWords_eq line.words text, ← List.append_assoc]
    congr 1
    unfold joinLine
    by_cases hrest : rest = []
    · simp [hrest]
    · simp only [ne_eq, hrest, not_false_eq_true, if_true]
      cases hh : line.hyphenated with
      | false => simp
      | true =>
        simp only [if_true]
        rcases h.1 with (h1 | h1) | h1
        · simp [hrest] at h1
        · simp [hh] at h1
        · exact dropLast_append_of_ne_nil _ _ (lineEmits_ne_nil line h1)

theorem pushParagraphs_eq (paragraphs : List Paragraph)
    (h : paragraphs.all (fun paragraph => popsOwnLine paragraph.lines) = true)
    (text : List String) :
    pushParagraphs paragraphs text = text ++ pushParagraphs paragraphs [] := by
  induction paragraphs generalizing text with
  | nil => simp [pushParagraphs]
  | cons paragraph rest ih =>
    simp only [List.all_cons, Bool.and_eq_true] at h
    simp only [pushParagraphs]
    rw [ih h.2, ih h.2 (if rest ≠ [] then _ else _), pushLines_eq _ h.1 text]
    by_cases hrest : rest = [] <;> simp [hrest]

theorem popsOwnLine_of_noHyphenation (lines : List Line)
    (h : lines.all (fun line => !line.hyphenated) = true) : popsOwnLine lines = true := by
  induction lines with
  | nil => rfl
  | cons line rest ih =>
    simp only [List.all_cons, Bool.and_eq_true] at h
    simp [popsOwnLine, h.1, ih h.2]

theorem pagePopsOwnLine_of_noHyphenation (page : Page) (h : noHyphenation page = true) :
    pagePopsOwnLine page = true := by
  unfold noHyphenation at h
  unfold pagePopsOwnLine
  rw [List.all_eq_true] at h ⊢
  intro paragraph hp
  exact popsOwnLine_of_noHyphenation _ (h paragraph hp)

theorem join_pushLines_of_noHyphenation (lines : List Line)
    (h : lines.all (fun line => !line.hyphenated) = true) :
    String.join (pushLines lines []) = " ".intercalate (lines.map lineTextSpec) := by
  induction lines with
  | nil => rfl
  | cons line rest ih =>
    simp only [List.all_cons, Bool.and_eq_true, Bool.not_eq_true'] at h
    have hrest := popsOwnLine_of_noHyphenation rest h.2
    simp only [pushLines]
    rw [pushLines_eq rest hrest, join_append, ih h.2]
    cases rest with
    | nil =>
      simp [joinLine, join_pushWords, lineTextSpec, String.intercalate, String.intercalate.go]
    | cons next more =>
      simp only [List.map_cons, intercalate_cons_cons]
      simp [joinLine, h.1, join_append, join_singleton, join_pushWords, lineTextSpec]

theorem join_pushParagraphs_of_noHyphenation (paragraphs : List Paragraph)
    (h : paragraphs.all (fun paragraph =>
      paragraph.lines.all (fun line => !line.hyphenated)) = true) :
    String.join (pushParagraphs paragraphs []) =
      "\n".intercalate (paragraphs.map paragraphTextSpec) := by
  induction paragraphs with
  | nil => rfl
  | cons paragraph rest ih =>
    simp only [List.all_cons, Bool.and_eq_true] at h
    have hrest : rest.all (fun paragraph => popsOwnLine paragraph.lines) = true := by
      rw [List.all_eq_true]
      intro q hq
      exact popsOwnLine_of_noHyphenation _ (List.all_eq_true.mp h.2 q hq)
    simp only [pushParagraphs]
    rw [pushParagraphs_eq rest hrest, join_append, ih h.2]
    cases rest with
    | nil =>
      simp [join_pushLines_of_noHyphenation _ h.1, paragraphTextSpec, String.intercalate,
        String.intercalate.go]
    | cons next more =>
      simp only [List.map_cons, intercalate_cons_cons]
      simp [join_append, join_singleton, join_pushLines_of_noHyphenation _ h.1,
        paragraphTextSpec]

theorem join_pushPage (pagesNum : Int) (pageIndex : Nat) (page : Page)
    (h : pagePopsOwnLine page = true) (text : List String) :
    String.join (pushPage pagesNum pageIndex page text) =
      String.join text ++ pageBody page ++ "\n\n" ++
        (if (pageIndex : Int) ≠ pagesNum - 1 then "\x0c" else "") := by
  unfold pushPage pageBody
  rw [pushParagraphs_eq _ h text]
  by_cases hi : (pageIndex : Int) = pagesNum - 1 <;>
    simp [hi, join_append, join_singleton, join_cons, join_nil, String.append_assoc]

/-! ## Lemmas on the page loop -/

theorem getPageData_ok (pdfDocument : PdfDocument) (pageIndex : Nat) (page : Page)
    (h : getPageData pdfDocument pageIndex = .ok page) :
    pdfDocument.pages.drop pageIndex =
      .ok page :: pdfDocument.pages.drop (pageIndex + 1) := by
  unfold getPageData at h
  cases hget : pdfDocument.pages.get? pageIndex with
  | none => rw [hget] at h; cases h
  | some answer =>
    simp only [hget] at h
    rw [List.get?_eq_getElem?, List.getElem?_eq_some] at hget
    obtain ⟨hlt, hval⟩ := hget
    rw [List.drop_eq_getElem_cons hlt, hval, h]

theorem pageLoop_spec (pdfDocument : PdfDocument) (pagesNum : Int) (steps : Nat) :
    ∀ (pageIndex : Nat) (text out : List String) (last : Nat),
      pageLoop pdfDocument pagesNum steps pageIndex text = .ok (out, last) →
      ∃ pages : List Page,
        last = pageIndex + pages.length ∧
        (pdfDocument.pages.drop pageIndex).take pages.length = pages.map .ok ∧
        out = pushPages pagesNum pageIndex pages text ∧
        (pages ≠ [] → (last : Int) ≤ pagesNum) ∧
        ((pagesNum - pageIndex).toNat ≤ steps → pagesNum ≤ last) := by
  induction steps with
  | zero =>
    intro pageIndex text out last h
    simp only [pageLoop, Except.ok.injEq, Prod.mk.injEq] at h
    refine ⟨[], ?_, ?_, ?_, ?_, ?_⟩
    · simp [h.2]
    · simp
    · simp [pushPages, h.1]
    · simp
    · intro hle
      rw [← h.2]
      omega
  | succ steps ih =>
    intro pageIndex text out last h
    simp only [pageLoop] at h
    by_cases hlt : (pageIndex : Int) < pagesNum
    · simp only [hlt, if_true] at h
      cases hpage : getPageData pdfDocument pageIndex with
      | error e => simp [hpage] at h
      | ok page =>
        simp only [hpage] at h
        obtain ⟨pages, h1, h2, h3, h4, h5⟩ := ih _ _ _ _ h
        refine ⟨page :: pages, ?_, ?_, ?_, ?_, ?_⟩
        · simp [h1]; omega
        · rw [getPageData_ok _ _ _ hpage]
          simp [h2]
        · simp [pushPages, h3]
        · intro _
          by_cases hp : pages = []
          · subst hp
            simp at h1
            rw [h1]
            push_cast
            omega
          · exact h4 hp
        · intro hle
          apply h5
          push_cast
          omega
    · simp only [hlt, if_false, Except.ok.injEq, Prod.mk.injEq] at h
      refine ⟨[], ?_, ?_, ?_, ?_, ?_⟩
      · simp [h.2]
      · simp
      · simp [pushPages, h.1]
      · simp
      · intro _
        rw [← h.2]
        omega

theorem pageLoop_total (pdfDocument : PdfDocument) (pagesNum : Int)
    (hok : ∀ i : Nat, (i : Int) < pagesNum → ∃ page, getPageData pdfDocument i = .ok page)
    (steps : Nat) :
    ∀ (pageIndex : Nat) (text : List String),
      ∃ out last, pageLoop pdfDocument pagesNum steps pageIndex text = .ok (out, last) := by
  induction steps with
  | zero => intro pageIndex text; exact ⟨text, pageIndex, rfl⟩
  | succ steps ih =>
    intro pageIndex text
    simp only [pageLoop]
    by_cases hlt : (pageIndex : Int) < pagesNum
    · obtain ⟨page, hpage⟩ := hok pageIndex hlt
      simp only [hlt, if_true, hpage]
      exact ih _ _
    · simp only [hlt, if_false]
      exact ⟨text, pageIndex, rfl⟩

theorem clampPagesNum_le (pagesNum : JSValue) (actualCount : Nat) :
    clampPagesNum pagesNum actualCount ≤ actualCount := by
  unfold clampPagesNum
  split
  · exact le_refl _
  · rename_i h
    simp only [Bool.or_eq_true, Bool.not_eq_true', not_or, Bool.not_eq_false] at h
    cases pagesNum with
    | number q =>
      simp only [JSValue.isInteger, Rat.isInt, beq_iff_eq, JSValue.greaterThan,
        decide_eq_true_eq, not_lt] at h
      simp only [JSValue.toInt]
      have hq := Rat.coe_int_num_of_den_eq_one h.1
      have : ((q.num : ℚ)) ≤ ((actualCount : Int) : ℚ) := by
        rw [hq]; exact_mod_cast h.2
      exact_mod_cast this
    | _ => simp [JSValue.isInteger] at h

theorem clampPagesNum_of_not_isInteger (pagesNum : JSValue) (actualCount : Nat)
    (h : pagesNum.isInteger = false) : clampPagesNum pagesNum actualCount = actualCount := by
  simp [clampPagesNum, h]

theorem clampPagesNum_int (k : Int) (actualCount : Nat) :
    clampPagesNum (.number k) actualCount =
      if (actualCount : Int) < k then (actualCount : Int) else k := by
  have hcast : ((actualCount : ℚ) < (k : ℚ)) ↔ ((actualCount : Int) < k) := by
    constructor <;> intro h <;> exact_mod_cast h
  simp [clampPagesNum, JSValue.isInteger, Rat.isInt, JSValue.greaterThan, JSValue.toInt, hcast]

theorem getPageData_map_ok (info : JSObject) (pages : List Page) (i : Nat)
    (h : i < pages.length) :
    ∃ page, getPageData { documentInfo := info, pages := pages.map .ok } i = .ok page := by
  refine ⟨pages[i], ?_⟩
  simp [getPageData, List.getElem?_eq_getElem h]

theorem getFulltext_spec (pdfDocument : PdfDocument) (pagesNum : JSValue) (r : FulltextResult)
    (h : getFulltext pdfDocument pagesNum = .ok r) :
    ∃ pages : List Page,
      r.extractedPages = pages.length ∧
      pdfDocument.pages.take pages.length = pages.map .ok ∧
      r.text = String.join
        (pushPages (clampPagesNum pagesNum pdfDocument.numPages) 0 pages []) ∧
      r.totalPages = pdfDocument.numPages ∧
      r.extractedPages = (clampPagesNum pagesNum pdfDocument.numPages).toNat := by
  unfold getFulltext at h
  simp only at h
  cases hloop : pageLoop pdfDocument (clampPagesNum pagesNum pdfDocument.numPages)
      (clampPagesNum pagesNum pdfDocument.numPages).toNat 0 [] with
  | error e => simp [hloop] at h
  | ok res =>
    obtain ⟨out, last⟩ := res
    simp only [hloop, Except.ok.injEq] at h
    obtain ⟨pages, h1, h2, h3, h4, h5⟩ := pageLoop_spec _ _ _ _ _ _ _ hloop
    simp only [List.drop_zero, Nat.zero_add] at h1 h2
    refine ⟨pages, ?_, h2, ?_, ?_, ?_⟩
    · rw [← h]; exact h1
    · rw [← h, h3]
    · rw [← h]
    · rw [← h]
      have h5 := h5 (by simp)
      by_cases hp : pages = []
      · subst hp
        simp at h1
        simp only [h1]
        simp only [h1] at h5
        omega
      · have h4 := h4 hp
        simp only
        omega

theorem getFulltext_total (info : JSObject) (pages : List Page) (pagesNum : JSValue) :
    ∃ r, getFulltext { documentInfo := info, pages := pages.map .ok } pagesNum = .ok r := by
  have hN : PdfDocument.numPages { documentInfo := info, pages := pages.map .ok } =
      pages.length := by simp [PdfDocument.numPages]
  have hle := clampPagesNum_le pagesNum pages.length
  obtain ⟨out, last, hloop⟩ := pageLoop_total { documentInfo := info, pages := pages.map .ok }
    (clampPagesNum pagesNum pages.length)
    (by
      intro i hi
      apply getPageData_map_ok
      omega)
    (clampPagesNum pagesNum pages.length).toNat 0 []
  refine ⟨⟨String.join out, last, pages.length⟩, ?_⟩
  simp only [getFulltext, hN, hloop]

theorem map_ok_injective (xs ys : List Page)
    (h : xs.map (Except.ok : Page → Except Fault Page) = ys.map .ok) : xs = ys := by
  induction xs generalizing ys with
  | nil => cases ys <;> simp_all
  | cons x xs ih =>
    cases ys with
    | nil => simp at h
    | cons y ys =>
      simp only [List.map_cons, List.cons.injEq, Except.ok.injEq] at h
      rw [h.1, ih ys h.2]

theorem join_pushPages (pagesNum : Int) (pages : List Page)
    (hpop : ∀ page ∈ pages, pagePopsOwnLine page = true) :
    ∀ (pageIndex : Nat) (text : List String),
      (pageIndex : Int) + pages.length = pagesNum →
      String.join (pushPages pagesNum pageIndex pages text) =
        String.join text ++ fulltextForm pages := by
  induction pages with
  | nil => intro pageIndex text _; simp [pushPages, fulltextForm]
  | cons page rest ih =>
    intro pageIndex text hlen
    have hpage := hpop page (List.mem_cons_self _ _)
    have hrest : ∀ q ∈ rest, pagePopsOwnLine q = true :=
      fun q hq => hpop q (List.mem_cons_of_mem _ hq)
    simp only [pushPages]
    cases rest with
    | nil =>
      simp only [pushPages, fulltextForm]
      rw [join_pushPage _ _ _ hpage]
      have : (pageIndex : Int) = pagesNum - 1 := by simp at hlen; omega
      simp [this, String.append_assoc]
    | cons next more =>
      rw [ih hrest (pageIndex + 1) _ (by simp at hlen ⊢; omega)]
      rw [join_pushPage _ _ _ hpage]
      have : (pageIndex : Int) ≠ pagesNum - 1 := by simp at hlen; omega
      simp [this, fulltextForm, String.append_assoc]

theorem pushPages_ends (pagesNum : Int) (pages : List Page) (hne : pages ≠ []) :
    ∀ (pageIndex : Nat) (text : List String),
      (pageIndex : Int) + pages.length = pagesNum →
      ∃ init, pushPages pagesNum pageIndex pages text = init ++ ["\n\n"] := by
  induction pages with
  | nil => exact absurd rfl hne
  | cons page rest ih =>
    intro pageIndex text hlen
    simp only [pushPages]
    cases rest with
    | nil =>
      have : (pageIndex : Int) = pagesNum - 1 := by simp at hlen; omega
      exact ⟨pushParagraphs page.paragraphs text, by simp [pushPages, pushPage, this]⟩
    | cons next more =>
      exact ih (by simp) (pageIndex + 1) _ (by simp at hlen ⊢; omega)

/-! ## C1: the join after a hyphenated line -/

/-- C1, as stated, fails: after the hyphenated line "ffi" (one glyph of three
characters) the join shortens the text by three characters, not one, and after
a hyphenated line without words on an empty buffer it deletes nothing; the
text of the page with the lines "ffi" and "x" is "x" and not "ffx". -/
theorem hyphenated_join_not_one_character :
    ligatureLine.hyphenated = true ∧ emptyHyphenLine.hyphenated = true ∧
    [closingLine] ≠ [] ∧
    (String.join (pushWords ligatureLine.words [])).length = 3 ∧
    (String.join (joinLine ligatureLine [closingLine]
      (pushWords ligatureLine.words []))).length = 0 ∧
    (String.join (pushWords emptyHyphenLine.words [])).length = 0 ∧
    (String.join (joinLine emptyHyphenLine [closingLine]
      (pushWords emptyHyphenLine.words []))).length = 0 ∧
    getFulltext ligatureDocument .undefined =
      .ok { text := "x\n\n", extractedPages := 1, totalPages := 1 } :=
  ⟨by decide, by decide, by decide, by decide, by decide, by decide, by decide, rfl⟩

/-- C1, amended: after a hyphenated line that is not the last of its paragraph
the join pushes no separator and pops the buffer: the element pushed most
recently is removed whole, the text becomes shorter by the length of that
element, and an empty buffer stays empty. -/
theorem hyphenated_join_pops_last_element (line : Line) (rest : List Line)
    (hhyp : line.hyphenated = true) (hrest : rest ≠ []) (text : List String) :
    pushLines (line :: rest) text = pushLines rest (pushWords line.words text).dropLast ∧
    joinLine line rest text = text.dropLast ∧
    (text = [] → joinLine line rest text = []) ∧
    (∀ init last, text = init ++ [last] →
      joinLine line rest text = init ∧
      String.join text = String.join (joinLine line rest text) ++ last ∧
      (String.join (joinLine line rest text)).length + last.length =
        (String.join text).length) := by
  have hjoin : ∀ t, joinLine line rest t = t.dropLast := by
    intro t; simp [joinLine, hhyp, hrest]
  refine ⟨by simp only [pushLines, hjoin], hjoin text, ?_, ?_⟩
  · intro h; simp [hjoin, h]
  · intro init last h
    subst h
    simp [hjoin, join_append, join_singleton]

/-- Witness for C1: the line "ffi" followed by another line, on the buffer
holding its one glyph. -/
theorem hyphenated_join_pops_last_element_witness :
    joinLine ligatureLine [closingLine] ["ffi"] = [] ∧
    (String.join (joinLine ligatureLine [closingLine] ["ffi"])).length + "ffi".length =
      (String.join ["ffi"]).length :=
  have h := (hyphenated_join_pops_last_element ligatureLine [closingLine] (by decide)
    (by decide) ["ffi"]).2.2.2 [] "ffi" rfl
  ⟨h.1, h.2.2⟩

/-! ## C2: page separators -/

/-- C2, as stated, fails: the second page starts with a hyphenated line without
words, whose pop removes the form-feed pushed after the first page. -/
theorem page_separator_form_fails :
    ∃ r, getFulltext emptyHyphenDocument .undefined = .ok r ∧
      r.extractedPages = 2 ∧
      r.text = "ab\n\nx\n\n" ∧
      fulltextForm [plainPage, emptyHyphenPage] = "ab\n\n\x0cx\n\n" ∧
      r.text ≠ fulltextForm [plainPage, emptyHyphenPage] :=
  ⟨{ text := "ab\n\nx\n\n", extractedPages := 2, totalPages := 2 },
    rfl, by decide, by decide, by decide, by decide⟩

/-- C2, amended: when every hyphenated line of the processed pages that is not
the last of its paragraph pushes at least one element, the processed pages are
the first `extractedPages` pages and the text is
`body_1 ++ "\n\n" ++ "\f" ++ ... ++ body_n ++ "\n\n"`. -/
theorem fulltext_page_separators (pdfDocument : PdfDocument) (pagesNum : JSValue)
    (r : FulltextResult) (h : getFulltext pdfDocument pagesNum = .ok r)
    (hpop : ∀ page, Except.ok page ∈ pdfDocument.pages.take r.extractedPages →
      pagePopsOwnLine page = true) :
    ∃ pages : List Page,
      pages.length = r.extractedPages ∧
      pdfDocument.pages.take r.extractedPages = pages.map .ok ∧
      r.text = fulltextForm pages := by
  obtain ⟨pages, h1, h2, h3, _, h5⟩ := getFulltext_spec _ _ _ h
  refine ⟨pages, h1.symm, by rw [h1, h2], ?_⟩
  have hpop2 : ∀ page ∈ pages, pagePopsOwnLine page = true := by
    intro page hp
    apply hpop
    rw [h1, h2]
    exact List.mem_map_of_mem _ hp
  by_cases hp : pages = []
  · subst hp
    rw [h3]
    rfl
  · have hlen : (0 : Int) + pages.length = clampPagesNum pagesNum pdfDocument.numPages := by
      have : 0 < pages.length := List.length_pos.mpr hp
      omega
    rw [h3, join_pushPages _ _ hpop2 0 [] (by exact_mod_cast hlen)]
    simp [join_nil]

/-- Witness for C2: a two-page document whose hyphenated line ends in a
hyphen. -/
theorem fulltext_page_separators_witness :
    ∃ pages : List Page,
      pages.length = 2 ∧
      hyphenDocument.pages.take 2 = pages.map .ok ∧
      "coop\n\n\x0cab\n\n" = fulltextForm pages :=
  fulltext_page_separators hyphenDocument .undefined
    { text := "coop\n\n\x0cab\n\n", extractedPages := 2, totalPages := 2 }
    rfl
    (by
      intro page hp
      simp only [hyphenDocument, List.take, List.mem_cons, Except.ok.injEq,
        List.mem_nil_iff, or_false] at hp
      rcases hp with hp | hp <;> subst hp <;> decide)

/-! ## C3: the end of the text -/

theorem not_ends_with_form_feed (init other : String) : init ++ "\n\n" ≠ other ++ "\x0c" := by
  intro h
  have hd := congrArg String.data h
  simp only [String.data_append] at hd
  have hl := congrArg List.getLast? hd
  simp [List.getLast?_append] at hl

/-- C3: whenever at least one page is processed the text ends with the two
newlines of the final page and has no trailing form-feed; a two-page document
whose pages arrive, with `maxPages` omitted, yields `extractedPages = 2` and a
text ending with two newlines. -/
theorem fulltext_ends_with_two_newlines (pdfDocument : PdfDocument) (pagesNum : JSValue) :
    (∀ r, getFulltext pdfDocument pagesNum = .ok r → 1 ≤ r.extractedPages →
      (∃ init, r.text = init ++ "\n\n") ∧ ¬ ∃ init, r.text = init ++ "\x0c") ∧
    (∀ first second, pdfDocument.pages = [.ok first, .ok second] → pagesNum = .undefined →
      ∃ r, getFulltext pdfDocument pagesNum = .ok r ∧ r.extractedPages = 2 ∧
        ∃ init, r.text = init ++ "\n\n") := by
  have hends : ∀ r, getFulltext pdfDocument pagesNum = .ok r → 1 ≤ r.extractedPages →
      ∃ init, r.text = init ++ "\n\n" := by
    intro r h hn
    obtain ⟨pages, h1, _, h3, _, h5⟩ := getFulltext_spec _ _ _ h
    have hp : pages ≠ [] := by
      intro hp; subst hp; simp at h1; omega
    have hlen : ((0 : Nat) : Int) + pages.length =
        clampPagesNum pagesNum pdfDocument.numPages := by
      push_cast
      omega
    obtain ⟨init, hinit⟩ := pushPages_ends _ pages hp 0 [] hlen
    exact ⟨String.join init, by rw [h3, hinit, join_append, join_singleton]⟩
  refine ⟨fun r h hn => ⟨hends r h hn, ?_⟩, ?_⟩
  · rintro ⟨other, hother⟩
    obtain ⟨init, hinit⟩ := hends r h hn
    exact not_ends_with_form_feed init other (hinit.symm.trans hother)
  · intro first second hpages hlimit
    obtain ⟨r, hr⟩ := getFulltext_total pdfDocument.documentInfo [first, second] pagesNum
    have hdoc : pdfDocument =
        { documentInfo := pdfDocument.documentInfo, pages := [first, second].map .ok } := by
      cases pdfDocument
      simp_all
    rw [← hdoc] at hr
    obtain ⟨_, _, _, _, _, h5⟩ := getFulltext_spec _ _ _ hr
    have h2 : r.extractedPages = 2 := by
      rw [h5, clampPagesNum_of_not_isInteger _ _ (by rw [hlimit]; rfl)]
      simp [PdfDocument.numPages, hpages]
    exact ⟨r, hr, h2, hends r hr (by omega)⟩

/-- Witness for C3: a two-page document, `maxPages` omitted. -/
theorem fulltext_ends_with_two_newlines_witness :
    ∃ r, getFulltext hyphenDocument .undefined = .ok r ∧ r.extractedPages = 2 ∧
      ∃ init, r.text = init ++ "\n\n" :=
  (fulltext_ends_with_two_newlines hyphenDocument .undefined).2 hyphenPage plainPage rfl rfl

/-! ## C4: pages without hyphenation -/

/-- C4: on a page none of whose lines is hyphenated the page loop appends to
the buffer exactly the page's paragraphs joined by one newline, each paragraph
its lines joined by one space, each line the concatenation of its words, each
word its glyph texts followed by one space when its space-after flag is set;
the page separator follows. -/
theorem page_text_without_hyphenation (page : Page) (h : noHyphenation page = true)
    (text : List String) (pagesNum : Int) (pageIndex : Nat) :
    (∃ emitted, pushParagraphs page.paragraphs text = text ++ emitted ∧
      String.join emitted = pageTextSpec page) ∧
    String.join (pushPage pagesNum pageIndex page text) =
      String.join text ++ pageTextSpec page ++ "\n\n" ++
        (if (pageIndex : Int) ≠ pagesNum - 1 then "\x0c" else "") := by
  have hpop := pagePopsOwnLine_of_noHyphenation page h
  have hbody : pageBody page = pageTextSpec page :=
    join_pushParagraphs_of_noHyphenation page.paragraphs h
  refine ⟨⟨pushParagraphs page.paragraphs [], pushParagraphs_eq _ hpop text, hbody⟩, ?_⟩
  rw [join_pushPage _ _ _ hpop, hbody]

/-- Witness for C4: a page of two paragraphs. -/
theorem page_text_without_hyphenation_witness :
    pageTextSpec twoParagraphPage = "a b x\nx" ∧
    String.join (pushPage 2 0 twoParagraphPage ["ab", "\n\n", "\x0c"]) =
      String.join ["ab", "\n\n", "\x0c"] ++ pageTextSpec twoParagraphPage ++ "\n\n" ++
        (if ((0 : Nat) : Int) ≠ (2 : Int) - 1 then "\x0c" else "") :=
  ⟨by decide, (page_text_without_hyphenation twoParagraphPage (by decide)
    ["ab", "\n\n", "\x0c"] 2 0).2⟩

/-! ## C5 and C6: the page limit -/

/-- C5, as stated, fails: with the page limit 0 a two-page document yields
`extractedPages = 0`, not 2, and likewise with the limit -3. -/
theorem nonpositive_limit_is_no_fallback :
    (∃ r, getFulltext hyphenDocument (.number 0) = .ok r ∧
      r.totalPages = 2 ∧ r.extractedPages = 0 ∧ r.text = "") ∧
    (∃ r, getFulltext hyphenDocument (.number (-3)) = .ok r ∧
      r.totalPages = 2 ∧ r.extractedPages = 0 ∧ r.text = "") :=
  ⟨⟨{ text := "", extractedPages := 0, totalPages := 2 }, rfl, rfl, rfl, rfl⟩,
    ⟨{ text := "", extractedPages := 0, totalPages := 2 }, rfl, rfl, rfl, rfl⟩⟩

/-- C5, amended: when the pages arrive, every page limit that is not an integer
falls back to all pages (pages 0 to N-1 are processed, `extractedPages = N`); a
non-positive integer limit is kept: no page is processed, the text is empty and
`extractedPages = 0`. -/
theorem non_integer_limit_falls_back (info : JSObject) (pages : List Page) :
    (∀ pagesNum : JSValue, pagesNum.isInteger = false →
      ∃ r, getFulltext { documentInfo := info, pages := pages.map .ok } pagesNum = .ok r ∧
        r.extractedPages = pages.length ∧
        r.totalPages = pages.length ∧
        r.text = String.join (pushPages pages.length 0 pages [])) ∧
    (∀ k : Int, k ≤ 0 →
      getFulltext { documentInfo := info, pages := pages.map .ok } (.number k) =
        .ok { text := "", extractedPages := 0, totalPages := pages.length }) := by
  have hN : PdfDocument.numPages { documentInfo := info, pages := pages.map .ok } =
      pages.length := by simp [PdfDocument.numPages]
  constructor
  · intro pagesNum hint
    obtain ⟨r, hr⟩ := getFulltext_total info pages pagesNum
    obtain ⟨processed, h1, h2, h3, h4, h5⟩ := getFulltext_spec _ _ _ hr
    rw [hN] at h3 h4 h5
    rw [clampPagesNum_of_not_isInteger _ _ hint] at h3 h5
    simp only [Int.toNat_ofNat] at h5
    have hproc : processed = pages := by
      apply map_ok_injective
      rw [← h2, ← h1, h5]
      simp
    rw [hproc] at h3
    exact ⟨r, hr, h5, h4, h3⟩
  · intro k hk
    obtain ⟨r, hr⟩ := getFulltext_total info pages (.number k)
    obtain ⟨processed, h1, h2, h3, h4, h5⟩ := getFulltext_spec _ _ _ hr
    rw [hN] at h3 h4 h5
    rw [clampPagesNum_int] at h3 h5
    have hlt : ¬ ((pages.length : Int) < k) := by omega
    simp only [hlt, if_false] at h3 h5
    have h0 : r.extractedPages = 0 := by omega
    have hproc : processed = [] := by
      apply List.eq_nil_of_length_eq_zero
      omega
    rw [hproc] at h3
    rw [hr]
    cases r
    simp_all [pushPages, join_nil]

/-- Witness for C5: the limits `undefined`, 3/2 and `NaN` on a two-page
document. -/
theorem non_integer_limit_falls_back_witness :
    (∃ r, getFulltext { documentInfo := [], pages := [hyphenPage, plainPage].map .ok }
        .undefined = .ok r ∧ r.extractedPages = 2) ∧
    (∃ r, getFulltext { documentInfo := [], pages := [hyphenPage, plainPage].map .ok }
        (.number (3 / 2)) = .ok r ∧ r.extractedPages = 2) ∧
    (∃ r, getFulltext { documentInfo := [], pages := [hyphenPage, plainPage].map .ok }
        .nan = .ok r ∧ r.extractedPages = 2) :=
  have h := (non_integer_limit_falls_back [] [hyphenPage, plainPage]).1
  ⟨(h .undefined rfl).imp fun _ hr => ⟨hr.1, hr.2.1⟩,
   (h (.number (3 / 2)) (by norm_num [JSValue.isInteger, Rat.isInt])).imp fun _ hr => ⟨hr.1, hr.2.1⟩,
   (h .nan rfl).imp fun _ hr => ⟨hr.1, hr.2.1⟩⟩

/-- C6: when no page fetch fails, `getFulltext` returns a result with
`totalPages = N` and `extractedPages ≤ totalPages`, for every page limit;
`extractedPages` is the limit for an integer limit from 1 to N and is N for an
integer limit above N. -/
theorem extracted_pages_bounds (info : JSObject) (pages : List Page) (pagesNum : JSValue) :
    ∃ r, getFulltext { documentInfo := info, pages := pages.map .ok } pagesNum = .ok r ∧
      r.totalPages = pages.length ∧
      r.extractedPages ≤ r.totalPages ∧
      (∀ k : Int, pagesNum = .number k → 1 ≤ k → k ≤ pages.length →
        (r.extractedPages : Int) = k) ∧
      (∀ k : Int, pagesNum = .number k → (pages.length : Int) < k →
        r.extractedPages = pages.length) := by
  have hN : PdfDocument.numPages { documentInfo := info, pages := pages.map .ok } =
      pages.length := by simp [PdfDocument.numPages]
  obtain ⟨r, hr⟩ := getFulltext_total info pages pagesNum
  obtain ⟨processed, h1, h2, h3, h4, h5⟩ := getFulltext_spec _ _ _ hr
  rw [hN] at h4 h5
  have hle := clampPagesNum_le pagesNum pages.length
  refine ⟨r, hr, h4, by omega, ?_, ?_⟩
  · intro k hk h1k hkN
    rw [hk, clampPagesNum_int] at h5
    have hlt : ¬ ((pages.length : Int) < k) := by omega
    simp only [hlt, if_false] at h5
    omega
  · intro k hk hgt
    rw [hk, clampPagesNum_int] at h5
    simp only [hgt, if_true, Int.toNat_ofNat] at h5
    exact h5

/-- Witness for C6: the limits 1 and 7 on a two-page document. -/
theorem extracted_pages_bounds_witness :
    (∃ r, getFulltext { documentInfo := [], pages := [hyphenPage, plainPage].map .ok }
        (.number ((1 : Int) : ℚ)) = .ok r ∧ (r.extractedPages : Int) = 1) ∧
    (∃ r, getFulltext { documentInfo := [], pages := [hyphenPage, plainPage].map .ok }
        (.number ((7 : Int) : ℚ)) = .ok r ∧ r.extractedPages = 2) :=
  ⟨(extracted_pages_bounds [] [hyphenPage, plainPage] (.number ((1 : Int) : ℚ))).imp
      fun _ hr => ⟨hr.1, hr.2.2.2.1 1 rfl (by decide) (by decide)⟩,
   (extracted_pages_bounds [] [hyphenPage, plainPage] (.number ((7 : Int) : ℚ))).imp
      fun _ hr => ⟨hr.1, hr.2.2.2.2 7 rfl (by decide)⟩⟩

/-! ## Lemmas on the metadata loops -/

theorem getProperty_upsert (obj : JSObject) (key : String) (value : JSValue)
    (other : String) :
    getProperty (upsert obj key value) other =
      if other = key then some value else getProperty obj other := by
  induction obj with
  | nil =>
    by_cases h : other = key
    · simp [upsert, getProperty, h]
    · have h2 : ¬ key = other := fun hk => h hk.symm
      simp [upsert, getProperty, h, h2]
  | cons head rest ih =>
    obtain ⟨key0, value0⟩ := head
    by_cases h0 : key0 = key
    · by_cases h : other = key
      · simp [upsert, getProperty, h0, h]
      · have h2 : ¬ key = other := fun hk => h hk.symm
        simp [upsert, getProperty, h0, h, h2]
    · by_cases h : key0 = other
      · have hne : ¬ other = key := fun hk => h0 (h.trans hk)
        simp [upsert, getProperty, h0, h, hne]
      · simp [upsert, getProperty, h0, h, ih]

theorem getProperty_setProperty (obj : JSObject) (key : String) (value : JSValue)
    (other : String) :
    getProperty (setProperty obj key value) other =
      if other = key ∧ key ≠ "__proto__" then some value else getProperty obj other := by
  unfold setProperty
  by_cases hp : key = "__proto__"
  · simp [hp]
  · simp only [hp, if_false, getProperty_upsert]
    by_cases h : other = key <;> simp [h, hp]

theorem mem_upsert (obj : JSObject) (key : String) (value : JSValue) (kv : String × JSValue)
    (h : kv ∈ upsert obj key value) : kv ∈ obj ∨ kv = (key, value) := by
  induction obj with
  | nil => simp [upsert] at h; exact Or.inr h
  | cons head rest ih =>
    obtain ⟨key0, value0⟩ := head
    by_cases h0 : key0 = key
    · simp only [upsert, h0, if_true, List.mem_cons] at h
      rcases h with h | h
      · exact Or.inr h
      · exact Or.inl (List.mem_cons_of_mem _ h)
    · simp only [upsert, h0, if_false, List.mem_cons] at h
      rcases h with h | h
      · exact Or.inl (by rw [h]; exact List.mem_cons_self _ _)
      · rcases ih h with h | h
        · exact Or.inl (List.mem_cons_of_mem _ h)
        · exact Or.inr h

theorem mem_setProperty (obj : JSObject) (key : String) (value : JSValue)
    (kv : String × JSValue) (h : kv ∈ setProperty obj key value) :
    kv ∈ obj ∨ kv = (key, value) := by
  unfold setProperty at h
  by_cases hp : key = "__proto__"
  · simp only [hp, if_true] at h; exact Or.inl h
  · simp only [hp, if_false] at h; exact mem_upsert _ _ _ _ h

theorem allStrings_customLoop (props : List (String × JSValue)) :
    ∀ metadata, allStrings metadata → allStrings (customLoop props metadata) := by
  induction props with
  | nil => intro metadata h; exact h
  | cons head rest ih =>
    intro metadata h
    obtain ⟨key2, value2⟩ := head
    cases value2 with
    | string s =>
      simp only [customLoop]
      apply ih
      intro kv hkv
      rcases mem_setProperty _ _ _ _ hkv with hkv | hkv
      · exact h kv hkv
      · exact ⟨s, by rw [hkv]⟩
    | _ => simp only [customLoop]; exact ih _ h

theorem allStrings_infoLoop (info : List (String × JSValue)) :
    ∀ metadata, allStrings metadata → allStrings (infoLoop info metadata) := by
  induction info with
  | nil => intro metadata h; exact h
  | cons head rest ih =>
    intro metadata h
    obtain ⟨key, value⟩ := head
    simp only [infoLoop]
    split
    · exact ih _ h
    · cases value with
      | string s =>
        apply ih
        intro kv hkv
        rcases mem_setProperty _ _ _ _ hkv with hkv | hkv
        · exact h kv hkv
        · exact ⟨s, by rw [hkv]⟩
      | object props =>
        simp only
        split
        · exact ih _ (allStrings_customLoop props _ h)
        · exact ih _ h
      | _ => exact ih _ h

theorem getProperty_customLoop_source (props : List (String × JSValue)) (key : String) :
    ∀ metadata value, getProperty (customLoop props metadata) key = some value →
      getProperty metadata key = some value ∨
        ((key, value) ∈ props ∧ ∃ s, value = JSValue.string s) := by
  induction props with
  | nil => intro metadata value h; exact Or.inl h
  | cons head rest ih =>
    intro metadata value h
    obtain ⟨key2, value2⟩ := head
    cases value2 with
    | string s =>
      simp only [customLoop] at h
      rcases ih _ _ h with h1 | h1
      · rw [getProperty_setProperty] at h1
        by_cases hk : key = key2 ∧ key2 ≠ "__proto__"
        · rw [if_pos hk, Option.some.injEq] at h1
          right
          refine ⟨?_, s, h1.symm⟩
          rw [← h1, hk.1]
          exact List.mem_cons_self _ _
        · rw [if_neg hk] at h1
          exact Or.inl h1
      · exact Or.inr ⟨List.mem_cons_of_mem _ h1.1, h1.2⟩
    | _ =>
      simp only [customLoop] at h
      rcases ih _ _ h with h1 | h1
      · exact Or.inl h1
      · exact Or.inr ⟨List.mem_cons_of_mem _ h1.1, h1.2⟩

theorem getProperty_infoLoop_formatVersion (info : List (String × JSValue)) :
    ∀ metadata value,
      getProperty (infoLoop info metadata) "PDFFormatVersion" = some value →
      getProperty metadata "PDFFormatVersion" = some value ∨
        ∃ props, ("Custom", JSValue.object props) ∈ info ∧
          ("PDFFormatVersion", value) ∈ props ∧ ∃ s, value = JSValue.string s := by
  induction info with
  | nil => intro metadata value h; exact Or.inl h
  | cons head rest ih =>
    intro metadata value h
    obtain ⟨key, val⟩ := head
    have hlift : ∀ m, getProperty (infoLoop rest m) "PDFFormatVersion" = some value →
        (getProperty m "PDFFormatVersion" = some value →
          getProperty metadata "PDFFormatVersion" = some value ∨
            ∃ props, ("Custom", JSValue.object props) ∈ (key, val) :: rest ∧
              ("PDFFormatVersion", value) ∈ props ∧ ∃ s, value = JSValue.string s) →
        getProperty metadata "PDFFormatVersion" = some value ∨
          ∃ props, ("Custom", JSValue.object props) ∈ (key, val) :: rest ∧
            ("PDFFormatVersion", value) ∈ props ∧ ∃ s, value = JSValue.string s := by
      intro m hm hstep
      rcases ih m value hm with h1 | ⟨props, hmem, hrest⟩
      · exact hstep h1
      · exact Or.inr ⟨props, List.mem_cons_of_mem _ hmem, hrest⟩
    simp only [infoLoop] at h
    by_cases hkey : key = "PDFFormatVersion"
    · simp only [hkey, if_true] at h
      exact hlift _ h Or.inl
    · simp only [hkey, if_false] at h
      cases val with
      | string s =>
        apply hlift _ h
        intro h1
        rw [getProperty_setProperty] at h1
        have hne : ¬ ("PDFFormatVersion" = key ∧ key ≠ "__proto__") :=
          fun hk => hkey hk.1.symm
        simp only [hne, if_false] at h1
        exact Or.inl h1
      | object props =>
        simp only at h
        by_cases hc : key = "Custom"
        · simp only [hc, if_true] at h
          apply hlift _ h
          intro h1
          rcases getProperty_customLoop_source props _ _ _ h1 with h2 | h2
          · exact Or.inl h2
          · exact Or.inr ⟨props, by rw [hc]; exact List.mem_cons_self _ _, h2⟩
        · simp only [hc, if_false] at h
          exact hlift _ h Or.inl
      | _ => exact hlift _ h Or.inl

theorem getProperty_eq_none_iff (obj : JSObject) (key : String) :
    getProperty obj key = none ↔ ∀ kv ∈ obj, kv.1 ≠ key := by
  induction obj with
  | nil => simp [getProperty]
  | cons head rest ih =>
    obtain ⟨key0, value0⟩ := head
    by_cases h : key0 = key
    · simp [getProperty, h]
    · simp [getProperty, h, ih]

theorem getProperty_customLoop_of_absent (props : List (String × JSValue)) (key : String)
    (h : ∀ s, (key, JSValue.string s) ∉ props) :
    ∀ metadata, getProperty (customLoop props metadata) key = getProperty metadata key := by
  induction props with
  | nil => intro metadata; rfl
  | cons head rest ih =>
    intro metadata
    obtain ⟨key2, value2⟩ := head
    have hrest : ∀ s, (key, JSValue.string s) ∉ rest :=
      fun s hs => h s (List.mem_cons_of_mem _ hs)
    cases value2 with
    | string s =>
      simp only [customLoop]
      rw [ih hrest, getProperty_setProperty]
      have hne : ¬ (key = key2 ∧ key2 ≠ "__proto__") := by
        rintro ⟨hk, _⟩
        exact h s (by rw [hk]; exact List.mem_cons_self _ _)
      rw [if_neg hne]
    | _ => simp only [customLoop]; exact ih hrest _

theorem getProperty_customLoop_of_mem (props : List (String × JSValue)) (key value : String)
    (hnodup : (props.map Prod.fst).Nodup) (hmem : (key, JSValue.string value) ∈ props)
    (hproto : key ≠ "__proto__") :
    ∀ metadata, getProperty (customLoop props metadata) key = some (JSValue.string value) := by
  induction props with
  | nil => simp at hmem
  | cons head rest ih =>
    intro metadata
    obtain ⟨key2, value2⟩ := head
    simp only [List.map_cons, List.nodup_cons, List.mem_map, not_exists, not_and] at hnodup
    rcases List.mem_cons.mp hmem with hhead | htail
    · simp only [Prod.mk.injEq] at hhead
      obtain ⟨hk, hv⟩ := hhead
      subst hk
      subst hv
      simp only [customLoop]
      rw [getProperty_customLoop_of_absent rest key
        (fun s hs => hnodup.1 (key, JSValue.string s) hs rfl)]
      rw [getProperty_setProperty, if_pos ⟨rfl, hproto⟩]
    · have hne : key2 ≠ key := fun hk => hnodup.1 (key, JSValue.string value) htail hk.symm
      cases value2 with
      | string s =>
        simp only [customLoop]
        exact ih hnodup.2 htail _
      | _ => simp only [customLoop]; exact ih hnodup.2 htail _

theorem getProperty_infoLoop_of_absent (info : List (String × JSValue)) (key : String)
    (hcustom : ∀ kv ∈ info, kv.1 ≠ "Custom")
    (hstring : ∀ s, (key, JSValue.string s) ∈ info → key = "PDFFormatVersion") :
    ∀ metadata, getProperty (infoLoop info metadata) key = getProperty metadata key := by
  induction info with
  | nil => intro metadata; rfl
  | cons head rest ih =>
    intro metadata
    obtain ⟨key0, value0⟩ := head
    have hc0 : key0 ≠ "Custom" := hcustom (key0, value0) (List.mem_cons_self _ _)
    have ih2 := ih (fun kv hkv => hcustom kv (List.mem_cons_of_mem _ hkv))
      (fun s hs => hstring s (List.mem_cons_of_mem _ hs))
    simp only [infoLoop]
    by_cases hkey : key0 = "PDFFormatVersion"
    · simp only [hkey, if_true]; exact ih2 _
    · simp only [hkey, if_false]
      cases value0 with
      | string s =>
        simp only
        rw [ih2, getProperty_setProperty]
        have hne : ¬ (key = key0 ∧ key0 ≠ "__proto__") := by
          rintro ⟨hk, _⟩
          apply hkey
          rw [← hk]
          exact hstring s (by rw [hk]; exact List.mem_cons_self _ _)
        rw [if_neg hne]
      | object props => simp only [hc0, if_false]; exact ih2 _
      | _ => exact ih2 _

theorem infoLoop_append (front back : List (String × JSValue)) :
    ∀ metadata, infoLoop (front ++ back) metadata = infoLoop back (infoLoop front metadata) := by
  induction front with
  | nil => intro metadata; rfl
  | cons head rest ih =>
    intro metadata
    obtain ⟨key, value⟩ := head
    simp only [List.cons_append, infoLoop]
    by_cases hkey : key = "PDFFormatVersion"
    · simp only [hkey, if_true]; exact ih _
    · simp only [hkey, if_false]
      cases value with
      | string s => exact ih _
      | object props =>
        simp only
        by_cases hc : key = "Custom"
        · simp only [hc, if_true]; exact ih _
        · simp only [hc, if_false]; exact ih _
      | _ => exact ih _

/-! ## C7 and C8: the exported metadata -/

/-- C7, as stated, fails: a string entry of the `Custom` sub-map under the key
`PDFFormatVersion` is exported under that key. -/
theorem format_version_exported_from_custom :
    getProperty (exportMetadata customVersionInfo) "PDFFormatVersion" =
      some (.string "2.0") := by
  rfl

/-- C7, amended: the top-level entry under `PDFFormatVersion` is never
exported; when no `Custom` sub-map holds a string under the key
`PDFFormatVersion`, the exported metadata has no entry under that key. -/
theorem format_version_not_exported (documentInfo : JSObject)
    (h : ∀ props, ("Custom", JSValue.object props) ∈ documentInfo →
      ∀ s, ("PDFFormatVersion", JSValue.string s) ∉ props) :
    getProperty (exportMetadata documentInfo) "PDFFormatVersion" = none ∧
    ∀ kv ∈ exportMetadata documentInfo, kv.1 ≠ "PDFFormatVersion" := by
  have hnone : getProperty (exportMetadata documentInfo) "PDFFormatVersion" = none := by
    cases hget : getProperty (exportMetadata documentInfo) "PDFFormatVersion" with
    | none => rfl
    | some value =>
      exfalso
      rcases getProperty_infoLoop_formatVersion documentInfo [] value hget with h1 | h1
      · simp [getProperty] at h1
      · obtain ⟨props, hmem, hin, s, hs⟩ := h1
        rw [hs] at hin
        exact h props hmem s hin
  exact ⟨hnone, (getProperty_eq_none_iff _ _).mp hnone⟩

/-- Witness for C7: a mapping with a top-level `PDFFormatVersion` entry and a
`Custom` sub-map without that key. -/
theorem format_version_not_exported_witness :
    getProperty (exportMetadata plainInfo) "PDFFormatVersion" = none ∧
    ∀ kv ∈ exportMetadata plainInfo, kv.1 ≠ "PDFFormatVersion" :=
  format_version_not_exported plainInfo (by
    intro props hmem s hs
    simp only [plainInfo, List.mem_cons, Prod.mk.injEq, List.mem_nil_iff, or_false] at hmem
    rcases hmem with hmem | hmem | hmem | hmem
    · exact absurd hmem.1 (by decide)
    · exact absurd hmem.1 (by decide)
    · exact absurd hmem.1 (by decide)
    · have hp := JSValue.object.inj hmem.2
      subst hp
      simp only [List.mem_cons, Prod.mk.injEq, List.mem_nil_iff, or_false] at hs
      rcases hs with hs | hs
      · exact absurd hs.1 (by decide)
      · exact absurd hs.1 (by decide))

/-- C8, as stated, fails: the string entry `Title ↦ "a"` of the `Custom`
sub-map is not what the exported metadata holds under `Title`; the top-level
entry enumerated after `Custom` replaces it. -/
theorem custom_entry_shadowed :
    ("Custom", JSValue.object [("Title", .string "a")]) ∈ shadowedTitleInfo ∧
    getProperty (exportMetadata shadowedTitleInfo) "Title" = some (.string "b") ∧
    getProperty (exportMetadata shadowedTitleInfo) "Title" ≠ some (.string "a") := by
  refine ⟨List.mem_cons_self _ _, rfl, ?_⟩
  intro h
  have h2 : getProperty (exportMetadata shadowedTitleInfo) "Title" = some (.string "b") := rfl
  rw [h2] at h
  simp only [Option.some.injEq, JSValue.string.injEq] at h
  exact absurd h (by decide)

/-- C8, amended: every value of the exported metadata is a string; a string
entry `(key, value)` of the `Custom` sub-map is exported as `key ↦ value` when
`key` is not `__proto__` and no string-valued top-level entry enumerated after
`Custom`, other than the skipped `PDFFormatVersion`, has the same key (keys of an
object being distinct). -/
theorem metadata_values_are_strings (front back : List (String × JSValue))
    (props : List (String × JSValue)) :
    (∀ documentInfo : JSObject, ∀ kv ∈ exportMetadata documentInfo,
      ∃ s, kv.2 = JSValue.string s) ∧
    (∀ key value,
      ((front ++ ("Custom", JSValue.object props) :: back).map Prod.fst).Nodup →
      (props.map Prod.fst).Nodup →
      (key, JSValue.string value) ∈ props →
      key ≠ "__proto__" →
      (∀ s, (key, JSValue.string s) ∈ back → key = "PDFFormatVersion") →
      getProperty (exportMetadata (front ++ ("Custom", JSValue.object props) :: back)) key =
        some (JSValue.string value)) := by
  constructor
  · intro documentInfo
    exact allStrings_infoLoop documentInfo [] (by intro kv hkv; simp at hkv)
  · intro key value hnodup hprops hmem hproto hback
    unfold exportMetadata
    rw [infoLoop_append]
    have hstep : ∀ m, infoLoop (("Custom", JSValue.object props) :: back) m =
        infoLoop back (customLoop props m) := by
      intro m
      have hne : ¬ ("Custom" = "PDFFormatVersion") := by decide
      simp only [infoLoop, hne, if_false, if_true]
    rw [hstep]
    have hcustom : ∀ kv ∈ back, kv.1 ≠ "Custom" := by
      intro kv hkv hk
      simp only [List.map_append, List.map_cons] at hnodup
      have h2 := (List.nodup_append.mp hnodup).2.1
      simp only [List.nodup_cons, List.mem_map, not_exists, not_and] at h2
      exact h2.1 kv hkv hk
    rw [getProperty_infoLoop_of_absent back key hcustom hback]
    exact getProperty_customLoop_of_mem props key value hprops hmem hproto _

/-- Witness for C8: the entry `Company ↦ "ACME"` of the `Custom` sub-map. -/
theorem metadata_values_are_strings_witness :
    getProperty (exportMetadata
      ([("PDFFormatVersion", JSValue.string "1.7"), ("Title", JSValue.string "Report")] ++
        ("Custom", JSValue.object [("Company", .string "ACME"), ("Pages", .number 3)]) ::
        [("Company", JSValue.boolean true)])) "Company" = some (JSValue.string "ACME") :=
  (metadata_values_are_strings
    [("PDFFormatVersion", JSValue.string "1.7"), ("Title", JSValue.string "Report")]
    [("Company", JSValue.boolean true)]
    [("Company", .string "ACME"), ("Pages", .number 3)]).2 "Company" "ACME"
    (by decide) (by decide) (List.mem_cons_self _ _) (by decide)
    (by
      intro s hs
      simp only [List.mem_cons, Prod.mk.injEq, List.mem_nil_iff, or_false] at hs
      exact absurd hs.2 (by simp))

/-! ## Lemmas on the recognizer loops -/

theorem wordLoop_acc (pageHeight : ℚ) (words : List Word) :
    ∀ (fonts : List String) (acc : List WordRecord),
      wordLoop pageHeight words fonts acc =
        match wordLoop pageHeight words fonts [] with
        | .error e => .error e
        | .ok (after, records) => .ok (after, acc ++ records) := by
  induction words with
  | nil => intro fonts acc; simp [wordLoop]
  | cons word rest ih =>
    intro fonts acc
    simp only [wordLoop]
    cases hrec : wordRecord pageHeight fonts word with
    | error e => rfl
    | ok res =>
      obtain ⟨fonts1, record⟩ := res
      simp only [List.nil_append]
      rw [ih fonts1 (acc ++ [record]), ih fonts1 [record]]
      cases wordLoop pageHeight rest fonts1 [] with
      | error e => rfl
      | ok res2 => simp

theorem wordLoop_cons (pageHeight : ℚ) (word : Word) (rest : List Word)
    (fonts : List String) :
    wordLoop pageHeight (word :: rest) fonts [] =
      match wordRecord pageHeight fonts word with
      | .error e => .error e
      | .ok (fonts1, record) =>
        match wordLoop pageHeight rest fonts1 [] with
        | .error e => .error e
        | .ok (after, records) => .ok (after, record :: records) := by
  simp only [wordLoop]
  cases hrec : wordRecord pageHeight fonts word with
  | error e => rfl
  | ok res =>
    obtain ⟨fonts1, record⟩ := res
    simp only [List.nil_append]
    rw [wordLoop_acc]
    cases wordLoop pageHeight rest fonts1 [] with
    | error e => rfl
    | ok res2 => simp

theorem wordLoop_append (pageHeight : ℚ) (front back : List Word) :
    ∀ fonts : List String,
      wordLoop pageHeight (front ++ back) fonts [] =
        match wordLoop pageHeight front fonts [] with
        | .error e => .error e
        | .ok (fonts1, records1) =>
          match wordLoop pageHeight back fonts1 [] with
          | .error e => .error e
          | .ok (after, records2) => .ok (after, records1 ++ records2) := by
  induction front with
  | nil =>
    intro fonts
    simp only [List.nil_append, wordLoop]
    cases wordLoop pageHeight back fonts [] with
    | error e => rfl
    | ok res => rfl
  | cons word rest ih =>
    intro fonts
    rw [List.cons_append, wordLoop_cons, wordLoop_cons]
    cases hrec : wordRecord pageHeight fonts word with
    | error e => rfl
    | ok res =>
      obtain ⟨fonts1, record⟩ := res
      simp only
      rw [ih fonts1]
      cases wordLoop pageHeight rest fonts1 [] with
      | error e => rfl
      | ok res2 =>
        obtain ⟨fonts2, records1⟩ := res2
        simp only
        cases wordLoop pageHeight back fonts2 [] with
        | error e => rfl
        | ok res3 => rfl

theorem wordLoop_forall₂ (pageHeight : ℚ) (words : List Word) :
    ∀ (fonts after : List String) (records : List WordRecord),
      wordLoop pageHeight words fonts [] = .ok (after, records) →
      List.Forall₂ (isRecordOf pageHeight) records words := by
  induction words with
  | nil =>
    intro fonts after records h
    simp only [wordLoop, Except.ok.injEq, Prod.mk.injEq] at h
    rw [← h.2]
    exact List.Forall₂.nil
  | cons word rest ih =>
    intro fonts after records h
    rw [wordLoop_cons] at h
    cases hrec : wordRecord pageHeight fonts word with
    | error e => simp [hrec] at h
    | ok res =>
      obtain ⟨fonts1, record⟩ := res
      simp only [hrec] at h
      cases hloop : wordLoop pageHeight rest fonts1 [] with
      | error e => simp [hloop] at h
      | ok res2 =>
        obtain ⟨fonts2, records1⟩ := res2
        simp only [hloop, Except.ok.injEq, Prod.mk.injEq] at h
        rw [← h.2]
        exact List.Forall₂.cons ⟨fonts, fonts1, hrec⟩ (ih _ _ _ hloop)

theorem lineLoop_acc (pageHeight : ℚ) (lines : List Line) :
    ∀ (fonts : List String) (acc : List LineRecord),
      lineLoop pageHeight lines fonts acc =
        match lineLoop pageHeight lines fonts [] with
        | .error e => .error e
        | .ok (after, added) => .ok (after, acc ++ added) := by
  induction lines with
  | nil => intro fonts acc; simp [lineLoop]
  | cons line rest ih =>
    intro fonts acc
    simp only [lineLoop]
    cases hwords : wordLoop pageHeight line.words fonts [] with
    | error e => rfl
    | ok res =>
      obtain ⟨fonts1, newLine⟩ := res
      simp only
      rw [ih fonts1 (if newLine.length ≠ 0 then acc ++ [[newLine]] else acc),
        ih fonts1 (if newLine.length ≠ 0 then [] ++ [[newLine]] else [])]
      cases lineLoop pageHeight rest fonts1 [] with
      | error e => rfl
      | ok res2 =>
        by_cases hlen : newLine.length = 0 <;> simp [hlen]

theorem lineLoop_spec (pageHeight : ℚ) (lines : List Line) :
    ∀ (fonts after : List String) (added : List LineRecord),
      lineLoop pageHeight lines fonts [] = .ok (after, added) →
      wordLoop pageHeight (lines.flatMap (fun line => line.words)) fonts [] =
        .ok (after, added.flatten.flatten) ∧
      List.Forall₂ (isLineRecordOf pageHeight) added
        (lines.filter (fun line => !line.words.isEmpty)) := by
  induction lines with
  | nil =>
    intro fonts after added h
    simp only [lineLoop, Except.ok.injEq, Prod.mk.injEq] at h
    rw [← h.1, ← h.2]
    exact ⟨rfl, List.Forall₂.nil⟩
  | cons line rest ih =>
    intro fonts after added h
    simp only [lineLoop] at h
    cases hwords : wordLoop pageHeight line.words fonts [] with
    | error e => simp [hwords] at h
    | ok res =>
      obtain ⟨fonts1, newLine⟩ := res
      simp only [hwords] at h
      rw [lineLoop_acc] at h
      cases hrest : lineLoop pageHeight rest fonts1 [] with
      | error e => simp [hrest] at h
      | ok res2 =>
        obtain ⟨fonts2, more⟩ := res2
        simp only [hrest, Except.ok.injEq, Prod.mk.injEq] at h
        obtain ⟨ih1, ih2⟩ := ih _ _ _ hrest
        have hrel := wordLoop_forall₂ _ _ _ _ _ hwords
        rw [List.flatMap_cons, wordLoop_append, hwords]
        simp only [ih1]
        rw [← h.1, ← h.2]
        by_cases hlen : newLine.length = 0
        · have hnil : newLine = [] := List.eq_nil_of_length_eq_zero hlen
          subst hnil
          have hw : line.words = [] :=
            List.eq_nil_of_length_eq_zero (by rw [← hrel.length_eq]; rfl)
          simp [hw, ih2]
        · have hne : newLine ≠ [] := fun hn => hlen (by rw [hn]; rfl)
          have hw : line.words ≠ [] := by
            intro hw
            apply hlen
            rw [hrel.length_eq, hw]
            rfl
          have hfilter : (line :: rest).filter (fun line => !line.words.isEmpty) =
              line :: rest.filter (fun line => !line.words.isEmpty) := by
            simp [List.filter_cons, hw]
          rw [hfilter]
          simp only [ne_eq, hlen, not_false_eq_true, if_true, List.nil_append,
            List.singleton_append, List.flatten_cons, List.flatten_nil, List.append_nil,
            List.flatten_append, true_and]
          exact List.Forall₂.cons ⟨newLine, rfl, hne, hrel⟩ ih2

theorem paragraphLoop_acc (pageHeight : ℚ) (paragraphs : List Paragraph) :
    ∀ (fonts : List String) (acc : List LineRecord),
      paragraphLoop pageHeight paragraphs fonts acc =
        match paragraphLoop pageHeight paragraphs fonts [] with
        | .error e => .error e
        | .ok (after, added) => .ok (after, acc ++ added) := by
  induction paragraphs with
  | nil => intro fonts acc; simp [paragraphLoop]
  | cons paragraph rest ih =>
    intro fonts acc
    simp only [paragraphLoop]
    rw [lineLoop_acc]
    cases hlines : lineLoop pageHeight paragraph.lines fonts [] with
    | error e => rfl
    | ok res =>
      obtain ⟨fonts1, added⟩ := res
      simp only [List.nil_append]
      rw [ih fonts1 (acc ++ added), ih fonts1 added]
      cases paragraphLoop pageHeight rest fonts1 [] with
      | error e => rfl
      | ok res2 => simp

theorem paragraphLoop_spec (pageHeight : ℚ) (paragraphs : List Paragraph) :
    ∀ (fonts after : List String) (added : List LineRecord),
      paragraphLoop pageHeight paragraphs fonts [] = .ok (after, added) →
      wordLoop pageHeight
        ((paragraphs.flatMap (fun paragraph => paragraph.lines)).flatMap
          (fun line => line.words)) fonts [] = .ok (after, added.flatten.flatten) ∧
      List.Forall₂ (isLineRecordOf pageHeight) added
        ((paragraphs.flatMap (fun paragraph => paragraph.lines)).filter
          (fun line => !line.words.isEmpty)) := by
  induction paragraphs with
  | nil =>
    intro fonts after added h
    simp only [paragraphLoop, Except.ok.injEq, Prod.mk.injEq] at h
    rw [← h.1, ← h.2]
    exact ⟨rfl, List.Forall₂.nil⟩
  | cons paragraph rest ih =>
    intro fonts after added h
    simp only [paragraphLoop] at h
    cases hlines : lineLoop pageHeight paragraph.lines fonts [] with
    | error e => simp [hlines] at h
    | ok res =>
      obtain ⟨fonts1, first⟩ := res
      simp only [hlines] at h
      rw [paragraphLoop_acc] at h
      cases hrest : paragraphLoop pageHeight rest fonts1 [] with
      | error e => simp [hrest] at h
      | ok res2 =>
        obtain ⟨fonts2, more⟩ := res2
        simp only [hrest, Except.ok.injEq, Prod.mk.injEq] at h
        obtain ⟨ih1, ih2⟩ := ih _ _ _ hrest
        obtain ⟨hl1, hl2⟩ := lineLoop_spec _ _ _ _ _ hlines
        rw [← h.1, ← h.2]
        constructor
        · rw [List.flatMap_cons, List.flatMap_append, wordLoop_append, hl1]
          simp only [ih1, List.flatten_append]
        · rw [List.flatMap_cons, List.filter_append]
          exact List.rel_append hl2 ih2

theorem recognizePage_spec (page : Page) (record : PageRecord)
    (h : recognizePage page = .ok record) :
    ∃ (fonts : List String) (newLines : List LineRecord),
      record = { pageWidth := page.view.2.2.1, pageHeight := page.view.2.2.2,
                 wrapper := [[[{ c0 := 0, c1 := 0, c2 := 0, c3 := 0,
                                 newLines := newLines }]]] } ∧
      wordLoop page.view.2.2.2 (pageWords page) [] [] = .ok (fonts, pageRecords record) ∧
      List.Forall₂ (isLineRecordOf page.view.2.2.2) newLines
        ((pageLines page).filter (fun line => !line.words.isEmpty)) := by
  unfold recognizePage at h
  simp only at h
  cases hloop : paragraphLoop page.view.2.2.2 page.paragraphs [] [] with
  | error e => simp [hloop] at h
  | ok res =>
    obtain ⟨fonts, newLines⟩ := res
    simp only [hloop, Except.ok.injEq] at h
    obtain ⟨h1, h2⟩ := paragraphLoop_spec _ _ _ _ _ hloop
    refine ⟨fonts, newLines, h.symm, ?_, h2⟩
    rw [← h]
    simpa [pageWords, pageLines, pageRecords, PageRecord.newLines] using h1

theorem forall₂_getElem_some {α β : Type} {R : α → β → Prop} {xs : List α} {ys : List β}
    (h : List.Forall₂ R xs ys) :
    ∀ (i : Nat) (x : α) (y : β), xs[i]? = some x → ys[i]? = some y → R x y := by
  induction h with
  | nil => intro i x y hx; simp at hx
  | cons hr _ ih =>
    intro i x y hx hy
    cases i with
    | zero =>
      simp only [List.getElem?_cons_zero, Option.some.injEq] at hx hy
      rw [← hx, ← hy]; exact hr
    | succ i =>
      simp only [List.getElem?_cons_succ] at hx hy
      exact ih i x y hx hy

theorem recognizerLoop_spec (pdfDocument : PdfDocument) (maxPages : Int) (steps : Nat) :
    ∀ (pageIndex : Nat) (acc out : List PageRecord),
      recognizerLoop pdfDocument maxPages steps pageIndex acc = .ok out →
      ∃ added, out = acc ++ added ∧
        List.Forall₂ (fun record answer => ∃ page, answer = Except.ok page ∧
          recognizePage page = .ok record) added
          ((pdfDocument.pages.drop pageIndex).take added.length) := by
  induction steps with
  | zero =>
    intro pageIndex acc out h
    simp only [recognizerLoop, Except.ok.injEq] at h
    exact ⟨[], by simp [h], by simp⟩
  | succ steps ih =>
    intro pageIndex acc out h
    simp only [recognizerLoop] at h
    by_cases hlt : (pageIndex : Int) < maxPages
    · simp only [hlt, if_true] at h
      cases hpage : getPageData pdfDocument pageIndex with
      | error e => simp [hpage] at h
      | ok page =>
        simp only [hpage] at h
        cases hrec : recognizePage page with
        | error e => simp [hrec] at h
        | ok record =>
          simp only [hrec] at h
          obtain ⟨added, h1, h2⟩ := ih _ _ _ h
          refine ⟨record :: added, by simp [h1], ?_⟩
          rw [getPageData_ok _ _ _ hpage]
          simp only [List.length_cons, List.take_succ_cons]
          exact List.Forall₂.cons ⟨page, rfl, hrec⟩ h2
    · simp only [hlt, if_false, Except.ok.injEq] at h
      exact ⟨[], by simp [h], by simp⟩

theorem getRecognizerData_page (pdfDocument : PdfDocument) (data : RecognizerData)
    (h : getRecognizerData pdfDocument = .ok data) (i : Nat) (record : PageRecord)
    (hrecord : data.pages[i]? = some record) :
    ∃ page, pdfDocument.pages[i]? = some (.ok page) ∧ recognizePage page = .ok record := by
  unfold getRecognizerData at h
  simp only at h
  cases hloop : recognizerLoop pdfDocument (clampPagesNum (.number 5) pdfDocument.numPages)
      (clampPagesNum (.number 5) pdfDocument.numPages).toNat 0 [] with
  | error e => simp [hloop] at h
  | ok pages =>
    simp only [hloop, Except.ok.injEq] at h
    obtain ⟨added, h1, h2⟩ := recognizerLoop_spec _ _ _ _ _ _ hloop
    simp only [List.nil_append, List.drop_zero] at h1 h2
    rw [← h] at hrecord
    simp only [h1] at hrecord
    have hi : i < added.length := by
      by_contra hge
      rw [List.getElem?_eq_none (by omega)] at hrecord
      cases hrecord
    have hlen := h2.length_eq
    have hi2 : i < (List.take added.length pdfDocument.pages).length := by omega
    obtain ⟨page, hp1, hp2⟩ := forall₂_getElem_some h2 i record
      ((List.take added.length pdfDocument.pages)[i]) hrecord (List.getElem?_eq_getElem hi2)
    refine ⟨page, ?_, hp2⟩
    rw [← hp1, List.getElem_take]
    rw [List.length_take] at hi2
    exact List.getElem?_eq_getElem (by omega)

theorem indexOf_eq (fonts : List String) (fontName : String) :
    indexOf fonts fontName =
      if fontName ∈ fonts then (List.indexOf fontName fonts : Int) else -1 := by
  induction fonts with
  | nil => simp [indexOf]
  | cons font rest ih =>
    by_cases hf : font = fontName
    · simp [indexOf, hf]
    · have hf2 : ¬ fontName = font := fun hk => hf hk.symm
      simp only [indexOf, hf, if_false, List.mem_cons, hf2, false_or]
      rw [ih, List.indexOf_cons_ne _ hf]
      by_cases hm : fontName ∈ rest
      · simp only [hm, if_true]
        have : ¬ ((List.indexOf fontName rest : Int) = -1) := by omega
        simp only [this, if_false]
        push_cast
        rfl
      · simp [hm]

theorem wordRecord_fontIndex (pageHeight : ℚ) (fonts after : List String) (word : Word)
    (record : WordRecord) (h : wordRecord pageHeight fonts word = .ok (after, record)) :
    ∃ char, word.chars.head? = some char ∧
      after = (if char.fontName ∈ fonts then fonts else fonts ++ [char.fontName]) ∧
      record.fontIndex =
        (if char.fontName ∈ fonts then (List.indexOf char.fontName fonts : Int)
          else (fonts.length : Int)) := by
  unfold wordRecord at h
  cases hhead : word.chars.head? with
  | none => simp [hhead] at h
  | some char =>
    simp only [hhead, Except.ok.injEq, Prod.mk.injEq] at h
    refine ⟨char, rfl, ?_, ?_⟩
    · rw [← h.1, indexOf_eq]
      by_cases hm : char.fontName ∈ fonts
      · have : ¬ ((List.indexOf char.fontName fonts : Int) = -1) := by omega
        simp [hm, this]
      · simp [hm]
    · rw [← h.2]
      simp only [indexOf_eq]
      by_cases hm : char.fontName ∈ fonts
      · have : ¬ ((List.indexOf char.fontName fonts : Int) = -1) := by omega
        simp [hm, this]
      · simp [hm]

theorem wordLoop_fonts (pageHeight : ℚ) (words : List Word) :
    ∀ (fonts after : List String) (records : List WordRecord),
      wordLoop pageHeight words fonts [] = .ok (after, records) → fonts.Nodup →
      after.Nodup ∧ (∃ ext, after = fonts ++ ext) ∧
      (∀ name, name ∈ after ↔ name ∈ fonts ∨ some name ∈ words.map representativeFont) ∧
      (∀ word ∈ words, ∃ char, word.chars.head? = some char) ∧
      List.Forall₂ (fun record word => ∃ char, word.chars.head? = some char ∧
        record.fontIndex = (List.indexOf char.fontName after : Int)) records words := by
  induction words with
  | nil =>
    intro fonts after records h hnodup
    simp only [wordLoop, Except.ok.injEq, Prod.mk.injEq] at h
    rw [← h.1, ← h.2]
    exact ⟨hnodup, ⟨[], by simp⟩, by simp, by simp, List.Forall₂.nil⟩
  | cons word rest ih =>
    intro fonts after records h hnodup
    rw [wordLoop_cons] at h
    cases hrec : wordRecord pageHeight fonts word with
    | error e => simp [hrec] at h
    | ok res =>
      obtain ⟨fonts1, record⟩ := res
      simp only [hrec] at h
      cases hloop : wordLoop pageHeight rest fonts1 [] with
      | error e => simp [hloop] at h
      | ok res2 =>
        obtain ⟨fonts2, records1⟩ := res2
        simp only [hloop, Except.ok.injEq, Prod.mk.injEq] at h
        obtain ⟨char, hchar, hfonts1, hindex⟩ := wordRecord_fontIndex _ _ _ _ _ hrec
        have hnodup1 : fonts1.Nodup := by
          rw [hfonts1]
          by_cases hm : char.fontName ∈ fonts
          · simpa [hm] using hnodup
          · simp only [hm, if_false]
            exact List.Nodup.append hnodup (List.nodup_singleton _) (by simpa using hm)
        have hmem1 : char.fontName ∈ fonts1 := by
          rw [hfonts1]
          by_cases hm : char.fontName ∈ fonts <;> simp [hm]
        have hindex1 : record.fontIndex = (List.indexOf char.fontName fonts1 : Int) := by
          rw [hindex, hfonts1]
          by_cases hm : char.fontName ∈ fonts
          · simp [hm]
          · simp only [hm, if_false]
            rw [List.indexOf_append_of_not_mem hm]
            simp
        have hsub : ∀ name, name ∈ fonts1 ↔ name ∈ fonts ∨ name = char.fontName := by
          intro name
          rw [hfonts1]
          by_cases hm : char.fontName ∈ fonts
          · simp only [hm, if_true]
            constructor
            · exact Or.inl
            · rintro (h1 | h1)
              · exact h1
              · rw [h1]; exact hm
          · simp [hm]
        obtain ⟨ih1, ⟨ext, ih2⟩, ih3, ih4, ih5⟩ := ih _ _ _ hloop hnodup1
        have hrep : representativeFont word = some char.fontName := by
          simp [representativeFont, hchar]
        rw [← h.1, ← h.2]
        refine ⟨ih1, ?_, ?_, ?_, ?_⟩
        · rw [hfonts1] at ih2
          by_cases hm : char.fontName ∈ fonts
          · simp only [hm, if_true] at ih2; exact ⟨ext, ih2⟩
          · simp only [hm, if_false] at ih2
            exact ⟨[char.fontName] ++ ext, by rw [ih2]; simp⟩
        · intro name
          rw [ih3, hsub, List.map_cons, List.mem_cons, hrep]
          simp only [Option.some.injEq]
          tauto
        · intro w hw
          rcases List.mem_cons.mp hw with hw | hw
          · rw [hw]; exact ⟨char, hchar⟩
          · exact ih4 w hw
        · refine List.Forall₂.cons ⟨char, hchar, ?_⟩ ih5
          rw [hindex1, ih2, List.indexOf_append_of_mem hmem1]

theorem length_eq_dedup_of_same_members (fonts : List String) (names : List (Option String))
    (hnodup : fonts.Nodup) (hmem : ∀ x, x ∈ fonts.map some ↔ x ∈ names) :
    fonts.length = names.dedup.length := by
  have h1 : (fonts.map some).Nodup :=
    List.Nodup.map (fun a b hab => Option.some.inj hab) hnodup
  have h2 : (fonts.map some).toFinset = names.toFinset := List.toFinset.ext hmem
  rw [← List.card_toFinset, ← h2, List.toFinset_card_of_nodup h1, List.length_map]

/-! ## The sample documents of the recognizer -/

theorem if_zero_eq_zero (a b : JSNumber) : (if (0 : ℚ) = 0 then a else b) = a :=
  if_pos rfl

theorem getRecognizerData_fontsDocument : getRecognizerData fontsDocument = .ok fontsData := by
  unfold fontsData fontsPageRecord fontsRecord
  rw [← if_zero_eq_zero (round (JSNumber.sub 792 100)) (.finite 100)]
  rfl

theorem getRecognizerData_decimalDocument :
    getRecognizerData decimalDocument = .ok decimalData := by
  unfold decimalData decimalRecord
  rw [← if_zero_eq_zero (round (JSNumber.sub 792 100)) (.finite 100)]
  rfl

theorem getRecognizerData_farBaselineDocument :
    getRecognizerData farBaselineDocument = .ok farBaselineData := by
  unfold farBaselineData farBaselineRecord
  rw [← if_zero_eq_zero (round (JSNumber.sub 0 (-farBaseline))) (.finite (-farBaseline))]
  rfl

/-! ## C9: font indices -/

/-- C9: on every page processed by `getRecognizerData` the word records match
the words of the page one to one; two records have the same `fontIndex` exactly
when the representative characters of their words have the same font name; the
first record has `fontIndex` 0, and a word whose font name has not occurred
earlier on the page gets the number of distinct font names seen before it. -/
theorem font_index_first_occurrence (pdfDocument : PdfDocument) (data : RecognizerData)
    (h : getRecognizerData pdfDocument = .ok data) (pageIndex : Nat) (page : Page)
    (record : PageRecord) (hpage : pdfDocument.pages[pageIndex]? = some (.ok page))
    (hrecord : data.pages[pageIndex]? = some record) :
    (pageRecords record).length = (pageWords page).length ∧
    (∀ (i j : Nat) (ri rj : WordRecord) (wi wj : Word),
      (pageRecords record)[i]? = some ri → (pageRecords record)[j]? = some rj →
      (pageWords page)[i]? = some wi → (pageWords page)[j]? = some wj →
      (ri.fontIndex = rj.fontIndex ↔ representativeFont wi = representativeFont wj)) ∧
    (∀ r : WordRecord, (pageRecords record)[0]? = some r → r.fontIndex = 0) ∧
    (∀ (i : Nat) (r : WordRecord) (w : Word), (pageRecords record)[i]? = some r → (pageWords page)[i]? = some w →
      representativeFont w ∉ ((pageWords page).take i).map representativeFont →
      r.fontIndex = ((((pageWords page).take i).map representativeFont).dedup.length : Int)) := by
  obtain ⟨page2, hp1, hp2⟩ := getRecognizerData_page _ _ h pageIndex record hrecord
  rw [hpage, Option.some.injEq, Except.ok.injEq] at hp1
  subst hp1
  obtain ⟨fonts, newLines, _, hflat, _⟩ := recognizePage_spec _ _ hp2
  obtain ⟨hnodup, _, hmem, hheads, hrel⟩ :=
    wordLoop_fonts _ _ _ _ _ hflat List.nodup_nil
  have hsplit : ∀ i r w, (pageRecords record)[i]? = some r → (pageWords page)[i]? = some w →
      ∃ char, w.chars.head? = some char ∧
        r.fontIndex = if char.fontName ∈
            ((pageWords page).take i).filterMap representativeFont
          then r.fontIndex
          else ((((pageWords page).take i).map representativeFont).dedup.length : Int) := by
    intro i r w hr hw
    have hi : i < (pageWords page).length := by
      by_contra hge
      rw [List.getElem?_eq_none (by omega)] at hw
      cases hw
    have hw2 : (pageWords page)[i] = w := by
      rw [List.getElem?_eq_getElem hi, Option.some.injEq] at hw
      exact hw
    have hdecomp : pageWords page =
        (pageWords page).take i ++ w :: (pageWords page).drop (i + 1) := by
      rw [← hw2, ← List.drop_eq_getElem_cons hi, List.take_append_drop]
    have hflat2 := hflat
    rw [hdecomp, wordLoop_append] at hflat2
    cases hfront : wordLoop page.view.2.2.2 ((pageWords page).take i) [] [] with
    | error e => simp [hfront] at hflat2
    | ok res =>
      obtain ⟨fonts1, records1⟩ := res
      simp only [hfront] at hflat2
      rw [wordLoop_cons] at hflat2
      cases hrec : wordRecord page.view.2.2.2 fonts1 w with
      | error e => simp [hrec] at hflat2
      | ok res2 =>
        obtain ⟨fonts2, r2⟩ := res2
        simp only [hrec] at hflat2
        cases hback : wordLoop page.view.2.2.2 ((pageWords page).drop (i + 1)) fonts2 [] with
        | error e => simp [hback] at hflat2
        | ok res3 =>
          obtain ⟨fonts3, records3⟩ := res3
          simp only [hback, Except.ok.injEq, Prod.mk.injEq] at hflat2
          obtain ⟨hnodup1, _, hmem1, hheads1, hrel1⟩ :=
            wordLoop_fonts _ _ _ _ _ hfront List.nodup_nil
          have hlen1 : records1.length = i := by
            rw [hrel1.length_eq, List.length_take]
            omega
          have hr2 : r = r2 := by
            rw [← hflat2.2, List.getElem?_append_right (by omega), hlen1] at hr
            simpa using hr.symm
          obtain ⟨char, hchar, _, hindex⟩ := wordRecord_fontIndex _ _ _ _ _ hrec
          refine ⟨char, hchar, ?_⟩
          by_cases hseen : char.fontName ∈
              ((pageWords page).take i).filterMap representativeFont
          · simp [hseen]
          · simp only [hseen, if_false]
            have hnot : char.fontName ∉ fonts1 := by
              intro hin
              rcases (hmem1 _).mp hin with hin | hin
              · simp at hin
              · apply hseen
                rw [List.mem_filterMap]
                rw [List.mem_map] at hin
                obtain ⟨w2, hw2a, hw2b⟩ := hin
                exact ⟨w2, hw2a, hw2b⟩
            rw [hr2, hindex]
            simp only [hnot, if_false]
            congr 1
            apply length_eq_dedup_of_same_members _ _ hnodup1
            intro x
            constructor
            · intro hx
              rw [List.mem_map] at hx
              obtain ⟨name, hname, hx⟩ := hx
              rw [← hx]
              rcases (hmem1 name).mp hname with hin | hin
              · simp at hin
              · exact hin
            · intro hx
              rw [List.mem_map] at hx
              obtain ⟨w2, hw2a, hw2b⟩ := hx
              obtain ⟨c2, hc2⟩ := hheads1 w2 hw2a
              have hrep : representativeFont w2 = some c2.fontName := by
                simp [representativeFont, hc2]
              rw [← hw2b, hrep]
              apply List.mem_map_of_mem
              apply (hmem1 _).mpr
              right
              rw [← hrep]
              exact List.mem_map_of_mem _ hw2a
  refine ⟨hrel.length_eq, ?_, ?_, ?_⟩
  · intro i j ri rj wi wj hri hrj hwi hwj
    obtain ⟨ci, hci, hfi⟩ := forall₂_getElem_some hrel i ri wi hri hwi
    obtain ⟨cj, hcj, hfj⟩ := forall₂_getElem_some hrel j rj wj hrj hwj
    have hrepi : representativeFont wi = some ci.fontName := by
      simp [representativeFont, hci]
    have hrepj : representativeFont wj = some cj.fontName := by
      simp [representativeFont, hcj]
    have hini : ci.fontName ∈ fonts := by
      apply (hmem _).mpr
      right
      rw [← hrepi]
      exact List.mem_map_of_mem _ (List.getElem?_mem hwi)
    have hinj : cj.fontName ∈ fonts := by
      apply (hmem _).mpr
      right
      rw [← hrepj]
      exact List.mem_map_of_mem _ (List.getElem?_mem hwj)
    rw [hfi, hfj, hrepi, hrepj, Option.some.injEq, Nat.cast_inj]
    exact List.indexOf_inj hini hinj
  · intro r hr
    have hlen := hrel.length_eq
    cases hws : pageWords page with
    | nil =>
      rw [hws] at hlen
      have : pageRecords record = [] := List.eq_nil_of_length_eq_zero hlen
      rw [this] at hr
      simp at hr
    | cons w rest =>
      obtain ⟨char, _, hindex⟩ := hsplit 0 r w hr (by rw [hws]; simp)
      simpa using hindex
  · intro i r w hr hw hnew
    obtain ⟨char, hchar, hindex⟩ := hsplit i r w hr hw
    have hrep : representativeFont w = some char.fontName := by
      simp [representativeFont, hchar]
    have hseen : char.fontName ∉ ((pageWords page).take i).filterMap representativeFont := by
      intro hin
      apply hnew
      rw [hrep]
      rw [List.mem_filterMap] at hin
      obtain ⟨w2, hw2a, hw2b⟩ := hin
      rw [← hw2b]
      exact List.mem_map_of_mem _ hw2a
    simpa [hseen] using hindex

/-- Witness for C9: a page with the fonts Times, Arial, Times, Symbol. -/
theorem font_index_first_occurrence_witness :
    (pageRecords fontsPageRecord).length = (pageWords fontsPage).length ∧
    (∀ r : WordRecord, (pageRecords fontsPageRecord)[0]? = some r → r.fontIndex = 0) ∧
    (pageRecords fontsPageRecord).map (fun r => r.fontIndex) = [0, 1, 0, 2] :=
  have h := font_index_first_occurrence fontsDocument fontsData
    getRecognizerData_fontsDocument 0 fontsPage
    fontsPageRecord rfl rfl
  ⟨h.1, h.2.2.1, by decide⟩

/-! ## C10: line records -/

theorem forall₂_mem_left {α β : Type} {R : α → β → Prop} {xs : List α} {ys : List β}
    (h : List.Forall₂ R xs ys) : ∀ x ∈ xs, ∃ y ∈ ys, R x y := by
  induction h with
  | nil => intro x hx; simp at hx
  | cons hr _ ih =>
    intro x hx
    rcases List.mem_cons.mp hx with hx | hx
    · exact ⟨_, List.mem_cons_self _ _, by rw [hx]; exact hr⟩
    · obtain ⟨y, hy, hxy⟩ := ih x hx
      exact ⟨y, List.mem_cons_of_mem _ hy, hxy⟩

/-- C10: on every page processed by `getRecognizerData` the line records
correspond, in order, to the lines of the page that have at least one word;
every line record holds exactly one 14-field record per word of its line, in
word order, and none is empty; a line without words has no record. -/
theorem line_records_match_lines (pdfDocument : PdfDocument) (data : RecognizerData)
    (h : getRecognizerData pdfDocument = .ok data) (pageIndex : Nat) (page : Page)
    (record : PageRecord) (hpage : pdfDocument.pages[pageIndex]? = some (.ok page))
    (hrecord : data.pages[pageIndex]? = some record) :
    List.Forall₂ (isLineRecordOf page.view.2.2.2) record.newLines
      ((pageLines page).filter (fun line => !line.words.isEmpty)) ∧
    record.newLines.length =
      ((pageLines page).filter (fun line => !line.words.isEmpty)).length ∧
    (∀ lineRecord ∈ record.newLines, ∃ newLine, lineRecord = [newLine] ∧ newLine ≠ []) ∧
    (∀ lineRecord ∈ record.newLines, ∃ line ∈ pageLines page, line.words ≠ [] ∧
      ∃ newLine, lineRecord = [newLine] ∧ newLine.length = line.words.length) := by
  obtain ⟨page2, hp1, hp2⟩ := getRecognizerData_page _ _ h pageIndex record hrecord
  rw [hpage, Option.some.injEq, Except.ok.injEq] at hp1
  subst hp1
  obtain ⟨fonts, newLines, hrec, _, hrel⟩ := recognizePage_spec _ _ hp2
  have hnew : record.newLines = newLines := by
    rw [hrec]; simp [PageRecord.newLines]
  rw [hnew]
  refine ⟨hrel, hrel.length_eq, ?_, ?_⟩
  · intro lineRecord hmem
    obtain ⟨line, _, newLine, h1, h2, _⟩ := forall₂_mem_left hrel lineRecord hmem
    exact ⟨newLine, h1, h2⟩
  · intro lineRecord hmem
    obtain ⟨line, hline, newLine, h1, _, h3⟩ := forall₂_mem_left hrel lineRecord hmem
    rw [List.mem_filter] at hline
    refine ⟨line, hline.1, ?_, newLine, h1, h3.length_eq⟩
    intro hw
    simp [hw] at hline

/-- Witness for C10: a page of three lines, one of them without words. -/
theorem line_records_match_lines_witness :
    fontsPageRecord.newLines.length = 2 ∧
    (pageLines fontsPage).length = 3 ∧
    ∀ lineRecord ∈ fontsPageRecord.newLines, ∃ newLine, lineRecord = [newLine] ∧
      newLine ≠ [] :=
  have h := line_records_match_lines fontsDocument fontsData
    getRecognizerData_fontsDocument 0 fontsPage
    fontsPageRecord rfl rfl
  ⟨h.2.1.trans (by decide), by decide, h.2.2.1⟩

/-! ## Lemmas on rounding to doubles and the fields of a word record -/

theorem roundHalfEven_cases (x : ℚ) : roundHalfEven x = ⌊x⌋ ∨ roundHalfEven x = ⌊x⌋ + 1 := by
  unfold roundHalfEven
  split
  · exact Or.inl rfl
  · split
    · exact Or.inr rfl
    · split
      · exact Or.inl rfl
      · exact Or.inr rfl

theorem roundHalfEven_of_near (x : ℚ) (m : Int) (h : |x - m| < 1 / 2) :
    roundHalfEven x = m := by
  rw [abs_lt] at h
  obtain ⟨h1, h2⟩ := h
  unfold roundHalfEven
  by_cases hx : (m : ℚ) ≤ x
  · have hf : ⌊x⌋ = m := by
      rw [Int.floor_eq_iff]
      constructor <;> linarith
    rw [hf, if_pos (by linarith)]
  · have hf : ⌊x⌋ = m - 1 := by
      rw [Int.floor_eq_iff]
      push_cast
      constructor <;> linarith
    rw [hf]
    push_cast
    rw [if_neg (by linarith), if_pos (by linarith)]
    ring

theorem roundHalfEven_intCast (m : Int) : roundHalfEven (m : ℚ) = m :=
  roundHalfEven_of_near _ m (by simp)

theorem roundHalfEven_sub_le (x : ℚ) : |(roundHalfEven x : ℚ) - x| ≤ 1 / 2 := by
  have h1 := Int.floor_le x
  have h2 := Int.lt_floor_add_one x
  unfold roundHalfEven
  rw [abs_le]
  split
  · constructor <;> linarith
  · split
    · push_cast; constructor <;> linarith
    · have heq : x - ⌊x⌋ = 1 / 2 := by
        rename_i ha hb
        linarith [not_lt.mp ha, not_lt.mp hb]
      split
      · constructor <;> linarith
      · push_cast; constructor <;> linarith

theorem roundHalfEven_mono (x y : ℚ) (h : x ≤ y) : roundHalfEven x ≤ roundHalfEven y := by
  have hfloor : ⌊x⌋ ≤ ⌊y⌋ := Int.floor_mono h
  rcases lt_or_eq_of_le hfloor with hlt | heq
  · rcases roundHalfEven_cases x with hx | hx <;> rcases roundHalfEven_cases y with hy | hy <;>
      omega
  · unfold roundHalfEven
    rw [heq]
    have hfrac : x - ⌊y⌋ ≤ y - ⌊y⌋ := by linarith
    by_cases h1 : x - ⌊y⌋ < 1 / 2
    · rw [if_pos h1]
      split
      · exact le_refl _
      · split
        · omega
        · split <;> omega
    · rw [if_neg h1]
      by_cases h2 : 1 / 2 < x - ⌊y⌋
      · rw [if_pos h2, if_neg (by linarith), if_pos (by linarith)]
      · rw [if_neg h2]
        by_cases h3 : y - ⌊y⌋ < 1 / 2
        · exfalso; linarith [not_lt.mp h1]
        · rw [if_neg h3]
          by_cases h4 : 1 / 2 < y - ⌊y⌋
          · rw [if_pos h4]
            split <;> omega
          · rw [if_neg h4]


theorem ulp_pos (x : ℚ) : 0 < ulp x := by
  unfold ulp
  positivity

theorem binade_ge (x : ℚ) : -1022 ≤ binade x := le_max_right _ _

theorem abs_lt_binade (x : ℚ) : |x| < (2 : ℚ) ^ (binade x + 1) := by
  have h1 : |x| < (2 : ℚ) ^ (Int.log 2 |x| + 1) := by
    have := Int.lt_zpow_succ_log_self (R := ℚ) (b := 2) (by norm_num) |x|
    exact_mod_cast this
  have h2 : (2 : ℚ) ^ (Int.log 2 |x| + 1) ≤ (2 : ℚ) ^ (binade x + 1) := by
    apply zpow_le_zpow_right₀ (by norm_num)
    have : Int.log 2 |x| ≤ binade x := le_max_left _ _
    omega
  exact lt_of_lt_of_le h1 h2

theorem binade_le_abs (x : ℚ) (hne : x ≠ 0) (h : -1022 < binade x) :
    (2 : ℚ) ^ binade x ≤ |x| := by
  have hlog : binade x = Int.log 2 |x| := by
    unfold binade at h ⊢
    rcases max_cases (Int.log 2 |x|) (-1022) with ⟨h1, _⟩ | ⟨h1, _⟩
    · exact h1
    · rw [h1] at h; exact absurd h (lt_irrefl _)
  have hx : 0 < |x| := abs_pos.mpr hne
  rw [hlog]
  have := Int.zpow_log_le_self (R := ℚ) (b := 2) (by norm_num) hx
  exact_mod_cast this

theorem binade_eq (x : ℚ) (e : Int) (he : -1022 ≤ e) (h1 : (2 : ℚ) ^ e ≤ |x|)
    (h2 : |x| < (2 : ℚ) ^ (e + 1)) : binade x = e := by
  have hx : 0 < |x| := lt_of_lt_of_le (by positivity) h1
  have ha : e ≤ Int.log 2 |x| := by
    have := (Int.zpow_le_iff_le_log (R := ℚ) (b := 2) (by norm_num) hx (x := e)).mp
      (by exact_mod_cast h1)
    exact this
  have hb : Int.log 2 |x| < e + 1 := by
    have := (Int.lt_zpow_iff_log_lt (R := ℚ) (b := 2) (by norm_num) hx (x := e + 1)).mp
      (by exact_mod_cast h2)
    exact this
  unfold binade
  rw [max_eq_left (by omega)]
  omega

theorem binade_mono (x y : ℚ) (hx : 0 < |x|) (h : |x| ≤ |y|) : binade x ≤ binade y := by
  unfold binade
  exact max_le_max (Int.log_mono_right hx h) (le_refl _)


theorem nearest_le_of_le (x : ℚ) (k : Int) (h : x ≤ k * ulp x) : nearest x ≤ k * ulp x := by
  unfold nearest
  have hu := ulp_pos x
  have h1 : x / ulp x ≤ (k : ℚ) := by
    rw [div_le_iff₀ hu]; exact h
  have h2 := roundHalfEven_mono _ _ h1
  rw [roundHalfEven_intCast] at h2
  have h3 : ((roundHalfEven (x / ulp x) : Int) : ℚ) ≤ (k : ℚ) := by exact_mod_cast h2
  exact mul_le_mul_of_nonneg_right h3 (le_of_lt hu)

theorem le_nearest_of_le (x : ℚ) (k : Int) (h : k * ulp x ≤ x) : k * ulp x ≤ nearest x := by
  unfold nearest
  have hu := ulp_pos x
  have h1 : (k : ℚ) ≤ x / ulp x := by
    rw [le_div_iff₀ hu]; exact h
  have h2 := roundHalfEven_mono _ _ h1
  rw [roundHalfEven_intCast] at h2
  have h3 : (k : ℚ) ≤ ((roundHalfEven (x / ulp x) : Int) : ℚ) := by exact_mod_cast h2
  exact mul_le_mul_of_nonneg_right h3 (le_of_lt hu)

theorem nearest_nonneg (x : ℚ) (h : 0 ≤ x) : 0 ≤ nearest x := by
  have := le_nearest_of_le x 0 (by simpa using h)
  simpa using this

theorem nearest_nonpos (x : ℚ) (h : x ≤ 0) : nearest x ≤ 0 := by
  have := nearest_le_of_le x 0 (by simpa using h)
  simpa using this

theorem two_zpow_split (e : Int) : (2 : ℚ) ^ (e + 1) = ((2 ^ 53 : Int) : ℚ) * (2 : ℚ) ^ (e - 52) := by
  have : e + 1 = 53 + (e - 52) := by ring
  rw [this, zpow_add₀ (by norm_num)]
  norm_num

theorem two_zpow_split_low (e : Int) : (2 : ℚ) ^ e = ((2 ^ 52 : Int) : ℚ) * (2 : ℚ) ^ (e - 52) := by
  have : e = 52 + (e - 52) := by ring
  nth_rewrite 1 [this]
  rw [zpow_add₀ (by norm_num)]
  norm_num

theorem nearest_le_top (x : ℚ) : nearest x ≤ (2 : ℚ) ^ (binade x + 1) := by
  rw [two_zpow_split]
  apply nearest_le_of_le
  have := abs_lt_binade x
  rw [two_zpow_split] at this
  exact le_of_lt (lt_of_le_of_lt (le_abs_self x) this)

theorem neg_top_le_nearest (x : ℚ) : -(2 : ℚ) ^ (binade x + 1) ≤ nearest x := by
  rw [two_zpow_split]
  have h := le_nearest_of_le x (-(2 ^ 53 : Int)) (by
    have := abs_lt_binade x
    rw [two_zpow_split] at this
    have h2 := neg_abs_le x
    push_cast
    push_cast at this
    unfold ulp
    linarith)
  push_cast at h ⊢
  unfold ulp at h
  linarith

theorem bottom_le_nearest (x : ℚ) (hx : 0 < x) (h : -1022 < binade x) :
    (2 : ℚ) ^ binade x ≤ nearest x := by
  rw [two_zpow_split_low]
  apply le_nearest_of_le
  have := binade_le_abs x (ne_of_gt hx) h
  rw [abs_of_pos hx, two_zpow_split_low] at this
  exact this

theorem nearest_le_neg_bottom (x : ℚ) (hx : x < 0) (h : -1022 < binade x) :
    nearest x ≤ -(2 : ℚ) ^ binade x := by
  have h1 := binade_le_abs x (ne_of_lt hx) h
  rw [abs_of_neg hx, two_zpow_split_low] at h1
  have h2 := nearest_le_of_le x (-(2 ^ 52 : Int)) (by
    push_cast
    push_cast at h1
    unfold ulp
    linarith)
  rw [two_zpow_split_low]
  push_cast at h2 ⊢
  unfold ulp at h2
  linarith

theorem nearest_mono_pos (x y : ℚ) (hx : 0 < x) (h : x ≤ y) : nearest x ≤ nearest y := by
  have hy : 0 < y := lt_of_lt_of_le hx h
  have hb : binade x ≤ binade y :=
    binade_mono x y (abs_pos.mpr (ne_of_gt hx)) (by rw [abs_of_pos hx, abs_of_pos hy]; exact h)
  rcases lt_or_eq_of_le hb with hlt | heq
  · have h1 := nearest_le_top x
    have h2 := bottom_le_nearest y hy (lt_of_le_of_lt (binade_ge x) hlt)
    have h3 : (2 : ℚ) ^ (binade x + 1) ≤ (2 : ℚ) ^ binade y :=
      zpow_le_zpow_right₀ (by norm_num) (by omega)
    linarith
  · unfold nearest
    have hu : ulp x = ulp y := by unfold ulp; rw [heq]
    rw [hu]
    have hpos := ulp_pos y
    have hdiv : x / ulp y ≤ y / ulp y := div_le_div_of_nonneg_right h (le_of_lt hpos)
    have := roundHalfEven_mono _ _ hdiv
    exact mul_le_mul_of_nonneg_right (by exact_mod_cast this) (le_of_lt hpos)

theorem nearest_mono_neg (x y : ℚ) (hy : y < 0) (h : x ≤ y) : nearest x ≤ nearest y := by
  have hx : x < 0 := lt_of_le_of_lt h hy
  have hb : binade y ≤ binade x :=
    binade_mono y x (abs_pos.mpr (ne_of_lt hy))
      (by rw [abs_of_neg hx, abs_of_neg hy]; linarith)
  rcases lt_or_eq_of_le hb with hlt | heq
  · have h1 := neg_top_le_nearest y
    have h2 := nearest_le_neg_bottom x hx (lt_of_le_of_lt (binade_ge y) hlt)
    have h3 : (2 : ℚ) ^ (binade y + 1) ≤ (2 : ℚ) ^ binade x :=
      zpow_le_zpow_right₀ (by norm_num) (by omega)
    linarith
  · unfold nearest
    have hu : ulp y = ulp x := by unfold ulp; rw [heq]
    rw [hu]
    have hpos := ulp_pos x
    have hdiv : x / ulp x ≤ y / ulp x := div_le_div_of_nonneg_right h (le_of_lt hpos)
    have := roundHalfEven_mono _ _ hdiv
    exact mul_le_mul_of_nonneg_right (by exact_mod_cast this) (le_of_lt hpos)

theorem nearest_mono (x y : ℚ) (h : x ≤ y) : nearest x ≤ nearest y := by
  rcases lt_trichotomy 0 x with hx | hx | hx
  · exact nearest_mono_pos x y hx h
  · subst hx
    have h1 := nearest_nonpos 0 (le_refl _)
    have h2 := nearest_nonneg y h
    linarith
  · rcases lt_or_le y 0 with hy | hy
    · exact nearest_mono_neg x y hy h
    · have h1 := nearest_nonpos x (le_of_lt hx)
      have h2 := nearest_nonneg y hy
      linarith


theorem JSNumber.le_refl (a : JSNumber) : a.le a := by
  cases a with
  | finite v => exact le_rfl
  | infinity negative => cases negative <;> trivial

theorem JSNumber.neg_infinity_le (b : JSNumber) : (JSNumber.infinity true).le b := by
  cases b with
  | finite v => trivial
  | infinity negative => cases negative <;> trivial

theorem JSNumber.le_infinity (a : JSNumber) : a.le (JSNumber.infinity false) := by
  cases a with
  | finite v => trivial
  | infinity negative => cases negative <;> trivial

theorem toDouble_mono (x y : ℚ) (h : x ≤ y) : (toDouble x).le (toDouble y) := by
  have hn := nearest_mono x y h
  unfold toDouble
  by_cases hx : (2 : ℚ) ^ (1024 : Nat) ≤ |nearest x|
  · rw [if_pos hx]
    by_cases hneg : x < 0
    · simp only [hneg, decide_True]
      exact JSNumber.neg_infinity_le _
    · have hx0 : 0 ≤ x := not_lt.mp hneg
      have h1 := nearest_nonneg x hx0
      rw [abs_of_nonneg h1] at hx
      have h2 : (2 : ℚ) ^ (1024 : Nat) ≤ |nearest y| := by
        rw [abs_of_nonneg (le_trans h1 hn)]
        exact le_trans hx hn
      have hy : ¬ y < 0 := not_lt.mpr (le_trans hx0 h)
      rw [if_pos h2]
      simp only [hneg, hy, decide_False]
      exact JSNumber.le_infinity _
  · rw [if_neg hx]
    by_cases hy : (2 : ℚ) ^ (1024 : Nat) ≤ |nearest y|
    · rw [if_pos hy]
      by_cases hneg : y < 0
      · exfalso
        have h1 := nearest_nonpos y (le_of_lt hneg)
        rw [abs_of_nonpos h1] at hy
        apply hx
        rw [abs_of_nonpos (le_trans hn h1)]
        linarith
      · simp only [hneg, decide_False]
        exact JSNumber.le_infinity _
    · rw [if_neg hy]
      exact hn

theorem times10000_mono (a b : JSNumber) (h : a.le b) : a.times10000.le b.times10000 := by
  cases a with
  | finite v =>
    cases b with
    | finite w =>
      exact toDouble_mono _ _ (mul_le_mul_of_nonneg_right h (by norm_num))
    | infinity negative =>
      cases negative
      · exact JSNumber.le_infinity _
      · exact absurd h (by simp [JSNumber.le])
  | infinity negative =>
    cases negative
    · cases b with
      | finite w => exact absurd h (by simp [JSNumber.le])
      | infinity s =>
        cases s
        · exact JSNumber.le_infinity _
        · exact absurd h (by simp [JSNumber.le])
    · exact JSNumber.neg_infinity_le _

theorem over10000_mono (a b : JSNumber) (h : a.le b) : a.over10000.le b.over10000 := by
  cases a with
  | finite v =>
    cases b with
    | finite w =>
      exact toDouble_mono _ _ (div_le_div_of_nonneg_right h (by norm_num))
    | infinity negative =>
      cases negative
      · exact JSNumber.le_infinity _
      · exact absurd h (by simp [JSNumber.le])
  | infinity negative =>
    cases negative
    · cases b with
      | finite w => exact absurd h (by simp [JSNumber.le])
      | infinity s =>
        cases s
        · exact JSNumber.le_infinity _
        · exact absurd h (by simp [JSNumber.le])
    · exact JSNumber.neg_infinity_le _

theorem mathRound_mono (a b : JSNumber) (h : a.le b) : (mathRound a).le (mathRound b) := by
  cases a with
  | finite v =>
    cases b with
    | finite w =>
      have h1 : v + 1 / 2 ≤ w + 1 / 2 := by
        have : v ≤ w := h
        linarith
      have h2 : ⌊v + 1 / 2⌋ ≤ ⌊w + 1 / 2⌋ := Int.floor_mono h1
      show ((⌊v + 1 / 2⌋ : Int) : ℚ) ≤ ((⌊w + 1 / 2⌋ : Int) : ℚ)
      exact_mod_cast h2
    | infinity negative =>
      cases negative
      · exact JSNumber.le_infinity _
      · exact absurd h (by simp [JSNumber.le])
  | infinity negative =>
    cases negative
    · cases b with
      | finite w => exact absurd h (by simp [JSNumber.le])
      | infinity s =>
        cases s
        · exact JSNumber.le_infinity _
        · exact absurd h (by simp [JSNumber.le])
    · exact JSNumber.neg_infinity_le _

theorem round_mono (a b : JSNumber) (h : a.le b) : (round a).le (round b) :=
  over10000_mono _ _ (mathRound_mono _ _ (times10000_mono _ _ h))

theorem nearest_zero : nearest 0 = 0 := by
  unfold nearest
  rw [zero_div]
  have := roundHalfEven_intCast 0
  simp only [Int.cast_zero] at this
  rw [this]
  simp

theorem nearest_intCast (m : Int) (h : |m| < 2 ^ 53) : nearest (m : ℚ) = m := by
  by_cases hm : m = 0
  · subst hm
    simpa using nearest_zero
  have habs : (1 : ℚ) ≤ |(m : ℚ)| := by
    have : 1 ≤ |m| := Int.one_le_abs hm
    exact_mod_cast this
  have hlt : |(m : ℚ)| < (2 : ℚ) ^ (53 : Int) := by
    have : ((|m| : Int) : ℚ) < ((2 ^ 53 : Int) : ℚ) := by exact_mod_cast h
    push_cast at this
    norm_num
    exact this
  have hx : 0 < |(m : ℚ)| := lt_of_lt_of_le one_pos habs
  have h0 : (0 : Int) ≤ Int.log 2 |(m : ℚ)| :=
    (Int.zpow_le_iff_le_log (R := ℚ) (b := 2) (by norm_num) hx (x := 0)).mp
      (by simpa using habs)
  have h53 : Int.log 2 |(m : ℚ)| < 53 :=
    (Int.lt_zpow_iff_log_lt (R := ℚ) (b := 2) (by norm_num) hx (x := 53)).mp
      (by exact_mod_cast hlt)
  have hb : binade (m : ℚ) = Int.log 2 |(m : ℚ)| := by
    unfold binade
    exact max_eq_left (by omega)
  obtain ⟨k, hk⟩ : ∃ k : Nat, (52 : Int) - binade (m : ℚ) = k :=
    ⟨(52 - binade (m : ℚ)).toNat, (Int.toNat_of_nonneg (by omega)).symm⟩
  have hu : ulp (m : ℚ) = ((2 : ℚ) ^ k)⁻¹ := by
    unfold ulp
    have : binade (m : ℚ) - 52 = -(k : Int) := by omega
    rw [this, zpow_neg, zpow_natCast]
  unfold nearest
  rw [hu]
  have hdiv : (m : ℚ) / ((2 : ℚ) ^ k)⁻¹ = ((m * 2 ^ k : Int) : ℚ) := by
    push_cast
    rw [div_inv_eq_mul]
  rw [hdiv, roundHalfEven_intCast]
  push_cast
  field_simp


theorem le_binade (x : ℚ) (e : Int) (h : (2 : ℚ) ^ e ≤ |x|) : e ≤ binade x := by
  have hx : 0 < |x| := lt_of_lt_of_le (by positivity) h
  have ha : e ≤ Int.log 2 |x| :=
    (Int.zpow_le_iff_le_log (R := ℚ) (b := 2) (by norm_num) hx (x := e)).mp
      (by exact_mod_cast h)
  exact le_trans ha (le_max_left _ _)

theorem binade_lt (x : ℚ) (e : Int) (hne : x ≠ 0) (he : -1022 < e) (h : |x| < (2 : ℚ) ^ e) :
    binade x < e := by
  have hx : 0 < |x| := abs_pos.mpr hne
  have hb : Int.log 2 |x| < e :=
    (Int.lt_zpow_iff_log_lt (R := ℚ) (b := 2) (by norm_num) hx (x := e)).mp
      (by exact_mod_cast h)
  unfold binade
  exact max_lt hb he

theorem abs_nearest_le (x : ℚ) : |nearest x| ≤ (2 : ℚ) ^ (binade x + 1) :=
  abs_le.mpr ⟨neg_top_le_nearest x, nearest_le_top x⟩

theorem toDouble_of_binade_le (x : ℚ) (h : binade x ≤ 1022) : toDouble x = .finite (nearest x) := by
  unfold toDouble
  rw [if_neg]
  have h1 := abs_nearest_le x
  have h2 : (2 : ℚ) ^ (binade x + 1) ≤ (2 : ℚ) ^ (1023 : Int) :=
    zpow_le_zpow_right₀ (by norm_num) (by omega)
  have h3 : (2 : ℚ) ^ (1023 : Int) < (2 : ℚ) ^ (1024 : Nat) := by
    rw [← zpow_natCast]
    exact zpow_lt_zpow_right₀ (by norm_num) (by norm_num)
  exact not_le.mpr (lt_of_le_of_lt (le_trans h1 h2) h3)

theorem nearest_of_near (x : ℚ) (e k : Nat) (hk : e + k = 52) (h1 : (2 : ℚ) ^ e ≤ |x|)
    (h2 : |x| < (2 : ℚ) ^ (e + 1)) (m : Int) (h3 : |x * 2 ^ k - m| < 1 / 2) :
    nearest x = (m : ℚ) / 2 ^ k := by
  have hb : binade x = (e : Int) :=
    binade_eq x e (by omega) (by rw [zpow_natCast]; exact h1)
      (by
        have : ((e : Int) + 1) = ((e + 1 : Nat) : Int) := by push_cast; rfl
        rw [this, zpow_natCast]; exact h2)
  have hu : ulp x = ((2 : ℚ) ^ k)⁻¹ := by
    unfold ulp
    have : binade x - 52 = -(k : Int) := by omega
    rw [this, zpow_neg, zpow_natCast]
  unfold nearest
  rw [hu, div_inv_eq_mul, roundHalfEven_of_near _ m h3]
  rfl

theorem toDouble_of_near (x : ℚ) (e k : Nat) (hk : e + k = 52) (h1 : (2 : ℚ) ^ e ≤ |x|)
    (h2 : |x| < (2 : ℚ) ^ (e + 1)) (m : Int) (h3 : |x * 2 ^ k - m| < 1 / 2) :
    toDouble x = .finite ((m : ℚ) / 2 ^ k) := by
  have hb : binade x = (e : Int) :=
    binade_eq x e (by omega) (by rw [zpow_natCast]; exact h1)
      (by
        have : ((e : Int) + 1) = ((e + 1 : Nat) : Int) := by push_cast; rfl
        rw [this, zpow_natCast]; exact h2)
  rw [toDouble_of_binade_le x (by omega), nearest_of_near x e k hk h1 h2 m h3]

theorem abs_nearest_sub_le (x : ℚ) : |nearest x - x| ≤ ulp x / 2 := by
  have hu := ulp_pos x
  have h := roundHalfEven_sub_le (x / ulp x)
  have heq : nearest x - x = ((roundHalfEven (x / ulp x) : ℚ) - x / ulp x) * ulp x := by
    unfold nearest
    field_simp
  rw [heq, abs_mul, abs_of_pos hu]
  calc |(roundHalfEven (x / ulp x) : ℚ) - x / ulp x| * ulp x ≤ 1 / 2 * ulp x :=
        mul_le_mul_of_nonneg_right h (le_of_lt hu)
    _ = ulp x / 2 := by ring

theorem ulp_le (x : ℚ) (hne : x ≠ 0) (h : -1022 < binade x) : ulp x ≤ |x| / 2 ^ 52 := by
  have h1 := binade_le_abs x hne h
  rw [two_zpow_split_low] at h1
  unfold ulp
  rw [le_div_iff₀ (by positivity)]
  push_cast at h1
  linarith

theorem abs_nearest_sub_le_rel (x : ℚ) (h : (2 : ℚ) ^ (-1021 : Int) ≤ |x|) :
    |nearest x - x| ≤ |x| / 2 ^ 53 := by
  have hx : 0 < |x| := lt_of_lt_of_le (by positivity) h
  have hne : x ≠ 0 := abs_pos.mp hx
  have hb := le_binade x _ h
  have h1 := abs_nearest_sub_le x
  have h2 := ulp_le x hne (by omega)
  calc |nearest x - x| ≤ ulp x / 2 := h1
    _ ≤ |x| / 2 ^ 52 / 2 := by linarith
    _ = |x| / 2 ^ 53 := by ring

theorem round_finite (r : ℚ) (hb : binade (r * 10000) ≤ 1022) :
    round (.finite r) =
      toDouble (((⌊nearest (r * 10000) + 1 / 2⌋ : Int) : ℚ) / 10000) := by
  unfold round
  simp only [JSNumber.times10000]
  rw [toDouble_of_binade_le _ hb]
  rfl

theorem binade_zero : binade 0 = 0 := by
  simp [binade]

theorem small_le_one : (2 : ℚ) ^ (-1021 : Int) ≤ 1 / 20000 := by
  have h1 : (2 : ℚ) ^ (-1021 : Int) ≤ (2 : ℚ) ^ (-15 : Int) :=
    zpow_le_zpow_right₀ (by norm_num) (by norm_num)
  have h2 : (2 : ℚ) ^ (-15 : Int) = 1 / 32768 := by
    rw [zpow_neg]; norm_num
  rw [h2] at h1
  linarith

theorem round_over10000 (m : Int) (h : |m| < 2 ^ 51) :
    round (toDouble ((m : ℚ) / 10000)) = toDouble ((m : ℚ) / 10000) := by
  by_cases hm : m = 0
  · subst hm
    have h0 : toDouble (((0 : Int) : ℚ) / 10000) = .finite 0 := by
      rw [Int.cast_zero, zero_div, toDouble_of_binade_le 0 (by rw [binade_zero]; omega),
        nearest_zero]
    rw [h0, round_finite 0 (by rw [zero_mul, binade_zero]; omega), zero_mul, nearest_zero,
      ← h0]
    norm_num
  have ha1 : (1 : ℚ) ≤ |(m : ℚ)| := by
    have : 1 ≤ |m| := Int.one_le_abs hm
    exact_mod_cast this
  have ha2 : |(m : ℚ)| ≤ 2 ^ 51 - 1 := by
    have : |m| ≤ 2 ^ 51 - 1 := by omega
    exact_mod_cast this
  have hsmall := small_le_one
  have hxabs : |(m : ℚ) / 10000| = |(m : ℚ)| / 10000 := by
    rw [abs_div]; norm_num
  have hxne : (m : ℚ) / 10000 ≠ 0 := by
    have : (m : ℚ) ≠ 0 := by exact_mod_cast hm
    positivity
  have hbx : binade ((m : ℚ) / 10000) < 51 :=
    binade_lt _ 51 hxne (by norm_num) (by
      rw [hxabs]
      have : (2 : ℚ) ^ (51 : Int) = 2 ^ 51 := by norm_cast
      rw [this]
      linarith)
  have hrx := abs_nearest_sub_le_rel ((m : ℚ) / 10000) (by rw [hxabs]; linarith)
  rw [hxabs] at hrx
  have hrx2 := abs_le.mp hrx
  have hm2 := abs_le.mp (le_refl |(m : ℚ)|)
  have hmul : (m : ℚ) / 10000 * 10000 = m := by field_simp
  have hy1 : nearest ((m : ℚ) / 10000) * 10000 - m ≤ |(m : ℚ)| / 2 ^ 53 := by
    linarith [hrx2.2]
  have hy2 : -(|(m : ℚ)| / 2 ^ 53) ≤ nearest ((m : ℚ) / 10000) * 10000 - m := by
    linarith [hrx2.1]
  have hyabs : |nearest ((m : ℚ) / 10000) * 10000 - m| ≤ |(m : ℚ)| / 2 ^ 53 :=
    abs_le.mpr ⟨hy2, hy1⟩
  have hyup : |nearest ((m : ℚ) / 10000) * 10000| ≤ |(m : ℚ)| + |(m : ℚ)| / 2 ^ 53 := by
    apply abs_le.mpr
    constructor <;> linarith [hm2.1, hm2.2]
  have hylow : |(m : ℚ)| - |(m : ℚ)| / 2 ^ 53 ≤ |nearest ((m : ℚ) / 10000) * 10000| := by
    have := abs_sub_abs_le_abs_sub (m : ℚ) (nearest ((m : ℚ) / 10000) * 10000)
    rw [abs_sub_comm] at this
    linarith
  have hyne : nearest ((m : ℚ) / 10000) * 10000 ≠ 0 := by
    intro h0
    rw [h0, abs_zero] at hylow
    linarith
  have hby : binade (nearest ((m : ℚ) / 10000) * 10000) < 52 :=
    binade_lt _ 52 hyne (by norm_num) (by
      have : (2 : ℚ) ^ (52 : Int) = 2 ^ 52 := by norm_cast
      rw [this]
      linarith)
  have hpy := abs_nearest_sub_le_rel (nearest ((m : ℚ) / 10000) * 10000) (by linarith)
  have hpy2 := abs_le.mp hpy
  have hfloor : ⌊nearest (nearest ((m : ℚ) / 10000) * 10000) + 1 / 2⌋ = m := by
    rw [Int.floor_eq_iff]
    constructor <;> linarith [hpy2.1, hpy2.2]
  rw [toDouble_of_binade_le _ (by omega), round_finite _ (by omega), hfloor,
    toDouble_of_binade_le _ (by omega)]


theorem toDouble_of_abs_lt (x : ℚ) (h : |nearest x| < (2 : ℚ) ^ (1024 : Nat)) :
    toDouble x = .finite (nearest x) := by
  unfold toDouble
  rw [if_neg (not_le.mpr h)]

theorem abs_nearest_le_intCast (x : ℚ) (B : Int) (hB : |B| < 2 ^ 53) (h : |x| ≤ (B : ℚ)) :
    |nearest x| ≤ (B : ℚ) := by
  have h1 := abs_le.mp h
  have hup := nearest_mono x B h1.2
  rw [nearest_intCast B hB] at hup
  have hlow := nearest_mono ((-B : Int) : ℚ) x (by push_cast; exact h1.1)
  rw [nearest_intCast (-B) (by rw [abs_neg]; exact hB)] at hlow
  push_cast at hlow
  exact abs_le.mpr ⟨hlow, hup⟩

theorem round_round (v : ℚ) (h : |v| ≤ 100000000000) :
    round (round (toDouble v)) = round (toDouble v) := by
  have h1 : |nearest v| ≤ ((100000000000 : Int) : ℚ) :=
    abs_nearest_le_intCast v 100000000000 (by norm_num) (by push_cast; exact h)
  push_cast at h1
  have h2 : |nearest v * 10000| ≤ ((1000000000000000 : Int) : ℚ) := by
    rw [abs_mul]
    have : |(10000 : ℚ)| = 10000 := by norm_num
    rw [this]
    push_cast
    linarith
  have h3 : |nearest (nearest v * 10000)| ≤ ((1000000000000000 : Int) : ℚ) :=
    abs_nearest_le_intCast _ 1000000000000000 (by norm_num) h2
  push_cast at h3
  have hbig : (1000000000000000 : ℚ) < (2 : ℚ) ^ (1024 : Nat) := by norm_num
  have h4 := abs_le.mp h3
  have h5 : |⌊nearest (nearest v * 10000) + 1 / 2⌋| < 2 ^ 51 := by
    rw [abs_lt]
    constructor
    · have : (-1000000000000000 : Int) ≤ ⌊nearest (nearest v * 10000) + 1 / 2⌋ := by
        apply Int.le_floor.mpr
        push_cast
        linarith
      omega
    · have : ⌊nearest (nearest v * 10000) + 1 / 2⌋ < 1000000000000001 := by
        apply Int.floor_lt.mpr
        push_cast
        linarith
      omega
  rw [toDouble_of_abs_lt v (by linarith)]
  unfold round
  simp only [JSNumber.times10000]
  rw [toDouble_of_abs_lt _ (by linarith)]
  simp only [mathRound, JSNumber.over10000]
  exact round_over10000 _ h5

theorem round_intCast (n : Int) (h : |n| * 10000 < 2 ^ 53) :
    round (.finite (n : ℚ)) = .finite (n : ℚ) := by
  have h1 : |n * 10000| < 2 ^ 53 := by
    rw [abs_mul]
    have : |(10000 : Int)| = 10000 := by norm_num
    rw [this]; exact h
  have h2 : |n| < 2 ^ 53 := by
    have := abs_nonneg n
    omega
  have hcast : (n : ℚ) * 10000 = ((n * 10000 : Int) : ℚ) := by push_cast; rfl
  have hbig : ((2 ^ 53 : Int) : ℚ) < (2 : ℚ) ^ (1024 : Nat) := by norm_num
  have habs : ∀ k : Int, |k| < 2 ^ 53 → |((k : Int) : ℚ)| < (2 : ℚ) ^ (1024 : Nat) := by
    intro k hk
    have : ((|k| : Int) : ℚ) < ((2 ^ 53 : Int) : ℚ) := by exact_mod_cast hk
    rw [Int.cast_abs] at this
    linarith
  unfold round
  simp only [JSNumber.times10000]
  rw [hcast, toDouble_of_abs_lt _ (by rw [nearest_intCast _ h1]; exact habs _ h1),
    nearest_intCast _ h1]
  simp only [mathRound, JSNumber.over10000]
  have hfl : ⌊((n * 10000 : Int) : ℚ) + 1 / 2⌋ = n * 10000 := by
    rw [Int.floor_eq_iff]
    constructor <;> linarith
  rw [hfl]
  have hq : ((n * 10000 : Int) : ℚ) / 10000 = (n : ℚ) := by
    push_cast; field_simp
  rw [hq, toDouble_of_abs_lt _ (by rw [nearest_intCast _ h2]; exact habs _ h2),
    nearest_intCast _ h2]

theorem round_of_near (r : ℚ) (e k : Nat) (hk : e + k = 52) (h1 : (2 : ℚ) ^ e ≤ |r * 10000|)
    (h2 : |r * 10000| < (2 : ℚ) ^ (e + 1)) (p : Int) (h3 : |r * 10000 * 2 ^ k - p| < 1 / 2) :
    round (.finite r) = toDouble (((⌊(p : ℚ) / 2 ^ k + 1 / 2⌋ : Int) : ℚ) / 10000) := by
  unfold round
  simp only [JSNumber.times10000]
  rw [toDouble_of_near _ e k hk h1 h2 p h3]
  rfl

theorem wordRecord_fields (pageHeight : ℚ) (fonts after : List String) (word : Word)
    (record : WordRecord) (h : wordRecord pageHeight fonts word = .ok (after, record)) :
    ∃ char, word.chars.head? = some char ∧
      record.xMin = round (.finite word.rect.xMin) ∧
      record.yMin = round (JSNumber.sub pageHeight word.rect.yMax) ∧
      record.xMax = round (.finite word.rect.xMax) ∧
      record.yMax = round (JSNumber.sub pageHeight word.rect.yMin) ∧
      record.baseline = round (if char.rotation = 0 then
        round (JSNumber.sub pageHeight char.baseline) else .finite char.baseline) := by
  unfold wordRecord at h
  cases hhead : word.chars.head? with
  | none => simp [hhead] at h
  | some char =>
    simp only [hhead, Except.ok.injEq, Prod.mk.injEq] at h
    refine ⟨char, rfl, ?_⟩
    rw [← h.2]
    exact ⟨rfl, rfl, rfl, rfl, rfl⟩

theorem round_sample : round (JSNumber.sub 792 100) = .finite 692 := by
  have hsub : JSNumber.sub 792 100 = .finite ((692 : Int) : ℚ) := by
    unfold JSNumber.sub
    have h := toDouble_of_abs_lt ((692 : Int) : ℚ)
      (by rw [nearest_intCast 692 (by norm_num)]; norm_num)
    rw [nearest_intCast 692 (by norm_num)] at h
    have hq : (792 : ℚ) - 100 = ((692 : Int) : ℚ) := by norm_num
    rw [hq]
    exact h
  rw [hsub, round_intCast 692 (by norm_num)]
  norm_num

theorem page_records_of_words (pdfDocument : PdfDocument) (data : RecognizerData)
    (h : getRecognizerData pdfDocument = .ok data) (pageIndex : Nat) (page : Page)
    (record : PageRecord) (hpage : pdfDocument.pages[pageIndex]? = some (.ok page))
    (hrecord : data.pages[pageIndex]? = some record) :
    record.pageHeight = page.view.2.2.2 ∧
    List.Forall₂ (isRecordOf page.view.2.2.2) (pageRecords record) (pageWords page) := by
  obtain ⟨page2, hp1, hp2⟩ := getRecognizerData_page _ _ h pageIndex record hrecord
  rw [hpage, Option.some.injEq, Except.ok.injEq] at hp1
  subst hp1
  obtain ⟨fonts, newLines, hrec, hflat, _⟩ := recognizePage_spec _ _ hp2
  exact ⟨by rw [hrec], wordLoop_forall₂ _ _ _ _ _ hflat⟩

/-! ## C11: the flip of the vertical axis -/

/-- Counterexample to C11 as stated: `nearEight` is a double, rounding it to 4
decimal places over exact rationals gives 8, and the record `getRecognizerData`
builds for a word with this left edge has `xMin` 8.0001 (the double nearest to
it), which is not the double 8. -/
theorem rational_rounding_differs :
    toDouble nearEight = .finite nearEight ∧
    roundSpec nearEight = 8 ∧
    toDouble (roundSpec nearEight) = .finite 8 ∧
    getRecognizerData decimalDocument = .ok decimalData ∧
    decimalRecord.xMin = .finite (2251827961182919 / 281474976710656) ∧
    decimalRecord.xMin = toDouble (80001 / 10000) ∧
    decimalRecord.xMin ≠ toDouble (roundSpec nearEight) := by
  have hspec : roundSpec nearEight = 8 := by
    unfold roundSpec nearEight
    have hfl : ⌊(4503627774868167 / 562949953421312 : ℚ) * 10000 + 1 / 2⌋ = 80000 := by
      rw [Int.floor_eq_iff]; norm_num
    rw [hfl]; norm_num
  have height : toDouble 8 = .finite 8 := by
    have h := toDouble_of_abs_lt ((8 : Int) : ℚ)
      (by rw [nearest_intCast 8 (by norm_num)]; norm_num)
    rw [nearest_intCast 8 (by norm_num)] at h
    exact_mod_cast h
  have hlast : toDouble (80001 / 10000) = .finite (2251827961182919 / 281474976710656) := by
    rw [toDouble_of_near _ 3 49 rfl (by norm_num [abs_of_pos]) (by norm_num [abs_of_pos])
      4503655922365838 (by norm_num [abs_lt])]
    norm_num
  have hx : decimalRecord.xMin = .finite (2251827961182919 / 281474976710656) := by
    show round (.finite nearEight) = _
    unfold nearEight
    rw [round_of_near _ 16 36 rfl (by norm_num [abs_of_pos]) (by norm_num [abs_of_pos])
      5497592498618368 (by norm_num [abs_lt])]
    have hfl : ⌊((5497592498618368 : Int) : ℚ) / 2 ^ 36 + 1 / 2⌋ = 80001 := by
      rw [Int.floor_eq_iff]; norm_num
    rw [hfl]
    push_cast
    exact hlast
  refine ⟨?_, hspec, by rw [hspec]; exact height, getRecognizerData_decimalDocument, hx,
    by rw [hx, hlast], ?_⟩
  · unfold nearEight
    rw [toDouble_of_near _ 3 49 rfl (by norm_num [abs_of_pos]) (by norm_num [abs_of_pos])
      4503627774868167 (by norm_num [abs_lt])]
    norm_num
  · rw [hx, hspec, height]
    intro h
    injection h with h
    norm_num at h

/-- C11, amended: for every word record of a page processed by
`getRecognizerData`, with `round n` the double `Math.round(n * 10000) / 10000`
(the product, the rounding to an integer and the quotient each as IEEE 754
binary64 computes them) the record has
`yMin = round (pageHeight - rect.yMax)`, `yMax = round (pageHeight - rect.yMin)`,
the differences being double differences, `xMin = round rect.xMin` and
`xMax = round rect.xMax`, and `yMin ≤ yMax` whenever `rect.yMin ≤ rect.yMax`. -/
theorem flipped_rectangle (pdfDocument : PdfDocument) (data : RecognizerData)
    (h : getRecognizerData pdfDocument = .ok data) (pageIndex : Nat) (page : Page)
    (record : PageRecord) (hpage : pdfDocument.pages[pageIndex]? = some (.ok page))
    (hrecord : data.pages[pageIndex]? = some record) :
    ∀ (i : Nat) (r : WordRecord) (w : Word),
      (pageRecords record)[i]? = some r → (pageWords page)[i]? = some w →
      r.yMin = round (JSNumber.sub record.pageHeight w.rect.yMax) ∧
      r.yMax = round (JSNumber.sub record.pageHeight w.rect.yMin) ∧
      r.xMin = round (.finite w.rect.xMin) ∧
      r.xMax = round (.finite w.rect.xMax) ∧
      (w.rect.yMin ≤ w.rect.yMax → r.yMin.le r.yMax) := by
  obtain ⟨hheight, hrel⟩ := page_records_of_words _ _ h pageIndex page record hpage hrecord
  intro i r w hr hw
  obtain ⟨fonts, after, hword⟩ := forall₂_getElem_some hrel i r w hr hw
  obtain ⟨char, _, hx0, hy0, hx1, hy1, _⟩ := wordRecord_fields _ _ _ _ _ hword
  rw [hheight]
  refine ⟨hy0, hy1, hx0, hx1, ?_⟩
  intro hle
  rw [hy0, hy1]
  apply round_mono
  apply toDouble_mono
  linarith

/-- Witness for C11: the first word of `fontsPage`, with the rectangle
`[72, 700, 90, 712]` on a page of height 792. -/
theorem flipped_rectangle_witness :
    (fontsRecord "a" 0).yMin = round (JSNumber.sub fontsPageRecord.pageHeight 712) ∧
    (fontsRecord "a" 0).yMax = round (JSNumber.sub fontsPageRecord.pageHeight 700) ∧
    (fontsRecord "a" 0).yMin.le (fontsRecord "a" 0).yMax :=
  have h := flipped_rectangle fontsDocument fontsData getRecognizerData_fontsDocument 0 fontsPage fontsPageRecord
    rfl rfl 0 (fontsRecord "a" 0) (fontWord ["a"] "Times") rfl rfl
  ⟨h.1, h.2.1, h.2.2.2.2 (by norm_num [fontWord])⟩

/-! ## C12: the baseline -/

/-- Counterexample to C12 as stated: `farBaseline` is a double; for an unrotated
word with baseline `-farBaseline` on a page of height 0 the difference is
`farBaseline`, one rounding gives 295039176940.918 and the record holds the
result of the second rounding, 295039176940.9181. -/
theorem second_rounding_changes_value :
    JSNumber.sub 0 (-farBaseline) = .finite farBaseline ∧
    getRecognizerData farBaselineDocument = .ok farBaselineData ∧
    round (JSNumber.sub 0 (-farBaseline)) = .finite (4833921875000001 / 16384) ∧
    round (JSNumber.sub 0 (-farBaseline)) = toDouble (roundSpec farBaseline) ∧
    farBaselineRecord.baseline = .finite (2416960937500001 / 8192) ∧
    farBaselineRecord.baseline ≠ round (JSNumber.sub 0 (-farBaseline)) := by
  have hsub : JSNumber.sub 0 (-farBaseline) = .finite farBaseline := by
    unfold JSNumber.sub farBaseline
    rw [toDouble_of_near _ 38 14 rfl (by norm_num [abs_of_pos]) (by norm_num [abs_of_pos])
      4833921875000000 (by norm_num [abs_lt])]
    norm_num
  have hone : toDouble (2950391769409180 / 10000) = .finite (4833921875000001 / 16384) := by
    rw [toDouble_of_near _ 38 14 rfl (by norm_num [abs_of_pos]) (by norm_num [abs_of_pos])
      4833921875000001 (by norm_num [abs_lt])]
    norm_num
  have htwo : toDouble (2950391769409181 / 10000) = .finite (2416960937500001 / 8192) := by
    rw [toDouble_of_near _ 38 14 rfl (by norm_num [abs_of_pos]) (by norm_num [abs_of_pos])
      4833921875000002 (by norm_num [abs_lt])]
    norm_num
  have hfirst : round (.finite farBaseline) = .finite (4833921875000001 / 16384) := by
    unfold farBaseline
    rw [round_of_near _ 51 1 rfl (by norm_num [abs_of_pos]) (by norm_num [abs_of_pos])
      5900783538818359 (by norm_num [abs_lt])]
    have hfl : ⌊((5900783538818359 : Int) : ℚ) / 2 ^ 1 + 1 / 2⌋ = 2950391769409180 := by
      rw [Int.floor_eq_iff]; norm_num
    rw [hfl]
    push_cast
    exact hone
  have hsecond : round (.finite (4833921875000001 / 16384)) =
      .finite (2416960937500001 / 8192) := by
    rw [round_of_near _ 51 1 rfl (by norm_num [abs_of_pos]) (by norm_num [abs_of_pos])
      5900783538818361 (by norm_num [abs_lt])]
    have hfl : ⌊((5900783538818361 : Int) : ℚ) / 2 ^ 1 + 1 / 2⌋ = 2950391769409181 := by
      rw [Int.floor_eq_iff]; norm_num
    rw [hfl]
    push_cast
    exact htwo
  have hspec : roundSpec farBaseline = 2950391769409180 / 10000 := by
    unfold roundSpec farBaseline
    have hfl : ⌊(75530029296875 / 256 : ℚ) * 10000 + 1 / 2⌋ = 2950391769409180 := by
      rw [Int.floor_eq_iff]; norm_num
    rw [hfl]; norm_num
  have hbase : farBaselineRecord.baseline = .finite (2416960937500001 / 8192) := by
    show round (round (JSNumber.sub 0 (-farBaseline))) = _
    rw [hsub, hfirst, hsecond]
  refine ⟨hsub, getRecognizerData_farBaselineDocument, by rw [hsub, hfirst],
    by rw [hsub, hfirst, hspec, hone], hbase, ?_⟩
  rw [hbase, hsub, hfirst]
  intro h
  injection h with h
  norm_num at h

/-- C12, amended: for every word of a page processed by `getRecognizerData`
whose representative character has rotation 0, the `baseline` field is
`round (round (pageHeight - baseline))`, difference and roundings in doubles;
the second rounding changes nothing when the exact difference is at most
100000000000 in magnitude, so that the field is then
`round (pageHeight - baseline)`; a baseline of 100 on a page of height 792 gives
692. -/
theorem baseline_of_unrotated_word (pdfDocument : PdfDocument) (data : RecognizerData)
    (h : getRecognizerData pdfDocument = .ok data) (pageIndex : Nat) (page : Page)
    (record : PageRecord) (hpage : pdfDocument.pages[pageIndex]? = some (.ok page))
    (hrecord : data.pages[pageIndex]? = some record) :
    round (JSNumber.sub 792 100) = .finite 692 ∧
    ∀ (i : Nat) (r : WordRecord) (w : Word) (char : Chr),
      (pageRecords record)[i]? = some r → (pageWords page)[i]? = some w →
      w.chars.head? = some char → char.rotation = 0 →
      r.baseline = round (round (JSNumber.sub record.pageHeight char.baseline)) ∧
      (|record.pageHeight - char.baseline| ≤ 100000000000 →
        r.baseline = round (JSNumber.sub record.pageHeight char.baseline)) := by
  obtain ⟨hheight, hrel⟩ := page_records_of_words _ _ h pageIndex page record hpage hrecord
  refine ⟨round_sample, ?_⟩
  intro i r w char hr hw hchar hrot
  obtain ⟨fonts, after, hword⟩ := forall₂_getElem_some hrel i r w hr hw
  obtain ⟨char2, hchar2, _, _, _, _, hbase⟩ := wordRecord_fields _ _ _ _ _ hword
  rw [hchar, Option.some.injEq] at hchar2
  subst hchar2
  rw [hheight]
  rw [if_pos hrot] at hbase
  exact ⟨hbase, fun hsmall => by rw [hbase]; exact round_round _ hsmall⟩

/-- Witness for C12: the first word of `fontsPage`, rotation 0 and baseline 100
on a page of height 792. -/
theorem baseline_of_unrotated_word_witness :
    (fontsRecord "a" 0).baseline = round (JSNumber.sub fontsPageRecord.pageHeight 100) ∧
    round (JSNumber.sub 792 100) = .finite 692 :=
  have h := baseline_of_unrotated_word fontsDocument fontsData
    getRecognizerData_fontsDocument 0 fontsPage fontsPageRecord rfl rfl
  ⟨(h.2 0 (fontsRecord "a" 0) (fontWord ["a"] "Times") (sampleChar "a" "Times")
    rfl rfl rfl rfl).2 (by norm_num [fontsPageRecord, sampleChar, abs_of_pos]), h.1⟩

/-! ## Lemmas on the outcome of the recognizer loops -/

theorem wordRecord_total (pageHeight : ℚ) (fonts : List String) (word : Word)
    (h : word.chars ≠ []) : ∃ res, wordRecord pageHeight fonts word = .ok res := by
  unfold wordRecord
  cases hchars : word.chars with
  | nil => exact absurd hchars h
  | cons char rest => exact ⟨_, rfl⟩

theorem wordLoop_total (pageHeight : ℚ) (words : List Word)
    (h : ∀ word ∈ words, word.chars ≠ []) :
    ∀ fonts : List String, ∃ res, wordLoop pageHeight words fonts [] = .ok res := by
  induction words with
  | nil => intro fonts; exact ⟨_, rfl⟩
  | cons word rest ih =>
    intro fonts
    obtain ⟨⟨fonts1, record⟩, hrec⟩ :=
      wordRecord_total pageHeight fonts word (h word (List.mem_cons_self _ _))
    obtain ⟨⟨after, records⟩, hrest⟩ :=
      ih (fun w hw => h w (List.mem_cons_of_mem _ hw)) fonts1
    exact ⟨(after, record :: records), by rw [wordLoop_cons, hrec]; simp only [hrest]⟩

theorem lineLoop_total (pageHeight : ℚ) (lines : List Line)
    (h : ∀ line ∈ lines, ∀ word ∈ line.words, word.chars ≠ []) :
    ∀ fonts : List String, ∃ res, lineLoop pageHeight lines fonts [] = .ok res := by
  induction lines with
  | nil => intro fonts; exact ⟨_, rfl⟩
  | cons line rest ih =>
    intro fonts
    obtain ⟨⟨fonts1, newLine⟩, hwords⟩ :=
      wordLoop_total pageHeight line.words (h line (List.mem_cons_self _ _)) fonts
    obtain ⟨⟨after, added⟩, hrest⟩ :=
      ih (fun l hl => h l (List.mem_cons_of_mem _ hl)) fonts1
    refine ⟨(after, (if newLine.length ≠ 0 then [] ++ [[newLine]] else []) ++ added), ?_⟩
    simp only [lineLoop, hwords]
    rw [lineLoop_acc, hrest]

theorem paragraphLoop_total (pageHeight : ℚ) (paragraphs : List Paragraph)
    (h : ∀ paragraph ∈ paragraphs, ∀ line ∈ paragraph.lines, ∀ word ∈ line.words,
      word.chars ≠ []) :
    ∀ fonts : List String,
      ∃ res, paragraphLoop pageHeight paragraphs fonts [] = .ok res := by
  induction paragraphs with
  | nil => intro fonts; exact ⟨_, rfl⟩
  | cons paragraph rest ih =>
    intro fonts
    obtain ⟨⟨fonts1, first⟩, hlines⟩ :=
      lineLoop_total pageHeight paragraph.lines (h paragraph (List.mem_cons_self _ _)) fonts
    obtain ⟨⟨after, added⟩, hrest⟩ :=
      ih (fun p hp => h p (List.mem_cons_of_mem _ hp)) fonts1
    refine ⟨(after, first ++ added), ?_⟩
    simp only [paragraphLoop, hlines]
    rw [paragraphLoop_acc, hrest]

theorem mem_pageWords (page : Page) (word : Word) :
    word ∈ pageWords page ↔
      ∃ paragraph ∈ page.paragraphs, ∃ line ∈ paragraph.lines, word ∈ line.words := by
  simp only [pageWords, pageLines, List.mem_flatMap]
  constructor
  · rintro ⟨line, ⟨paragraph, hp, hl⟩, hw⟩
    exact ⟨paragraph, hp, line, hl, hw⟩
  · rintro ⟨paragraph, hp, line, hl, hw⟩
    exact ⟨line, ⟨paragraph, hp, hl⟩, hw⟩

theorem recognizePage_total (page : Page) (h : ∀ word ∈ pageWords page, word.chars ≠ []) :
    ∃ record, recognizePage page = .ok record := by
  obtain ⟨⟨fonts, newLines⟩, hloop⟩ :=
    paragraphLoop_total page.view.2.2.2 page.paragraphs
      (fun paragraph hp line hl word hw =>
        h word ((mem_pageWords page word).mpr ⟨paragraph, hp, line, hl, hw⟩)) []
  refine ⟨{ pageWidth := page.view.2.2.1, pageHeight := page.view.2.2.2,
             wrapper := [[[{ c0 := 0, c1 := 0, c2 := 0, c3 := 0,
                             newLines := newLines }]]] }, ?_⟩
  simp only [recognizePage, hloop]

theorem recognizePage_words (page : Page) (record : PageRecord)
    (h : recognizePage page = .ok record) : ∀ word ∈ pageWords page, word.chars ≠ [] := by
  obtain ⟨fonts, newLines, _, hflat, _⟩ := recognizePage_spec _ _ h
  obtain ⟨_, _, _, hheads, _⟩ := wordLoop_fonts _ _ _ _ _ hflat List.nodup_nil
  intro word hword hnil
  obtain ⟨char, hchar⟩ := hheads word hword
  rw [hnil] at hchar
  cases hchar

theorem recognizerLoop_length (pdfDocument : PdfDocument) (maxPages : Int) (steps : Nat) :
    ∀ (pageIndex : Nat) (acc out : List PageRecord),
      recognizerLoop pdfDocument maxPages steps pageIndex acc = .ok out →
      (maxPages - pageIndex).toNat ≤ steps →
      out.length = acc.length + (maxPages - pageIndex).toNat := by
  induction steps with
  | zero =>
    intro pageIndex acc out h hsteps
    simp only [recognizerLoop, Except.ok.injEq] at h
    rw [← h]
    omega
  | succ steps ih =>
    intro pageIndex acc out h hsteps
    simp only [recognizerLoop] at h
    by_cases hlt : (pageIndex : Int) < maxPages
    · simp only [hlt, if_true] at h
      cases hpage : getPageData pdfDocument pageIndex with
      | error e => simp [hpage] at h
      | ok page =>
        simp only [hpage] at h
        cases hrec : recognizePage page with
        | error e => simp [hrec] at h
        | ok record =>
          simp only [hrec] at h
          have := ih _ _ _ h (by push_cast; omega)
          rw [this, List.length_append, List.length_singleton]
          push_cast
          omega
    · simp only [hlt, if_false, Except.ok.injEq] at h
      rw [← h]
      omega

theorem recognizerLoop_total (pdfDocument : PdfDocument) (maxPages : Int)
    (hok : ∀ i : Nat, (i : Int) < maxPages →
      ∃ page record, getPageData pdfDocument i = .ok page ∧ recognizePage page = .ok record)
    (steps : Nat) :
    ∀ (pageIndex : Nat) (acc : List PageRecord),
      ∃ out, recognizerLoop pdfDocument maxPages steps pageIndex acc = .ok out := by
  induction steps with
  | zero => intro pageIndex acc; exact ⟨acc, rfl⟩
  | succ steps ih =>
    intro pageIndex acc
    simp only [recognizerLoop]
    by_cases hlt : (pageIndex : Int) < maxPages
    · obtain ⟨page, record, hpage, hrec⟩ := hok pageIndex hlt
      simp only [hlt, if_true, hpage, hrec]
      exact ih _ _
    · simp only [hlt, if_false]
      exact ⟨acc, rfl⟩

theorem recognizerLoop_congr (first second : PdfDocument) (maxPages : Int)
    (hsame : ∀ i : Nat, (i : Int) < maxPages → getPageData first i = getPageData second i)
    (steps : Nat) :
    ∀ (pageIndex : Nat) (acc : List PageRecord),
      recognizerLoop first maxPages steps pageIndex acc =
        recognizerLoop second maxPages steps pageIndex acc := by
  induction steps with
  | zero => intro pageIndex acc; rfl
  | succ steps ih =>
    intro pageIndex acc
    simp only [recognizerLoop]
    by_cases hlt : (pageIndex : Int) < maxPages
    · simp only [hlt, if_true, hsame pageIndex hlt]
      cases getPageData second pageIndex with
      | error e => rfl
      | ok page =>
        simp only
        cases recognizePage page with
        | error e => rfl
        | ok record => exact ih _ _
    · simp only [hlt, if_false]

theorem clampPagesNum_five (actualCount : Nat) :
    clampPagesNum (.number 5) actualCount = ((min 5 actualCount : Nat) : Int) := by
  have h5 : (5 : ℚ) = ((5 : Int) : ℚ) := by norm_num
  rw [h5, clampPagesNum_int]
  by_cases h : (actualCount : Int) < 5
  · simp only [h, if_true]
    congr 1
    omega
  · simp only [h, if_false]
    have : min 5 actualCount = 5 := by omega
    rw [this]
    rfl

theorem getRecognizerData_spec (pdfDocument : PdfDocument) (data : RecognizerData)
    (h : getRecognizerData pdfDocument = .ok data) :
    data.totalPages = pdfDocument.numPages ∧
    data.metadata = exportMetadata pdfDocument.documentInfo ∧
    data.pages.length = min 5 pdfDocument.numPages := by
  unfold getRecognizerData at h
  simp only at h
  cases hloop : recognizerLoop pdfDocument (clampPagesNum (.number 5) pdfDocument.numPages)
      (clampPagesNum (.number 5) pdfDocument.numPages).toNat 0 [] with
  | error e => simp [hloop] at h
  | ok pages =>
    simp only [hloop, Except.ok.injEq] at h
    have hlen := recognizerLoop_length _ _ _ _ _ _ hloop (by simp)
    rw [clampPagesNum_five] at hlen
    rw [← h]
    refine ⟨rfl, rfl, ?_⟩
    simp only [List.length_nil, Nat.zero_add, Nat.cast_zero, sub_zero, Int.toNat_ofNat] at hlen
    exact hlen

theorem getRecognizerData_total (info : JSObject) (pages : List Page)
    (h : ∀ page ∈ pages.take 5, ∀ word ∈ pageWords page, word.chars ≠ []) :
    ∃ data, getRecognizerData { documentInfo := info, pages := pages.map .ok } = .ok data := by
  have hN : PdfDocument.numPages { documentInfo := info, pages := pages.map .ok } =
      pages.length := by simp [PdfDocument.numPages]
  obtain ⟨out, hloop⟩ := recognizerLoop_total { documentInfo := info, pages := pages.map .ok }
    (clampPagesNum (.number 5) pages.length)
    (by
      intro i hi
      rw [clampPagesNum_five] at hi
      have hi2 : i < min 5 pages.length := by exact_mod_cast hi
      have hlt : i < pages.length := by omega
      have hmem : pages[i] ∈ pages.take 5 := by
        rw [List.mem_iff_getElem]
        exact ⟨i, by rw [List.length_take]; omega, by rw [List.getElem_take]⟩
      obtain ⟨record, hrec⟩ := recognizePage_total pages[i] (h _ hmem)
      refine ⟨pages[i], record, ?_, hrec⟩
      simp [getPageData, List.getElem?_eq_getElem hlt])
    (clampPagesNum (.number 5) pages.length).toNat 0 []
  refine ⟨⟨exportMetadata info, pages.length, out⟩, ?_⟩
  simp only [getRecognizerData, hN, hloop]

theorem wordLoop_error (pageHeight : ℚ) (words : List Word) :
    ∀ (fonts : List String) (acc : List WordRecord) (e : Fault),
      wordLoop pageHeight words fonts acc = .error e →
      e = .typeError "Cannot read properties of undefined (reading fontName)" := by
  induction words with
  | nil => intro fonts acc e h; simp [wordLoop] at h
  | cons word rest ih =>
    intro fonts acc e h
    simp only [wordLoop] at h
    cases hrec : wordRecord pageHeight fonts word with
    | error e2 =>
      simp only [hrec, Except.error.injEq] at h
      unfold wordRecord at hrec
      cases hhead : word.chars.head? with
      | none =>
        simp only [hhead, Except.error.injEq] at hrec
        rw [← h, ← hrec]
      | some char => simp [hhead] at hrec
    | ok res =>
      simp only [hrec] at h
      exact ih _ _ _ h

theorem lineLoop_error (pageHeight : ℚ) (lines : List Line) :
    ∀ (fonts : List String) (acc : List LineRecord) (e : Fault),
      lineLoop pageHeight lines fonts acc = .error e →
      e = .typeError "Cannot read properties of undefined (reading fontName)" := by
  induction lines with
  | nil => intro fonts acc e h; simp [lineLoop] at h
  | cons line rest ih =>
    intro fonts acc e h
    simp only [lineLoop] at h
    cases hwords : wordLoop pageHeight line.words fonts [] with
    | error e2 =>
      simp only [hwords, Except.error.injEq] at h
      rw [← h]
      exact wordLoop_error _ _ _ _ _ hwords
    | ok res =>
      simp only [hwords] at h
      exact ih _ _ _ h

theorem paragraphLoop_error (pageHeight : ℚ) (paragraphs : List Paragraph) :
    ∀ (fonts : List String) (acc : List LineRecord) (e : Fault),
      paragraphLoop pageHeight paragraphs fonts acc = .error e →
      e = .typeError "Cannot read properties of undefined (reading fontName)" := by
  induction paragraphs with
  | nil => intro fonts acc e h; simp [paragraphLoop] at h
  | cons paragraph rest ih =>
    intro fonts acc e h
    simp only [paragraphLoop] at h
    cases hlines : lineLoop pageHeight paragraph.lines fonts acc with
    | error e2 =>
      simp only [hlines, Except.error.injEq] at h
      rw [← h]
      exact lineLoop_error _ _ _ _ _ hlines
    | ok res =>
      simp only [hlines] at h
      exact ih _ _ _ h

theorem recognizePage_error (page : Page) (e : Fault) (h : recognizePage page = .error e) :
    e = .typeError "Cannot read properties of undefined (reading fontName)" := by
  unfold recognizePage at h
  simp only at h
  cases hloop : paragraphLoop page.view.2.2.2 page.paragraphs [] [] with
  | error e2 =>
    simp only [hloop, Except.error.injEq] at h
    rw [← h]
    exact paragraphLoop_error _ _ _ _ _ hloop
  | ok res => simp [hloop] at h

theorem recognizerLoop_error (pdfDocument : PdfDocument) (maxPages : Int)
    (hok : ∀ i : Nat, (i : Int) < maxPages → ∃ page, getPageData pdfDocument i = .ok page)
    (steps : Nat) :
    ∀ (pageIndex : Nat) (acc : List PageRecord) (e : Fault),
      recognizerLoop pdfDocument maxPages steps pageIndex acc = .error e →
      e = .typeError "Cannot read properties of undefined (reading fontName)" := by
  induction steps with
  | zero => intro pageIndex acc e h; simp [recognizerLoop] at h
  | succ steps ih =>
    intro pageIndex acc e h
    simp only [recognizerLoop] at h
    by_cases hlt : (pageIndex : Int) < maxPages
    · obtain ⟨page, hpage⟩ := hok pageIndex hlt
      simp only [hlt, if_true, hpage] at h
      cases hrec : recognizePage page with
      | error e2 =>
        simp only [hrec, Except.error.injEq] at h
        rw [← h]
        exact recognizePage_error _ _ hrec
      | ok record =>
        simp only [hrec] at h
        exact ih _ _ _ h
    · simp [hlt] at h

theorem getRecognizerData_error (info : JSObject) (pages : List Page) (e : Fault)
    (h : getRecognizerData { documentInfo := info, pages := pages.map .ok } = .error e) :
    e = .typeError "Cannot read properties of undefined (reading fontName)" := by
  unfold getRecognizerData at h
  simp only at h
  cases hloop : recognizerLoop { documentInfo := info, pages := pages.map .ok }
      (clampPagesNum (.number 5)
        (PdfDocument.numPages { documentInfo := info, pages := pages.map .ok }))
      (clampPagesNum (.number 5)
        (PdfDocument.numPages { documentInfo := info, pages := pages.map .ok })).toNat 0 [] with
  | ok out => simp [hloop] at h
  | error e2 =>
    simp only [hloop, Except.error.injEq] at h
    rw [← h]
    refine recognizerLoop_error _ _ ?_ _ _ _ _ hloop
    intro i hi
    have hle := clampPagesNum_le (.number 5) pages.length
    apply getPageData_map_ok
    simp only [PdfDocument.numPages, List.length_map] at hi
    omega

/-! ## C13: the cap of five pages -/

/-- C13: whenever `getRecognizerData` returns, `totalPages` is the page count N
and `pages` has exactly min(5, N) entries, entry i being built from page i; it
returns whenever the first min(5, N) pages arrive and hold no word without
characters; and its outcome depends on the first five pages and the page count
only, so no page beyond the fifth is processed. -/
theorem recognizer_page_cap (info : JSObject) (answers : List (Except Fault Page)) :
    (∀ data, getRecognizerData { documentInfo := info, pages := answers } = .ok data →
      data.totalPages = answers.length ∧
      data.pages.length = min 5 answers.length ∧
      (answers.length ≤ 5 → data.pages.length = answers.length) ∧
      (5 < answers.length → data.pages.length = 5) ∧
      ∀ (i : Nat) (record : PageRecord), data.pages[i]? = some record →
        ∃ page, answers[i]? = some (.ok page) ∧ recognizePage page = .ok record) ∧
    (∀ pages : List Page, answers.take 5 = (pages.take 5).map .ok →
      (∀ page ∈ pages.take 5, ∀ word ∈ pageWords page, word.chars ≠ []) →
      ∃ data, getRecognizerData { documentInfo := info, pages := answers } = .ok data) ∧
    (∀ other : List (Except Fault Page), other.length = answers.length →
      other.take 5 = answers.take 5 →
      getRecognizerData { documentInfo := info, pages := other } =
        getRecognizerData { documentInfo := info, pages := answers }) := by
  have hcongr : ∀ other : List (Except Fault Page), other.length = answers.length →
      other.take 5 = answers.take 5 →
      getRecognizerData { documentInfo := info, pages := other } =
        getRecognizerData { documentInfo := info, pages := answers } := by
    intro other hlen htake
    have hloop := recognizerLoop_congr { documentInfo := info, pages := other }
      { documentInfo := info, pages := answers } (clampPagesNum (.number 5) answers.length)
      (by
        intro i hi
        rw [clampPagesNum_five] at hi
        have hi2 : i < min 5 answers.length := by exact_mod_cast hi
        have h1 : other[i]? = (other.take 5)[i]? := by
          rw [List.getElem?_take_of_lt (by omega)]
        have h2 : answers[i]? = (answers.take 5)[i]? := by
          rw [List.getElem?_take_of_lt (by omega)]
        simp only [getPageData, List.get?_eq_getElem?, h1, h2, htake])
      (clampPagesNum (.number 5) answers.length).toNat 0 []
    simp only [getRecognizerData, PdfDocument.numPages, hlen, hloop]
  refine ⟨?_, ?_, hcongr⟩
  · intro data h
    obtain ⟨h1, _, h3⟩ := getRecognizerData_spec _ _ h
    simp only [PdfDocument.numPages] at h1 h3
    refine ⟨h1, h3, by omega, by omega, ?_⟩
    intro i record hrecord
    exact getRecognizerData_page _ _ h i record hrecord
  · intro pages htake hwords
    let padded : List Page := pages.take 5 ++ List.replicate (answers.length - 5) plainPage
    have hlen5 : (pages.take 5).length = min 5 answers.length := by
      have := congrArg List.length htake
      simp only [List.length_take, List.length_map] at this
      rw [List.length_take]
      omega
    have hpadded : (padded.take 5) = pages.take 5 := by
      simp only [padded]
      by_cases h5 : 5 ≤ answers.length
      · exact List.take_left' (by omega)
      · have h0 : answers.length - 5 = 0 := by omega
        rw [h0, List.replicate_zero, List.append_nil, List.take_take, Nat.min_self]
    obtain ⟨data, hdata⟩ := getRecognizerData_total info padded (by rw [hpadded]; exact hwords)
    refine ⟨data, ?_⟩
    rw [← hdata]
    apply (hcongr (padded.map .ok) ?_ ?_).symm
    · simp only [padded, List.length_map, List.length_append, List.length_replicate, hlen5]
      omega
    · rw [← List.map_take, hpadded, htake]

/-- Witness for C13: a document of six pages whose sixth page cannot be
delivered; five pages are returned. -/
theorem recognizer_page_cap_witness :
    ∃ data, getRecognizerData sixPageDocument = .ok data ∧ data.totalPages = 6 ∧
      data.pages.length = 5 := by
  obtain ⟨data, hdata⟩ := (recognizer_page_cap [] sixPageDocument.pages).2.1
    (List.replicate 5 plainPage) rfl (by decide)
  have h := (recognizer_page_cap [] sixPageDocument.pages).1 data hdata
  exact ⟨data, hdata, h.1, h.2.2.2.1 (by decide)⟩

/-! ## C20: words without characters -/

/-- C20: when every page of the document arrives, `getRecognizerData` faults
exactly when some word on one of the first min(5, N) pages has no character,
the fault being the read of `fontName` on `undefined`; when every word on those
pages has a character it returns a result; `getFulltext` returns a result on
the same input whatever the words hold. -/
theorem faults_on_empty_word (info : JSObject) (pages : List Page) :
    ((∃ e, getRecognizerData { documentInfo := info, pages := pages.map .ok } = .error e) ↔
      ∃ page ∈ pages.take 5, ∃ word ∈ pageWords page, word.chars = []) ∧
    (∀ e, getRecognizerData { documentInfo := info, pages := pages.map .ok } = .error e →
      e = .typeError "Cannot read properties of undefined (reading fontName)") ∧
    ((∀ page ∈ pages.take 5, ∀ word ∈ pageWords page, word.chars ≠ []) →
      ∃ data, getRecognizerData { documentInfo := info, pages := pages.map .ok } = .ok data) ∧
    (∀ pagesNum : JSValue,
      ∃ r, getFulltext { documentInfo := info, pages := pages.map .ok } pagesNum = .ok r) := by
  refine ⟨⟨?_, ?_⟩, getRecognizerData_error info pages, getRecognizerData_total info pages,
    getFulltext_total info pages⟩
  · rintro ⟨e, he⟩
    by_contra hnone
    obtain ⟨data, hdata⟩ := getRecognizerData_total info pages (by
      intro page hp word hw hnil
      exact hnone ⟨page, hp, word, hw, hnil⟩)
    rw [he] at hdata
    cases hdata
  · rintro ⟨page, hp, word, hw, hnil⟩
    cases hres : getRecognizerData { documentInfo := info, pages := pages.map .ok } with
    | error e => exact ⟨e, rfl⟩
    | ok data =>
      exfalso
      obtain ⟨_, _, hlen⟩ := getRecognizerData_spec _ _ hres
      simp only [PdfDocument.numPages, List.length_map] at hlen
      obtain ⟨i, hi, hget⟩ := List.mem_iff_getElem.mp hp
      rw [List.length_take] at hi
      have hi2 : i < data.pages.length := by omega
      obtain ⟨page2, hp1, hp2⟩ := getRecognizerData_page _ _ hres i data.pages[i]
        (List.getElem?_eq_getElem hi2)
      rw [List.getElem_take] at hget
      have hpage : (pages.map (Except.ok : Page → Except Fault Page))[i]? =
          some (.ok page) := by
        rw [List.getElem?_map, List.getElem?_eq_getElem (by omega), hget]
        rfl
      simp only at hp1
      rw [hpage, Option.some.injEq, Except.ok.injEq] at hp1
      subst hp1
      exact recognizePage_words _ _ hp2 word hw hnil

/-- Witness for C20: a document whose second page holds a word without
characters. -/
theorem faults_on_empty_word_witness :
    (∃ e, getRecognizerData emptyWordDocument = .error e) ∧
    (∃ r, getFulltext emptyWordDocument .undefined = .ok r) :=
  have h := faults_on_empty_word [] [plainPage, emptyWordPage]
  ⟨h.1.mpr ⟨emptyWordPage, by decide, sampleWord [] true, by decide, rfl⟩,
    h.2.2.2 .undefined⟩

/-! ## C19: the text of the first pages is kept -/

theorem pagePopsOwnLine_of_everyLineHasText (page : Page)
    (h : everyLineHasText page = true) : pagePopsOwnLine page = true := by
  unfold everyLineHasText at h
  unfold pagePopsOwnLine
  rw [List.all_eq_true] at h ⊢
  intro paragraph hp
  have hlines := h paragraph hp
  generalize paragraph.lines = lines at hlines
  induction lines with
  | nil => rfl
  | cons line rest ih =>
    simp only [List.all_cons, Bool.and_eq_true] at hlines
    have hemit : lineEmits line = true := by
      unfold lineEmits
      cases hw : line.words with
      | nil => simp [hw] at hlines
      | cons word more =>
        simp only [hw, List.all_cons, Bool.and_eq_true] at hlines
        simp [hlines.1.2.1]
    simp [popsOwnLine, hemit, ih hlines.2]

theorem fulltextForm_append (pages : List Page) (hne : pages ≠ []) (page : Page) :
    fulltextForm (pages ++ [page]) =
      fulltextForm pages ++ "\x0c" ++ (pageBody page ++ "\n\n") := by
  induction pages with
  | nil => exact absurd rfl hne
  | cons first rest ih =>
    cases rest with
    | nil => simp [fulltextForm, String.append_assoc]
    | cons second more =>
      have ih2 := ih (by simp)
      simp only [List.cons_append] at ih2 ⊢
      simp only [fulltextForm, ih2, String.append_assoc]

theorem getFulltext_form (pdfDocument : PdfDocument) (pagesNum : JSValue)
    (r : FulltextResult) (h : getFulltext pdfDocument pagesNum = .ok r)
    (hpop : ∀ page, Except.ok page ∈ pdfDocument.pages → pagePopsOwnLine page = true) :
    ∃ pages : List Page,
      pages.length = (clampPagesNum pagesNum pdfDocument.numPages).toNat ∧
      pdfDocument.pages.take pages.length = pages.map .ok ∧
      r.text = fulltextForm pages := by
  obtain ⟨pages, h1, h2, h3, _, h5⟩ := getFulltext_spec _ _ _ h
  refine ⟨pages, by rw [← h1, h5], h2, ?_⟩
  have hpop2 : ∀ page ∈ pages, pagePopsOwnLine page = true := by
    intro page hp
    apply hpop
    apply List.mem_of_mem_take (n := pages.length)
    rw [h2]
    exact List.mem_map_of_mem _ hp
  by_cases hp : pages = []
  · subst hp
    rw [h3]
    rfl
  · have hlen : ((0 : Nat) : Int) + pages.length =
        clampPagesNum pagesNum pdfDocument.numPages := by
      have : 0 < pages.length := List.length_pos.mpr hp
      push_cast
      omega
    rw [h3, join_pushPages _ _ hpop2 0 [] hlen]
    simp [join_nil]

theorem all_ok_eq_map (answers : List (Except Fault Page))
    (h : ∀ answer ∈ answers, ∃ page, answer = Except.ok page) :
    ∃ pages : List Page, answers = pages.map .ok := by
  induction answers with
  | nil => exact ⟨[], rfl⟩
  | cons answer rest ih =>
    obtain ⟨page, hpage⟩ := h answer (List.mem_cons_self _ _)
    obtain ⟨pages, hpages⟩ := ih (fun a ha => h a (List.mem_cons_of_mem _ ha))
    exact ⟨page :: pages, by rw [hpage, hpages]; rfl⟩

/-- C19: in a document in which every line has a word and every word a
character, for every integer k with 1 ≤ k < totalPages, the text returned with
page limit k followed by a form-feed is a beginning of the text returned with
page limit k + 1; both texts are returned when every page arrives. -/
theorem text_of_first_pages_is_kept (pdfDocument : PdfDocument) (k : Int)
    (hlow : 1 ≤ k) (hhigh : k < pdfDocument.numPages)
    (htext : ∀ page, Except.ok page ∈ pdfDocument.pages → everyLineHasText page = true) :
    (∀ shorter longer : FulltextResult,
      getFulltext pdfDocument (.number (k : ℚ)) = .ok shorter →
      getFulltext pdfDocument (.number ((k + 1 : Int) : ℚ)) = .ok longer →
      ∃ rest, longer.text = shorter.text ++ "\x0c" ++ rest) ∧
    ((∀ answer ∈ pdfDocument.pages, ∃ page, answer = Except.ok page) →
      ∃ shorter longer : FulltextResult,
        getFulltext pdfDocument (.number (k : ℚ)) = .ok shorter ∧
        getFulltext pdfDocument (.number ((k + 1 : Int) : ℚ)) = .ok longer ∧
        ∃ rest, longer.text = shorter.text ++ "\x0c" ++ rest) := by
  have hpop : ∀ page, Except.ok page ∈ pdfDocument.pages → pagePopsOwnLine page = true :=
    fun page hp => pagePopsOwnLine_of_everyLineHasText page (htext page hp)
  have hmain : ∀ shorter longer : FulltextResult,
      getFulltext pdfDocument (.number (k : ℚ)) = .ok shorter →
      getFulltext pdfDocument (.number ((k + 1 : Int) : ℚ)) = .ok longer →
      ∃ rest, longer.text = shorter.text ++ "\x0c" ++ rest := by
    intro shorter longer hs hl
    obtain ⟨ps, hps1, hps2, hps3⟩ := getFulltext_form _ _ _ hs hpop
    obtain ⟨pl, hpl1, hpl2, hpl3⟩ := getFulltext_form _ _ _ hl hpop
    rw [clampPagesNum_int] at hps1 hpl1
    have hk : ¬ ((pdfDocument.numPages : Int) < k) := by omega
    have hk1 : ¬ ((pdfDocument.numPages : Int) < k + 1) := by omega
    simp only [hk, if_false] at hps1
    simp only [hk1, if_false] at hpl1
    have hlen : pl.length = ps.length + 1 := by omega
    have hne : ps ≠ [] := by
      intro hnil
      rw [hnil] at hps1
      simp at hps1
      omega
    have hsplit : pl = ps ++ pl.drop ps.length := by
      have htake : pl.take ps.length = ps := by
        apply map_ok_injective
        rw [← hps2, List.map_take, ← hpl2, List.take_take]
        congr 1
        omega
      conv_lhs => rw [← List.take_append_drop ps.length pl]
      rw [htake]
    obtain ⟨page, hpage⟩ : ∃ page, pl.drop ps.length = [page] := by
      have hd : (pl.drop ps.length).length = 1 := by
        rw [List.length_drop]; omega
      match hm : pl.drop ps.length, hd with
      | [page], _ => exact ⟨page, rfl⟩
    rw [hpage] at hsplit
    refine ⟨pageBody page ++ "\n\n", ?_⟩
    rw [hpl3, hps3, hsplit, fulltextForm_append ps hne page]
  refine ⟨hmain, ?_⟩
  intro hall
  obtain ⟨pages, hpages⟩ := all_ok_eq_map _ hall
  have hdoc : pdfDocument =
      { documentInfo := pdfDocument.documentInfo, pages := pages.map .ok } := by
    cases pdfDocument
    simp_all
  obtain ⟨shorter, hs⟩ := getFulltext_total pdfDocument.documentInfo pages (.number (k : ℚ))
  obtain ⟨longer, hl⟩ :=
    getFulltext_total pdfDocument.documentInfo pages (.number ((k + 1 : Int) : ℚ))
  rw [← hdoc] at hs hl
  exact ⟨shorter, longer, hs, hl, hmain shorter longer hs hl⟩

/-- Witness for C19: a two-page document with a hyphenated line, k = 1. -/
theorem text_of_first_pages_is_kept_witness :
    ∃ shorter longer : FulltextResult,
      getFulltext hyphenDocument (.number ((1 : Int) : ℚ)) = .ok shorter ∧
      getFulltext hyphenDocument (.number (((1 : Int) + 1 : Int) : ℚ)) = .ok longer ∧
      ∃ rest, longer.text = shorter.text ++ "\x0c" ++ rest :=
  (text_of_first_pages_is_kept hyphenDocument 1 (by decide) (by decide)
    (by
      intro page hp
      simp only [hyphenDocument, List.mem_cons, Except.ok.injEq, List.mem_nil_iff,
        or_false] at hp
      rcases hp with hp | hp <;> subst hp <;> decide)).2
    (by
      intro answer ha
      simp only [hyphenDocument, List.mem_cons, List.mem_nil_iff, or_false] at ha
      rcases ha with ha | ha
      · exact ⟨hyphenPage, ha⟩
      · exact ⟨plainPage, ha⟩)

/-! ## Lemmas on the bridge -/

theorem getEntry_setEntry (table : List (Nat × Nat)) (id resolve other : Nat) :
    getEntry (setEntry table id resolve) other =
      if other = id then some resolve else getEntry table other := by
  induction table with
  | nil =>
    by_cases h : other = id
    · simp [setEntry, getEntry, h]
    · have h2 : ¬ id = other := fun hk => h hk.symm
      simp [setEntry, getEntry, h, h2]
  | cons head rest ih =>
    obtain ⟨id0, resolve0⟩ := head
    by_cases h0 : id0 = id
    · by_cases h : other = id
      · simp [setEntry, getEntry, h0, h]
      · have h2 : ¬ id = other := fun hk => h hk.symm
        simp [setEntry, getEntry, h0, h, h2]
    · by_cases h : id0 = other
      · have hne : ¬ other = id := fun hk => h0 (h.trans hk)
        simp [setEntry, getEntry, h0, h, hne]
      · simp [setEntry, getEntry, h0, h, ih]

theorem mem_setEntry (table : List (Nat × Nat)) (id resolve : Nat) (entry : Nat × Nat)
    (h : entry ∈ setEntry table id resolve) : entry ∈ table ∨ entry = (id, resolve) := by
  induction table with
  | nil => simp [setEntry] at h; exact Or.inr h
  | cons head rest ih =>
    obtain ⟨id0, resolve0⟩ := head
    by_cases h0 : id0 = id
    · simp only [setEntry, h0, if_true, List.mem_cons] at h
      rcases h with h | h
      · exact Or.inr h
      · exact Or.inl (List.mem_cons_of_mem _ h)
    · simp only [setEntry, h0, if_false, List.mem_cons] at h
      rcases h with h | h
      · exact Or.inl (by rw [h]; exact List.mem_cons_self _ _)
      · rcases ih h with h | h
        · exact Or.inl (List.mem_cons_of_mem _ h)
        · exact Or.inr h

theorem getEntry_eq_none (table : List (Nat × Nat)) (id : Nat)
    (h : ∀ entry ∈ table, entry.1 ≠ id) : getEntry table id = none := by
  induction table with
  | nil => rfl
  | cons head rest ih =>
    obtain ⟨id0, resolve0⟩ := head
    have h0 : id0 ≠ id := h (id0, resolve0) (List.mem_cons_self _ _)
    simp only [getEntry, h0, if_false]
    exact ih (fun entry he => h entry (List.mem_cons_of_mem _ he))

theorem length_setEntry (table : List (Nat × Nat)) (id resolve : Nat)
    (h : getEntry table id = none) :
    (setEntry table id resolve).length = table.length + 1 := by
  induction table with
  | nil => rfl
  | cons head rest ih =>
    obtain ⟨id0, resolve0⟩ := head
    by_cases h0 : id0 = id
    · simp [getEntry, h0] at h
    · simp only [getEntry, h0, if_false] at h
      simp [setEntry, h0, ih h]

theorem requestIds_append (front back : List Posted) :
    requestIds (front ++ back) = requestIds front ++ requestIds back := by
  induction front with
  | nil => rfl
  | cons head rest ih =>
    cases head with
    | request id action data => simp [requestIds, ih]
    | response message => simp [requestIds, ih]

theorem bridgeInvariant_query (action : String) (data : JSValue) (worker : Worker)
    (h : bridgeInvariant worker) : bridgeInvariant (query action data worker).2 := by
  obtain ⟨h1, h2⟩ := h
  constructor
  · simp only [query, requestIds_append, h1, requestIds]
    rw [List.range'_1_concat, Nat.add_comm 1 worker.promiseID]
  · intro entry he
    simp only [query] at he ⊢
    rcases mem_setEntry _ _ _ _ he with he | he
    · exact Nat.le_succ_of_le (h2 entry he)
    · rw [he]

theorem bridgeInvariant_onResponse (id : Nat) (data : JSValue) (worker : Worker)
    (h : bridgeInvariant worker) : bridgeInvariant (onResponse id data worker) := by
  unfold onResponse
  cases getEntry worker.waitingPromises id with
  | none => exact h
  | some resolve => exact h

theorem bridgeInvariant_respond (ownProperties : OwnProperties) (id : JSValue)
    (outcome : Except Fault Payload) (worker after : Worker) (h : bridgeInvariant worker)
    (hstep : respond ownProperties id outcome worker = .ok after) : bridgeInvariant after := by
  obtain ⟨h1, h2⟩ := h
  unfold respond at hstep
  cases outcome with
  | ok data =>
    simp only [Except.ok.injEq] at hstep
    rw [← hstep]
    exact ⟨by simp [requestIds_append, requestIds, h1], h2⟩
  | error e =>
    simp only at hstep
    cases hobj : errObject ownProperties e with
    | error thrown => rw [hobj] at hstep; cases hstep
    | ok object =>
      rw [hobj] at hstep
      simp only [Except.ok.injEq] at hstep
      rw [← hstep]
      exact ⟨by simp [requestIds_append, requestIds, h1], h2⟩

theorem bridgeInvariant_cmapProvider (name : String) (answer : JSValue) (worker : Worker)
    (h : bridgeInvariant worker) : bridgeInvariant (cmapProvider name answer worker).2 := by
  unfold cmapProvider
  split
  · exact h
  · exact bridgeInvariant_onResponse _ _ _ (bridgeInvariant_query _ _ _ h)

theorem bridgeInvariant_standardFontProvider (filename : String) (answer : JSValue)
    (worker : Worker) (h : bridgeInvariant worker) :
    bridgeInvariant (standardFontProvider filename answer worker).2 := by
  unfold standardFontProvider
  split
  · exact h
  · exact bridgeInvariant_onResponse _ _ _ (bridgeInvariant_query _ _ _ h)

theorem bridgeInvariant_runFetches (fetches : List ResourceFetch) :
    ∀ worker : Worker, bridgeInvariant worker → bridgeInvariant (runFetches fetches worker) := by
  induction fetches with
  | nil => intro worker h; exact h
  | cons fetch rest ih =>
    intro worker h
    cases fetch with
    | cmap name answer => exact ih _ (bridgeInvariant_cmapProvider name answer worker h)
    | standardFont filename answer =>
      exact ih _ (bridgeInvariant_standardFontProvider filename answer worker h)

theorem bridgeInvariant_pipelineState (LocalPdfManager : Engine) (buf : Buffer)
    (worker : Worker) (h : bridgeInvariant worker) :
    bridgeInvariant (pipelineState LocalPdfManager buf worker) := by
  unfold pipelineState
  split
  · exact h
  · exact bridgeInvariant_runFetches _ _ h

theorem bridgeInvariant_onmessage (ownProperties : OwnProperties) (LocalPdfManager : Engine)
    (message : Message) (worker after : Worker) (h : bridgeInvariant worker)
    (hstep : onmessage ownProperties LocalPdfManager message worker = .ok after) :
    bridgeInvariant after := by
  unfold onmessage at hstep
  split at hstep
  · simp only [Except.ok.injEq] at hstep
    rw [← hstep]
    exact bridgeInvariant_onResponse _ _ _ h
  · split at hstep
    · exact bridgeInvariant_respond _ _ _ _ _ (bridgeInvariant_pipelineState _ _ _ h) hstep
    · split at hstep
      · exact bridgeInvariant_respond _ _ _ _ _ (bridgeInvariant_pipelineState _ _ _ h) hstep
      · simp only [Except.ok.injEq] at hstep
        rw [← hstep]
        exact h

theorem bridgeInvariant_of_reachable (ownProperties : OwnProperties)
    (LocalPdfManager : Engine) (worker : Worker)
    (h : Reachable ownProperties LocalPdfManager worker) : bridgeInvariant worker := by
  induction h with
  | init => exact ⟨rfl, by intro entry he; simp [Worker.init] at he⟩
  | query action data _ ih => exact bridgeInvariant_query action data _ ih
  | onmessage message _ hstep ih => exact bridgeInvariant_onmessage _ _ _ _ _ ih hstep
  | cmapProvider name answer _ ih => exact bridgeInvariant_cmapProvider _ _ _ ih
  | standardFontProvider filename answer _ ih =>
    exact bridgeInvariant_standardFontProvider _ _ _ ih

/-! ## C14: the resource caches -/

theorem readProperty_setProperty (obj : JSObject) (key : String) (value : JSValue)
    (hproto : getProperty obj "__proto__" = none)
    (hmiss : (readProperty obj key).truthy = false) :
    readProperty (setProperty obj key value) key = value := by
  have hkey : key ≠ "__proto__" := by
    intro hk
    rw [hk] at hmiss
    simp [readProperty, hproto, objectPrototypeKeys, JSValue.truthy] at hmiss
  simp [readProperty, getProperty_setProperty, hkey]

theorem onResponse_caches (id : Nat) (data : JSValue) (worker : Worker) :
    (onResponse id data worker).cmapCache = worker.cmapCache ∧
    (onResponse id data worker).fontCache = worker.fontCache := by
  unfold onResponse
  split <;> exact ⟨rfl, rfl⟩

theorem respond_caches (ownProperties : OwnProperties) (id : JSValue)
    (outcome : Except Fault Payload) (worker after : Worker)
    (hstep : respond ownProperties id outcome worker = .ok after) :
    after.cmapCache = worker.cmapCache ∧ after.fontCache = worker.fontCache := by
  unfold respond at hstep
  cases outcome with
  | ok data =>
    simp only [Except.ok.injEq] at hstep
    rw [← hstep]
    exact ⟨rfl, rfl⟩
  | error e =>
    simp only at hstep
    cases hobj : errObject ownProperties e with
    | error thrown => rw [hobj] at hstep; cases hstep
    | ok object =>
      rw [hobj] at hstep
      simp only [Except.ok.injEq] at hstep
      rw [← hstep]
      exact ⟨rfl, rfl⟩

theorem getProperty_proto_setProperty (obj : JSObject) (key : String) (value : JSValue) :
    getProperty (setProperty obj key value) "__proto__" = getProperty obj "__proto__" := by
  rw [getProperty_setProperty]
  have hne : ¬ ("__proto__" = key ∧ key ≠ "__proto__") := fun h => h.2 h.1.symm
  rw [if_neg hne]

theorem cachesInvariant_cmapProvider (name : String) (answer : JSValue) (worker : Worker)
    (h : cachesInvariant worker) : cachesInvariant (cmapProvider name answer worker).2 := by
  unfold cachesInvariant at h ⊢
  unfold cmapProvider
  split
  · exact h
  · simp only
    rw [getProperty_proto_setProperty, (onResponse_caches _ _ _).1,
      (onResponse_caches _ _ _).2]
    exact h

theorem cachesInvariant_standardFontProvider (filename : String) (answer : JSValue)
    (worker : Worker) (h : cachesInvariant worker) :
    cachesInvariant (standardFontProvider filename answer worker).2 := by
  unfold cachesInvariant at h ⊢
  unfold standardFontProvider
  split
  · exact h
  · simp only
    rw [getProperty_proto_setProperty, (onResponse_caches _ _ _).1,
      (onResponse_caches _ _ _).2]
    exact h

theorem cachesInvariant_runFetches (fetches : List ResourceFetch) :
    ∀ worker : Worker, cachesInvariant worker → cachesInvariant (runFetches fetches worker) := by
  induction fetches with
  | nil => intro worker h; exact h
  | cons fetch rest ih =>
    intro worker h
    cases fetch with
    | cmap name answer => exact ih _ (cachesInvariant_cmapProvider name answer worker h)
    | standardFont filename answer =>
      exact ih _ (cachesInvariant_standardFontProvider filename answer worker h)

theorem cachesInvariant_pipelineState (LocalPdfManager : Engine) (buf : Buffer)
    (worker : Worker) (h : cachesInvariant worker) :
    cachesInvariant (pipelineState LocalPdfManager buf worker) := by
  unfold pipelineState
  split
  · exact h
  · exact cachesInvariant_runFetches _ _ h

theorem cachesInvariant_respond (ownProperties : OwnProperties) (id : JSValue)
    (outcome : Except Fault Payload) (worker after : Worker) (h : cachesInvariant worker)
    (hstep : respond ownProperties id outcome worker = .ok after) : cachesInvariant after := by
  obtain ⟨h1, h2⟩ := respond_caches _ _ _ _ _ hstep
  unfold cachesInvariant at h ⊢
  rw [h1, h2]
  exact h

theorem caches_of_reachable (ownProperties : OwnProperties) (LocalPdfManager : Engine)
    (worker : Worker) (h : Reachable ownProperties LocalPdfManager worker) :
    getProperty worker.cmapCache "__proto__" = none ∧
    getProperty worker.fontCache "__proto__" = none := by
  induction h with
  | init => exact ⟨rfl, rfl⟩
  | query action data _ ih => exact ih
  | onmessage message _ hstep ih =>
    unfold onmessage at hstep
    split at hstep
    · simp only [Except.ok.injEq] at hstep
      rw [← hstep, (onResponse_caches _ _ _).1, (onResponse_caches _ _ _).2]
      exact ih
    · split at hstep
      · exact cachesInvariant_respond _ _ _ _ _ (cachesInvariant_pipelineState _ _ _ ih) hstep
      · split at hstep
        · exact cachesInvariant_respond _ _ _ _ _ (cachesInvariant_pipelineState _ _ _ ih) hstep
        · simp only [Except.ok.injEq] at hstep
          rw [← hstep]
          exact ih
  | cmapProvider name answer _ ih => exact cachesInvariant_cmapProvider _ _ _ ih
  | standardFontProvider filename answer _ ih =>
    exact cachesInvariant_standardFontProvider _ _ _ ih

/-- C14, as stated, fails: when the remote side answers with the empty string,
the payload is stored but the test of line 228 does not recognise it, and the
second fetch of the same name issues a second query (likewise for
`standardFontProvider`). -/
theorem falsy_payload_is_fetched_again :
    (cmapProvider "H" (.string "") Worker.init).2.promiseID = 1 ∧
    (cmapProvider "H" (.string "")
      (cmapProvider "H" (.string "") Worker.init).2).2.promiseID = 2 ∧
    requestIds (cmapProvider "H" (.string "")
      (cmapProvider "H" (.string "") Worker.init).2).2.posted = [1, 2] ∧
    (standardFontProvider "FoxitSerif.pfb" .null
      (standardFontProvider "FoxitSerif.pfb" .null Worker.init).2).2.promiseID = 2 := by
  decide

/-- C14, amended: in every reachable state, when the first fetch of a name
through `cmapProvider` (respectively `standardFontProvider`) is answered with a
truthy payload, the second fetch of the same name is a cache hit: it issues no
query, leaves the state as it is and returns what the first fetch returned,
which is the stored payload when the first fetch missed; the two fetches issue
at most one query. -/
theorem second_fetch_hits_cache (ownProperties : OwnProperties) (LocalPdfManager : Engine)
    (name : String) (first second : JSValue) (worker : Worker)
    (hreach : Reachable ownProperties LocalPdfManager worker)
    (htruthy : first.truthy = true) :
    ((cmapProvider name second (cmapProvider name first worker).2).2 =
        (cmapProvider name first worker).2 ∧
      (cmapProvider name second (cmapProvider name first worker).2).1 =
        (cmapProvider name first worker).1 ∧
      (cmapProvider name second (cmapProvider name first worker).2).2.promiseID ≤
        worker.promiseID + 1 ∧
      ((readProperty worker.cmapCache name).truthy = false →
        (cmapProvider name first worker).1 = first ∧
        (cmapProvider name first worker).2.promiseID = worker.promiseID + 1 ∧
        readProperty (cmapProvider name first worker).2.cmapCache name = first)) ∧
    ((standardFontProvider name second (standardFontProvider name first worker).2).2 =
        (standardFontProvider name first worker).2 ∧
      (standardFontProvider name second (standardFontProvider name first worker).2).1 =
        (standardFontProvider name first worker).1 ∧
      (standardFontProvider name second (standardFontProvider name first worker).2).2.promiseID ≤
        worker.promiseID + 1 ∧
      ((readProperty worker.fontCache name).truthy = false →
        (standardFontProvider name first worker).1 = first ∧
        (standardFontProvider name first worker).2.promiseID = worker.promiseID + 1 ∧
        readProperty (standardFontProvider name first worker).2.fontCache name = first)) := by
  obtain ⟨hcmap, hfont⟩ := caches_of_reachable _ _ _ hreach
  constructor
  · by_cases hhit : (readProperty worker.cmapCache name).truthy = true
    · have h1 : cmapProvider name first worker =
          (readProperty worker.cmapCache name, worker) := by
        simp [cmapProvider, hhit]
      have h2 : cmapProvider name second worker =
          (readProperty worker.cmapCache name, worker) := by
        simp [cmapProvider, hhit]
      rw [h1]
      simp only [h2]
      exact ⟨trivial, trivial, Nat.le_succ _, fun hmiss => by rw [hhit] at hmiss; cases hmiss⟩
    · have hmiss : (readProperty worker.cmapCache name).truthy = false := by
        simpa using hhit
      have hread := readProperty_setProperty worker.cmapCache name first hcmap hmiss
      have hcache : (cmapProvider name first worker).2.cmapCache =
          setProperty worker.cmapCache name first := by
        simp only [cmapProvider, hmiss, Bool.false_eq_true, if_false, onResponse]
        split <;> rfl
      have hvalue : (cmapProvider name first worker).1 = first := by
        simp [cmapProvider, hmiss]
      have hid : (cmapProvider name first worker).2.promiseID = worker.promiseID + 1 := by
        simp only [cmapProvider, hmiss, Bool.false_eq_true, if_false, onResponse]
        split <;> rfl
      have hsecond : cmapProvider name second (cmapProvider name first worker).2 =
          (first, (cmapProvider name first worker).2) := by
        unfold cmapProvider
        simp only [cmapProvider] at hcache
        rw [hcache, hread]
        simp [htruthy]
      rw [hsecond]
      exact ⟨rfl, hvalue.symm, Nat.le_of_eq hid, fun _ => ⟨hvalue, hid, by rw [hcache, hread]⟩⟩
  · by_cases hhit : (readProperty worker.fontCache name).truthy = true
    · have h1 : standardFontProvider name first worker =
          (readProperty worker.fontCache name, worker) := by
        simp [standardFontProvider, hhit]
      have h2 : standardFontProvider name second worker =
          (readProperty worker.fontCache name, worker) := by
        simp [standardFontProvider, hhit]
      rw [h1]
      simp only [h2]
      exact ⟨trivial, trivial, Nat.le_succ _, fun hmiss => by rw [hhit] at hmiss; cases hmiss⟩
    · have hmiss : (readProperty worker.fontCache name).truthy = false := by
        simpa using hhit
      have hread := readProperty_setProperty worker.fontCache name first hfont hmiss
      have hcache : (standardFontProvider name first worker).2.fontCache =
          setProperty worker.fontCache name first := by
        simp only [standardFontProvider, hmiss, Bool.false_eq_true, if_false, onResponse]
        split <;> rfl
      have hvalue : (standardFontProvider name first worker).1 = first := by
        simp [standardFontProvider, hmiss]
      have hid : (standardFontProvider name first worker).2.promiseID =
          worker.promiseID + 1 := by
        simp only [standardFontProvider, hmiss, Bool.false_eq_true, if_false, onResponse]
        split <;> rfl
      have hsecond :
          standardFontProvider name second (standardFontProvider name first worker).2 =
            (first, (standardFontProvider name first worker).2) := by
        unfold standardFontProvider
        simp only [standardFontProvider] at hcache
        rw [hcache, hread]
        simp [htruthy]
      rw [hsecond]
      exact ⟨rfl, hvalue.symm, Nat.le_of_eq hid, fun _ => ⟨hvalue, hid, by rw [hcache, hread]⟩⟩

/-- Witness for C14: two fetches of the character map "H", the remote side
answering with a non-empty payload. -/
theorem second_fetch_hits_cache_witness :
    (cmapProvider "H" (.string "other")
      (cmapProvider "H" (.string "cmap data") Worker.init).2).1 =
        (cmapProvider "H" (.string "cmap data") Worker.init).1 ∧
    (cmapProvider "H" (.string "other")
      (cmapProvider "H" (.string "cmap data") Worker.init).2).2.promiseID ≤
        Worker.init.promiseID + 1 :=
  have h := (second_fetch_hits_cache sampleProperties openEngine "H" (.string "cmap data")
    (.string "other") Worker.init Reachable.init (by decide)).1
  ⟨h.2.1, h.2.2.1⟩

/-! ## C15: pending entries -/

/-- C15, as stated, fails: after the response to the request with correlation
ID 1 has been handled, the resolver has been called and the table still holds
the entry under 1. -/
theorem pending_entry_is_not_removed :
    getEntry (query "FetchBuiltInCMap" (.string "H") Worker.init).2.waitingPromises 1 =
      some 0 ∧
    ∃ after, onmessage sampleProperties openEngine firstResponse
        (query "FetchBuiltInCMap" (.string "H") Worker.init).2 = .ok after ∧
      after.resolved = [(0, .string "payload")] ∧
      getEntry after.waitingPromises 1 = some 0 :=
  ⟨rfl, _, rfl, rfl, rfl⟩

/-- C15, amended: each `query` increments the counter and creates one entry
under the new correlation ID, leaving the entries under other IDs as they are
(in a reachable state the table grows by exactly one entry); when a response
whose `responseID` matches a pending ID is handled, the resolver of that entry
is called with the data of the response and the table is left unchanged: the
entry is not removed. -/
theorem pending_entry_created_and_kept (ownProperties : OwnProperties)
    (LocalPdfManager : Engine) (worker : Worker) :
    (∀ (action : String) (data : JSValue),
      (query action data worker).2.promiseID = worker.promiseID + 1 ∧
      getEntry (query action data worker).2.waitingPromises
        (query action data worker).2.promiseID = some (query action data worker).1 ∧
      (∀ id, id ≠ (query action data worker).2.promiseID →
        getEntry (query action data worker).2.waitingPromises id =
          getEntry worker.waitingPromises id) ∧
      (Reachable ownProperties LocalPdfManager worker →
        (query action data worker).2.waitingPromises.length =
          worker.waitingPromises.length + 1)) ∧
    (∀ (message : Message) (id resolve : Nat),
      message.responseID = some id → id ≠ 0 →
      getEntry worker.waitingPromises id = some resolve →
      ∃ after, onmessage ownProperties LocalPdfManager message worker = .ok after ∧
        after.resolved = worker.resolved ++ [(resolve, message.data)] ∧
        after.waitingPromises = worker.waitingPromises ∧
        getEntry after.waitingPromises id = some resolve ∧
        after.promiseID = worker.promiseID ∧
        after.posted = worker.posted) := by
  constructor
  · intro action data
    refine ⟨rfl, ?_, ?_, ?_⟩
    · simp [query, getEntry_setEntry]
    · intro id hid
      simp only [query] at hid ⊢
      rw [getEntry_setEntry, if_neg hid]
    · intro hreach
      obtain ⟨_, hkeys⟩ := bridgeInvariant_of_reachable _ _ _ hreach
      simp only [query]
      apply length_setEntry
      apply getEntry_eq_none
      intro entry he
      have := hkeys entry he
      omega
  · intro message id resolve hid hne hentry
    obtain ⟨n, hn⟩ := Nat.exists_eq_succ_of_ne_zero hne
    subst hn
    refine ⟨onResponse (n + 1) message.data worker, ?_, ?_, ?_, ?_, ?_, ?_⟩
    · simp [onmessage, hid]
    all_goals simp [onResponse, hentry]

/-- Witness for C15: the first query from the initial state and the response
to it. -/
theorem pending_entry_created_and_kept_witness :
    (query "FetchBuiltInCMap" (.string "H") Worker.init).2.waitingPromises.length =
      Worker.init.waitingPromises.length + 1 ∧
    ∃ after, onmessage sampleProperties openEngine firstResponse
        (query "FetchBuiltInCMap" (.string "H") Worker.init).2 = .ok after ∧
      after.waitingPromises =
        (query "FetchBuiltInCMap" (.string "H") Worker.init).2.waitingPromises :=
  ⟨((pending_entry_created_and_kept sampleProperties openEngine Worker.init).1
      "FetchBuiltInCMap" (.string "H")).2.2.2 Reachable.init,
   ((pending_entry_created_and_kept sampleProperties openEngine
      (query "FetchBuiltInCMap" (.string "H") Worker.init).2).2 firstResponse 1 0 rfl
      (by decide) rfl).imp fun _ h => ⟨h.1, h.2.2.1⟩⟩

/-! ## C16: correlation IDs -/

/-- C16: in every reachable state the correlation IDs allocated so far are
strictly increasing in the order of the calls and at most the counter, every key
of the pending table is at most the counter, and the ID the next `query`
allocates is greater than all of them, so it is not the ID of a pending entry. -/
theorem correlation_ids_increase (ownProperties : OwnProperties) (LocalPdfManager : Engine)
    (worker : Worker) (h : Reachable ownProperties LocalPdfManager worker) :
    List.Pairwise (fun earlier later => earlier < later) (requestIds worker.posted) ∧
    (∀ id ∈ requestIds worker.posted, id ≤ worker.promiseID) ∧
    (∀ entry ∈ worker.waitingPromises, entry.1 ≤ worker.promiseID) ∧
    (∀ (action : String) (data : JSValue),
      requestIds (query action data worker).2.posted =
        requestIds worker.posted ++ [(query action data worker).2.promiseID] ∧
      (∀ id ∈ requestIds worker.posted, id < (query action data worker).2.promiseID) ∧
      (∀ entry ∈ worker.waitingPromises,
        entry.1 < (query action data worker).2.promiseID) ∧
      getEntry worker.waitingPromises (query action data worker).2.promiseID = none) := by
  obtain ⟨hids, hkeys⟩ := bridgeInvariant_of_reachable _ _ _ h
  have hbound : ∀ id ∈ requestIds worker.posted, id ≤ worker.promiseID := by
    intro id hid
    rw [hids, List.mem_range'_1] at hid
    omega
  refine ⟨?_, hbound, hkeys, ?_⟩
  · rw [hids]
    exact List.pairwise_lt_range' 1 worker.promiseID
  · intro action data
    refine ⟨?_, ?_, ?_, ?_⟩
    · simp [query, requestIds_append, requestIds]
    · intro id hid
      have := hbound id hid
      simp only [query]
      omega
    · intro entry he
      have := hkeys entry he
      simp only [query]
      omega
    · apply getEntry_eq_none
      intro entry he
      have := hkeys entry he
      simp only [query]
      omega

/-- Witness for C16: the state after two queries and a response. -/
theorem correlation_ids_increase_witness :
    List.Pairwise (fun earlier later => earlier < later)
      (requestIds (onResponse 1 (.string "payload")
        (query "FetchStandardFontData" (.string "FoxitSerif.pfb")
          (query "FetchBuiltInCMap" (.string "H") Worker.init).2).2).posted) ∧
    requestIds (onResponse 1 (.string "payload")
        (query "FetchStandardFontData" (.string "FoxitSerif.pfb")
          (query "FetchBuiltInCMap" (.string "H") Worker.init).2).2).posted = [1, 2] :=
  ⟨(correlation_ids_increase sampleProperties openEngine _
      (Reachable.onmessage firstResponse
        (Reachable.query "FetchStandardFontData" (.string "FoxitSerif.pfb")
          (Reachable.query "FetchBuiltInCMap" (.string "H") Reachable.init)) rfl)).1,
    by decide⟩

/-! ## C17: the dispatcher -/

theorem posted_cmapProvider (name : String) (answer : JSValue) (worker : Worker) :
    ∃ extra, (cmapProvider name answer worker).2.posted = worker.posted ++ extra ∧
      extra.all Posted.isRequest = true := by
  unfold cmapProvider
  split
  · exact ⟨[], by simp, rfl⟩
  · refine ⟨[.request (worker.promiseID + 1) "FetchBuiltInCMap" (.string name)], ?_, rfl⟩
    simp only [onResponse, query]
    split <;> rfl

theorem posted_standardFontProvider (filename : String) (answer : JSValue) (worker : Worker) :
    ∃ extra, (standardFontProvider filename answer worker).2.posted = worker.posted ++ extra ∧
      extra.all Posted.isRequest = true := by
  unfold standardFontProvider
  split
  · exact ⟨[], by simp, rfl⟩
  · refine ⟨[.request (worker.promiseID + 1) "FetchStandardFontData" (.string filename)],
      ?_, rfl⟩
    simp only [onResponse, query]
    split <;> rfl

theorem posted_runFetches (fetches : List ResourceFetch) :
    ∀ worker : Worker, ∃ extra, (runFetches fetches worker).posted = worker.posted ++ extra ∧
      extra.all Posted.isRequest = true := by
  induction fetches with
  | nil => intro worker; exact ⟨[], by simp [runFetches], rfl⟩
  | cons fetch rest ih =>
    intro worker
    cases fetch with
    | cmap name answer =>
      obtain ⟨first, h1, h2⟩ := posted_cmapProvider name answer worker
      obtain ⟨more, h3, h4⟩ := ih (cmapProvider name answer worker).2
      refine ⟨first ++ more, ?_, ?_⟩
      · simp only [runFetches]
        rw [h3, h1, List.append_assoc]
      · rw [List.all_append, h2, h4]
        rfl
    | standardFont filename answer =>
      obtain ⟨first, h1, h2⟩ := posted_standardFontProvider filename answer worker
      obtain ⟨more, h3, h4⟩ := ih (standardFontProvider filename answer worker).2
      refine ⟨first ++ more, ?_, ?_⟩
      · simp only [runFetches]
        rw [h3, h1, List.append_assoc]
      · rw [List.all_append, h2, h4]
        rfl

theorem posted_pipelineState (LocalPdfManager : Engine) (buf : Buffer) (worker : Worker) :
    ∃ extra, (pipelineState LocalPdfManager buf worker).posted = worker.posted ++ extra ∧
      extra.all Posted.isRequest = true := by
  unfold pipelineState
  split
  · exact ⟨[], by simp, rfl⟩
  · exact posted_runFetches _ _

theorem errObject_of_object (ownProperties : OwnProperties) (e : Fault)
    (props : List (String × PlainValue)) (h : e.value ownProperties = .object props) :
    errObject ownProperties e =
      .ok (.object (pick (roundTripProps (props.map (fun kv => kv.1)) props)
        (props.map (fun kv => kv.1)))) := by
  unfold errObject
  rw [h]
  simp [roundTrip, getOwnPropertyNames]

theorem errObject_eq_error (ownProperties : OwnProperties) (e thrown : Fault)
    (h : errObject ownProperties e = .error thrown) :
    (e = .thrown .undefined ∨ e = .thrown .null) ∧
    thrown = .typeError "Cannot convert undefined or null to object" := by
  unfold errObject at h
  cases e with
  | thrown value =>
    cases value <;> simp [Fault.value, roundTrip] at h ⊢ <;> exact h.symm
  | engine message => simp [Fault.value, roundTrip] at h
  | typeError message => simp [Fault.value, roundTrip] at h
  | xRefParse message => simp [Fault.value, roundTrip] at h
  | syntaxError message => simp [Fault.value, roundTrip] at h

/-- The dispatcher on a request, a supporting statement for C17: the handler
first lets the pipeline make its fetches, which post requests only; when the
pipeline returns, or throws a failure other than `undefined` and `null`, the
handler returns and has then posted exactly one response, whose `responseID` is
the `id` of the request and which holds the result under `data` or the
serialized failure under `error`, never both; when the pipeline throws
`undefined` or `null` the handler posts no response and rejects with the
`TypeError` of `errObject`. -/
theorem dispatcher_response (ownProperties : OwnProperties) (LocalPdfManager : Engine)
    (message : Message) (worker : Worker) (outcome : Except Fault Payload)
    (hrequest : message.responseID = none)
    (haction :
      (message.action = "getFulltext" ∧
        outcome = (getFulltextCall LocalPdfManager message.buf message.password
          message.maxPages).map Payload.fulltext) ∨
      (message.action = "getRecognizerData" ∧
        outcome = (getRecognizerDataCall LocalPdfManager message.buf message.password).map
          Payload.recognizer)) :
    (∃ extra, (pipelineState LocalPdfManager message.buf worker).posted =
        worker.posted ++ extra ∧ extra.all Posted.isRequest = true) ∧
    (∀ data, outcome = .ok data →
      ∃ after, onmessage ownProperties LocalPdfManager message worker = .ok after ∧
        after.posted = (pipelineState LocalPdfManager message.buf worker).posted ++
          [.response { responseID := message.id, data := some data, error := none }]) ∧
    (∀ e, outcome = .error e → e ≠ .thrown .undefined → e ≠ .thrown .null →
      ∃ after object, errObject ownProperties e = .ok object ∧
        onmessage ownProperties LocalPdfManager message worker = .ok after ∧
        after.posted = (pipelineState LocalPdfManager message.buf worker).posted ++
          [.response { responseID := message.id, data := none, error := some object }]) ∧
    (∀ e, outcome = .error e → (e = .thrown .undefined ∨ e = .thrown .null) →
      onmessage ownProperties LocalPdfManager message worker =
        .error (.typeError "Cannot convert undefined or null to object")) := by
  have hne : ¬ ("getRecognizerData" = "getFulltext") := by decide
  have hstep : onmessage ownProperties LocalPdfManager message worker =
      respond ownProperties message.id outcome
        (pipelineState LocalPdfManager message.buf worker) := by
    rcases haction with ⟨hact, hout⟩ | ⟨hact, hout⟩
    · simp only [onmessage, hrequest, hact, if_true, hout]
    · simp only [onmessage, hrequest, hact, hne, if_false, if_true, hout]
  refine ⟨posted_pipelineState _ _ _, ?_, ?_, ?_⟩
  · intro data hdata
    rw [hstep, hdata]
    exact ⟨_, rfl, rfl⟩
  · intro e he hundefined hnull
    rw [hstep, he]
    cases hobj : errObject ownProperties e with
    | error thrown =>
      rcases (errObject_eq_error _ _ _ hobj).1 with h | h
      · exact absurd h hundefined
      · exact absurd h hnull
    | ok object =>
      refine ⟨{ pipelineState LocalPdfManager message.buf worker with
          posted := (pipelineState LocalPdfManager message.buf worker).posted ++
            [.response { responseID := message.id, data := none, error := some object }] },
        object, rfl, ?_, rfl⟩
      simp only [respond, hobj]
  · intro e he hthrown
    rw [hstep, he]
    rcases hthrown with h | h <;> subst h <;> rfl

/-- The dispatcher with an engine that fetches resources: the requests of the
bridge are posted before the response, the second fetch of "H" posting none. -/
theorem fetching_request_posts :
    ∃ after data, onmessage sampleProperties fetchingEngine secretRequest Worker.init =
        .ok after ∧
      after.posted =
        [.request 1 "FetchBuiltInCMap" (.string "H"),
         .request 2 "FetchStandardFontData" (.string "FoxitSerif.pfb"),
         .response { responseID := .number 7, data := some data, error := none }] :=
  ⟨_, _, rfl, rfl⟩

/-- C17 fails on the code: when the pipeline of a request throws `undefined`
(here the engine rejects the call `checkHeader` with it), `errObject` throws a
`TypeError` inside `catch`, for every host; the handler posts nothing, the
state being the initial one with no message posted, and the `TypeError` leaves
the handler.  The same holds for a thrown `null`. -/
theorem thrown_undefined_escapes :
    secretRequest.responseID = none ∧ secretRequest.action = "getFulltext" ∧
    getFulltextCall rejectingEngine secretRequest.buf secretRequest.password
      secretRequest.maxPages = .error (.thrown .undefined) ∧
    (∀ ownProperties : OwnProperties,
      errObject ownProperties (.thrown .undefined) =
        .error (.typeError "Cannot convert undefined or null to object") ∧
      errObject ownProperties (.thrown .null) =
        .error (.typeError "Cannot convert undefined or null to object") ∧
      onmessage ownProperties rejectingEngine secretRequest Worker.init =
        .error (.typeError "Cannot convert undefined or null to object") ∧
      onmessage ownProperties rejectingEngine
        { secretRequest with action := "getRecognizerData" } Worker.init =
        .error (.typeError "Cannot convert undefined or null to object")) ∧
    pipelineState rejectingEngine secretRequest.buf Worker.init = Worker.init ∧
    Worker.init.posted = [] :=
  ⟨rfl, rfl, rfl, fun _ => ⟨rfl, rfl, rfl, rfl⟩, rfl, rfl⟩

/-! ## C18: the password -/

/-- C18 fails on the code: the arguments handed to the engine always carry the
empty password, the outcome of `getFulltext` and of `getRecognizerData` does not
depend on the password argument, and a document that opens with the password
"secret" is not opened when the caller supplies "secret": the caller receives
the serialized failure of the engine. -/
theorem password_is_not_forwarded :
    (∀ buf : Buffer, (pdfManagerArgs buf).password = "") ∧
    (∀ (LocalPdfManager : Engine) (buf : Buffer) (first second : String)
      (pagesNum : JSValue),
      getFulltextCall LocalPdfManager buf first pagesNum =
        getFulltextCall LocalPdfManager buf second pagesNum) ∧
    (∀ (LocalPdfManager : Engine) (buf : Buffer) (first second : String),
      getRecognizerDataCall LocalPdfManager buf first =
        getRecognizerDataCall LocalPdfManager buf second) ∧
    (lockedEngine { pdfManagerArgs secretRequest.buf with password := "secret" }).parse false =
      .ok () ∧
    getFulltextCall lockedEngine secretRequest.buf secretRequest.password
      secretRequest.maxPages = .error (.engine "No password given") ∧
    (∃ after, onmessage sampleProperties lockedEngine secretRequest Worker.init = .ok after ∧
      after.posted =
        [.response { responseID := .number 7, data := none,
                     error := some (.object [("message", .string "No password given"),
                                             ("name", .string "PasswordException"),
                                             ("code", .number 1)]) }]) ∧
    (∀ ownProperties : OwnProperties,
      ∃ after, onmessage ownProperties lockedEngine secretRequest Worker.init = .ok after ∧
        ∃ error, errObject ownProperties (.engine "No password given") = .ok error ∧
          after.posted =
            [.response { responseID := .number 7, data := none, error := some error }]) :=
  ⟨fun _ => rfl, fun _ _ _ _ _ => rfl, fun _ _ _ _ => rfl, rfl, rfl, ⟨_, rfl, rfl⟩,
    fun _ => ⟨_, rfl, _, rfl, rfl⟩⟩

end PdfWorker
